import Mathlib

/-!
# GeneInsight: the k-mer index and the classifier of `dna_analyzer`

A shallow embedding of `class KMerHashTable` of `dna_analyzer.h` (an
open-addressing hash table from 2-bit packed k-mer keys to lists of start
positions) and of the two functions of `dna_analyzer.cpp` (the embedding of a
sequence and the classifier), and theorems about them.

Modelling conventions

* `std::string` is a `List Char`; `std::vector<T>` is a `List T`;
  `genome.substr(i, K)` is `(genome.drop i).take K`.
* `KmerKey` (`unsigned long long`) is a `Nat` below `2 ^ 64`; the only operation
  of the source that can wrap, the shift `key << 2`, is reduced modulo `2 ^ 64`.
* `int` values of the hash table (capacities, positions, counters) are natural
  numbers; the development assumes they stay inside the range of `int`. The
  `int` counters of `get_sequence_embedding` are integers reduced to 32 bits
  after every addition.
* A `double` is a rational number or an IEEE 754 special value; the classifier
  rounds every operation to binary64.
* An exception is a value of `RuntimeError`; a member function that mutates the
  table and may throw returns the table as the throw left it, with an `Ending`.
* The `while` loops take a fuel argument (the capacity); running out of fuel is
  a separate outcome and is proved not to happen.
-/

namespace GeneInsight

/-- The messages of the `std::runtime_error`s thrown in `dna_analyzer.h`. -/
inductive RuntimeError where
  /-- "Invalid base in k-mer" -/
  | invalidBase
  /-- "k length mismatch" -/
  | lengthMismatch
  /-- "rehash failure" -/
  | rehashFailure
  /-- "Hash table full" -/
  | tableFull
  /-- "K must be between 1 and 32" -/
  | constructionError
  deriving DecidableEq

/-- Keys are `unsigned long long`: natural numbers below `2 ^ 64`. -/
abbrev KmerKey := Nat

/-- The constant `EMPTY_KEY = std::numeric_limits<KmerKey>::max()`. -/
def EMPTY_KEY : KmerKey := 2 ^ 64 - 1

/-- One element of `table`: `std::pair<KmerKey, std::vector<int>>`. -/
abbrev Slot := KmerKey × List Nat

/-- The value `{EMPTY_KEY, {}}` that `table.assign` fills the table with. -/
def emptySlot : Slot := (EMPTY_KEY, [])

/-- The data members of `class KMerHashTable`. -/
structure KMerHashTable where
  table : List Slot
  size_ : Nat
  K : Nat
  unique_keys_count : Nat
  deriving DecidableEq

/-- The element `table[idx]`. -/
def slotAt (table : List Slot) (idx : Nat) : Slot := table.getD idx emptySlot

/-- The function `base_to_int`: the 2-bit code of a base, or the invalid-base error. -/
def base_to_int (base : Char) : Except RuntimeError KmerKey :=
  if base = 'A' then .ok 0
  else if base = 'C' then .ok 1
  else if base = 'G' then .ok 2
  else if base = 'T' then .ok 3
  else .error .invalidBase

/-- The loop `for (char c : kmer) key = (key << 2) | base_to_int(c);` of
`encode_kmer`, the shift wrapping at 64 bits. -/
def encodeLoop : List Char → KmerKey → Except RuntimeError KmerKey
  | [], key => .ok key
  | c :: cs, key =>
    match base_to_int c with
    | .error e => .error e
    | .ok b => encodeLoop cs (((key <<< 2) % 2 ^ 64) ||| b)

/-- The function `encode_kmer` of a table whose k-mer length is `K`. -/
def encode_kmer (K : Nat) (kmer : List Char) : Except RuntimeError KmerKey :=
  if kmer.length ≠ K then .error .lengthMismatch
  else encodeLoop kmer 0

/-- The function `hash`: `key % size_`. -/
def hash (t : KMerHashTable) (key : KmerKey) : Nat := key % t.size_

/-- What the probe of `find_slot_for_insert` ends with. -/
inductive Probe where
  /-- the index the source returns -/
  | slot (idx : Nat)
  /-- the source's `return -1` -/
  | full
  /-- the iteration bound of the model was reached -/
  | fuel
  deriving DecidableEq

/-- The `while` loop of `find_slot_for_insert`, at index `idx`. -/
def findSlotLoop (t : KMerHashTable) (key : KmerKey) (start : Nat) : Nat → Nat → Probe
  | 0, _ => .fuel
  | fuel + 1, idx =>
    if (slotAt t.table idx).1 ≠ EMPTY_KEY ∧ (slotAt t.table idx).1 ≠ key then
      if (idx + 1) % t.size_ = start then .full
      else findSlotLoop t key start fuel ((idx + 1) % t.size_)
    else .slot idx

/-- The function `find_slot_for_insert`. -/
def find_slot_for_insert (t : KMerHashTable) (key : KmerKey) : Probe :=
  findSlotLoop t key (hash t key) t.size_ (hash t key)

/-- How a call of a mutating member function ends. -/
inductive Ending where
  /-- normal return -/
  | returned
  /-- an exception left the function -/
  | threw (e : RuntimeError)
  /-- the iteration bound of the model was reached -/
  | fuel
  deriving DecidableEq

/-- The assignments `table[slot].first = old[i].first; table[slot].second =
std::move(old[i].second); unique_keys_count++;` of `rehash`. -/
def moveInto (t : KMerHashTable) (slot : Nat) (o : Slot) : KMerHashTable :=
  { t with table := t.table.set slot (o.1, o.2),
           unique_keys_count := t.unique_keys_count + 1 }

/-- The `for` loop of `rehash` over the slots of the old table, `t` being the
table under construction. -/
def rehashLoop : List Slot → KMerHashTable → KMerHashTable × Ending
  | [], t => (t, .returned)
  | o :: rest, t =>
    if o.1 ≠ EMPTY_KEY then
      match find_slot_for_insert t o.1 with
      | .fuel => (t, .fuel)
      | .full => (t, .threw .rehashFailure)
      | .slot s => rehashLoop rest (moveInto t s o)
    else rehashLoop rest t

/-- The function `rehash`: the loop visits `old[0 .. old_size)`. -/
def rehash (t : KMerHashTable) (new_size : Nat) : KMerHashTable × Ending :=
  rehashLoop (t.table.take t.size_)
    { t with table := List.replicate new_size emptySlot,
             size_ := new_size,
             unique_keys_count := 0 }

/-- The test `(double)unique_keys_count / (double)size_ > MAX_OCCUPANCY` with
`MAX_OCCUPANCY = 0.7`. For `int` operands with `size_ ≥ 1` the rounded quotient
exceeds the double nearest to 0.7 exactly when `10 * count > 7 * size_`: the
division is correctly rounded, `7.0 / 10.0` rounds to that same double, and any
other quotient differs from 7/10 by at least `1 / (10 * size_)`. -/
def overOccupancy (t : KMerHashTable) : Bool :=
  decide (10 * t.unique_keys_count > 7 * t.size_)

/-- The end of `insert_internal`, for the slot found: `if (table[slot].first ==
EMPTY_KEY) { table[slot].first = key; unique_keys_count++; }
table[slot].second.push_back(pos);`. -/
def storeAt (t : KMerHashTable) (slot : Nat) (key : KmerKey) (pos : Nat) : KMerHashTable :=
  let t2 : KMerHashTable :=
    if (slotAt t.table slot).1 = EMPTY_KEY then
      { t with table := t.table.set slot (key, (slotAt t.table slot).2),
               unique_keys_count := t.unique_keys_count + 1 }
    else t
  { t2 with table :=
      t2.table.set slot ((slotAt t2.table slot).1, (slotAt t2.table slot).2 ++ [pos]) }

/-- The part of `insert_internal` after the occupancy test: the probe, the
"Hash table full" throw and the store. -/
def insertAfterCheck (t : KMerHashTable) (key : KmerKey) (pos : Nat) :
    KMerHashTable × Ending :=
  match find_slot_for_insert t key with
  | .fuel => (t, .fuel)
  | .full => (t, .threw .tableFull)
  | .slot s => (storeAt t s key pos, .returned)

/-- The function `insert_internal`; an exception of `rehash` leaves the function
with the table as `rehash` left it. -/
def insert_internal (t : KMerHashTable) (key : KmerKey) (pos : Nat) :
    KMerHashTable × Ending :=
  if overOccupancy t then
    match rehash t (t.size_ * 2) with
    | (t1, .returned) => insertAfterCheck t1 key pos
    | (t1, e) => (t1, e)
  else insertAfterCheck t key pos

/-- The constructor `KMerHashTable(int initial_size, int k)`. The capacity is a
natural number here: a negative `initial_size`, on which `table.assign` throws
`std::length_error`, is outside the model. The member `K` receives `k`, which
the test has confined to 1 .. 32. -/
def KMerHashTable.new (initial_size : Nat) (k : Int) : Except RuntimeError KMerHashTable :=
  if k ≤ 0 ∨ k > 32 then .error .constructionError
  else .ok { table := List.replicate initial_size emptySlot,
             size_ := initial_size,
             K := k.toNat,
             unique_keys_count := 0 }

/-- The body of the `for` loop of `build_index` over the window starts `i`:
the `try` block and its `catch (...)`, which keeps the table as the throw left
it. `none` stands for the iteration bound of the model. -/
def buildLoop (genome : List Char) : List Nat → KMerHashTable → Option KMerHashTable
  | [], t => some t
  | i :: rest, t =>
    match encode_kmer t.K ((genome.drop i).take t.K) with
    | .error _ => buildLoop genome rest t
    | .ok key =>
      match insert_internal t key i with
      | (_, .fuel) => none
      | (t1, _) => buildLoop genome rest t1

/-- The function `build_index`; the loop runs over `i = 0 .. genome.size() - K`. -/
def build_index (t : KMerHashTable) (genome : List Char) : Option KMerHashTable :=
  let t0 : KMerHashTable :=
    { t with table := List.replicate t.size_ emptySlot, unique_keys_count := 0 }
  if genome.length < t.K then some t0
  else buildLoop genome (List.range (genome.length - t.K + 1)) t0

/-- The `while` loop of `query`, at index `idx`; `none` stands for the iteration
bound of the model. -/
def queryLoop (t : KMerHashTable) (key : KmerKey) (start : Nat) :
    Nat → Nat → Option (List Nat)
  | 0, _ => none
  | fuel + 1, idx =>
    if (slotAt t.table idx).1 ≠ EMPTY_KEY then
      if (slotAt t.table idx).1 = key then some (slotAt t.table idx).2
      else if (idx + 1) % t.size_ = start then some []
      else queryLoop t key start fuel ((idx + 1) % t.size_)
    else some []

/-- The function `query`; an exception of `encode_kmer` is caught and the empty
vector returned. -/
def query (t : KMerHashTable) (kmer_query : List Char) : Option (List Nat) :=
  if kmer_query.length ≠ t.K then some []
  else
    match encode_kmer t.K kmer_query with
    | .error _ => some []
    | .ok key => queryLoop t key (hash t key) t.size_ (hash t key)

/-- The assignment `counts[key] = value` on a `std::map<KmerKey,int>`, kept as a
list of pairs in strictly ascending key order. -/
def mapAssign : List (KmerKey × Nat) → KmerKey → Nat → List (KmerKey × Nat)
  | [], key, value => [(key, value)]
  | (k, v) :: rest, key, value =>
    if key < k then (key, value) :: (k, v) :: rest
    else if key = k then (k, value) :: rest
    else (k, v) :: mapAssign rest key value

/-- The loop of `get_kmer_counts` over the slots of the table. -/
def countsLoop : List Slot → List (KmerKey × Nat) → List (KmerKey × Nat)
  | [], counts => counts
  | p :: rest, counts =>
    if p.1 ≠ EMPTY_KEY then countsLoop rest (mapAssign counts p.1 p.2.length)
    else countsLoop rest counts

/-- The function `get_kmer_counts`. -/
def get_kmer_counts (t : KMerHashTable) : List (KmerKey × Nat) :=
  countsLoop t.table []

/-- The function `get_unique_count`. -/
def get_unique_count (t : KMerHashTable) : Nat := t.unique_keys_count

/-- The table `KMerHashTable(initial_size, k)` followed by `build_index(genome)`;
`none` when the constructor throws. -/
def indexOf (initial_size : Nat) (k : Int) (genome : List Char) : Option KMerHashTable :=
  match KMerHashTable.new initial_size k with
  | .error _ => none
  | .ok t => build_index t genome

/-- A base of the alphabet `A`, `C`, `G`, `T`. -/
def isBase (c : Char) : Bool := c = 'A' || c = 'C' || c = 'G' || c = 'T'

/-- The digit of a base: A = 0, C = 1, G = 2, T = 3. -/
def baseDigit (c : Char) : Nat :=
  if c = 'A' then 0 else if c = 'C' then 1 else if c = 'G' then 2 else if c = 'T' then 3 else 0

/-- The base-4 number whose digits are the bases of `s`, most significant first:
the sum over `i` of `baseDigit s[i] * 4 ^ (len - 1 - i)`. -/
def base4Value (s : List Char) : Nat :=
  ((List.range s.length).map fun i => baseDigit (s.getD i 'A') * 4 ^ (s.length - 1 - i)).sum


/-! ## Invariants and specification functions -/

/-- The key `table[idx].first`. -/
def keyAt (table : List Slot) (idx : Nat) : KmerKey := (slotAt table idx).1

/-- The slots at the first `d` steps of the probe of `key` in a table of
capacity `size` are all occupied by other keys. -/
def PathClear (table : List Slot) (size : Nat) (key : KmerKey) (d : Nat) : Prop :=
  ∀ e, e < d → keyAt table ((key % size + e) % size) ≠ EMPTY_KEY ∧
    keyAt table ((key % size + e) % size) ≠ key

/-- The linear-probing invariant: a key stored `d` steps after its home slot
has no empty slot and no other copy of itself on the way. -/
def ProbeInv (table : List Slot) (size : Nat) : Prop :=
  ∀ key d, d < size → key ≠ EMPTY_KEY → keyAt table ((key % size + d) % size) = key →
    PathClear table size key d

/-- The number of slots whose key is not `EMPTY_KEY`. -/
def occupied (table : List Slot) : Nat :=
  table.countP (fun s => decide (s.1 ≠ EMPTY_KEY))

/-- The class invariant of the table that every insertion keeps, whatever the
key: the vector has `size_` slots, the capacity is at least 1, stored keys obey
the linear-probing invariant and the counter is at least the number of occupied
slots. -/
structure Shape (t : KMerHashTable) : Prop where
  len : t.table.length = t.size_
  cap : 1 ≤ t.size_
  probe : ProbeInv t.table t.size_
  cnt : occupied t.table ≤ t.unique_keys_count


/-- The table represents the position lists `m`: beyond `Shape`, the counter is
the number of occupied slots, empty slots have empty position lists, an occupied
slot holds the (non-empty) list `m` gives its key, and every key with a
non-empty list is stored. -/
structure Rep (t : KMerHashTable) (m : KmerKey → List Nat) : Prop where
  shape : Shape t
  count : t.unique_keys_count = occupied t.table
  clean : ∀ j, j < t.size_ → keyAt t.table j = EMPTY_KEY → (slotAt t.table j).2 = []
  content : ∀ j, j < t.size_ → keyAt t.table j ≠ EMPTY_KEY →
    (slotAt t.table j).2 = m (keyAt t.table j) ∧ m (keyAt t.table j) ≠ []
  stored : ∀ k, k ≠ EMPTY_KEY → m k ≠ [] → ∃ j, j < t.size_ ∧ keyAt t.table j = k

/-- The position lists after `pos` is recorded for `key`. -/
def appendPos (m : KmerKey → List Nat) (key : KmerKey) (pos : Nat) : KmerKey → List Nat :=
  fun k => if k = key then m k ++ [pos] else m k

/-- Whether `encode_kmer` succeeds on `w` with the value `key`. -/
def encodesTo (K : Nat) (w : List Char) (key : KmerKey) : Bool :=
  match encode_kmer K w with
  | .ok k => decide (k = key)
  | .error _ => false

/-- The window starts among `is`, in that order, whose window `genome.substr(i, K)`
encodes to `key`. -/
def positionsOfKey (genome : List Char) (K : Nat) (is : List Nat) (key : KmerKey) : List Nat :=
  is.filter fun i => encodesTo K ((genome.drop i).take K) key

/-- The 0-based start positions at which `w` occurs in `genome`, ascending: the
`i` with `i + |w| ≤ |genome|` and `genome[i .. i + |w|) = w`. -/
def occurrences (genome w : List Char) : List Nat :=
  (List.range (genome.length + 1 - w.length)).filter fun i =>
    decide ((genome.drop i).take w.length = w)

/-- The order invariant of a `std::map<KmerKey,int>`: keys strictly ascending. -/
def MapSorted (m : List (KmerKey × Nat)) : Prop :=
  m.Pairwise fun a b => a.1 < b.1

/-- The table states the class can be in: a constructed table (capacity at least
1), the reset at the start of `build_index`, the table a call of
`insert_internal` leaves (for any key and position), and the table a call of
`rehash` leaves for a new capacity at least twice the old one. -/
inductive Reachable : KMerHashTable → Prop where
  | construct (initial_size : Nat) (k : Int) (t : KMerHashTable) :
      1 ≤ initial_size → KMerHashTable.new initial_size k = .ok t → Reachable t
  | reset (t : KMerHashTable) : Reachable t →
      Reachable { t with table := List.replicate t.size_ emptySlot, unique_keys_count := 0 }
  | insert (t : KMerHashTable) (key : KmerKey) (pos : Nat) : Reachable t →
      Reachable (insert_internal t key pos).1
  | rehash (t : KMerHashTable) (new_size : Nat) : Reachable t → t.size_ * 2 ≤ new_size →
      Reachable (rehash t new_size).1

/-- How each call of `insert_internal` made by the loop of `build_index` ended,
in the order of the calls. -/
def buildEndings (genome : List Char) : List Nat → KMerHashTable → List Ending
  | [], _ => []
  | i :: rest, t =>
    match encode_kmer t.K ((genome.drop i).take t.K) with
    | .error _ => buildEndings genome rest t
    | .ok key =>
      (insert_internal t key i).2 :: buildEndings genome rest (insert_internal t key i).1

/-- How the calls of `insert_internal` made by `build_index` ended. -/
def build_index_endings (t : KMerHashTable) (genome : List Char) : List Ending :=
  if genome.length < t.K then []
  else buildEndings genome (List.range (genome.length - t.K + 1))
    { t with table := List.replicate t.size_ emptySlot, unique_keys_count := 0 }

/-- The (key, position list) entries stored in a table: its slots with a key
other than `EMPTY_KEY`, in slot order. -/
def entries (table : List Slot) : List Slot :=
  table.filter fun s => decide (s.1 ≠ EMPTY_KEY)

/-- The distinct valid K-length windows of a sequence: the windows
`genome.substr(i, K)` for `i + K ≤ |genome|` that consist of bases only, each
kept once. -/
def distinctValidWindows (genome : List Char) (K : Nat) : List (List Char) :=
  (((List.range (genome.length + 1 - K)).map fun i => (genome.drop i).take K).filter
    fun w => w.all isBase).dedup

/-- A table of capacity 2 and K = 3 after the insertion of key 7 at position 0. -/
def sampleTable : KMerHashTable :=
  (insert_internal ⟨[emptySlot, emptySlot], 2, 3, 0⟩ 7 0).1

/-! ## `dna_analyzer.cpp`: the embedding and the classifier

A `double` is modelled by its value: a rational number (every finite `double` is
one) or one of the IEEE 754 special values NaN, +infinity and -infinity, with
the IEEE rules for these (`0.0 / 0.0` is NaN, `x / 0.0` is an infinity of the
sign of `x`, NaN propagates and compares false with everything). Zero is `+0.0`,
the only zero the denominators of this code take: a sum that starts from `0.0`
is never `-0.0`.

The operations `add`, `mul` and `div` give the exact result on finite values.
`Dbl.ofRat` rounds a rational number to binary64 (to nearest, ties to even, with
gradual underflow and overflow to an infinity), and `fadd`, `fmul` and `fdiv`
are the operations of the machine: the exact result, rounded.

`predict_function_from_embedding` is modelled with the operations of the
machine, one rounding for every `*`, `+` and `/` of the source (no fused
multiply-add, no wider intermediate format), and with its literals rounded to
binary64: its verdict depends on the last bit of a fraction.
`get_sequence_embedding` is modelled with the exact operations, with
`std::sqrt` and `log2` of the C library as parameters. Rounding is not modelled
there: the theorems on it are about which components are NaN, and about an
entropy feature that is -24 where 0 is expected. -/

/-- A value of type `double`. -/
inductive Dbl where
  /-- not a number -/
  | nan
  /-- minus infinity -/
  | ninf
  /-- a finite value -/
  | fin (q : ℚ)
  /-- plus infinity -/
  | pinf
  deriving DecidableEq

/-- The conversion `double(n)` of an `int`. -/
def Dbl.ofInt (n : Int) : Dbl := .fin n

/-- Unary minus. -/
def Dbl.neg : Dbl → Dbl
  | .nan => .nan
  | .ninf => .pinf
  | .fin q => .fin (-q)
  | .pinf => .ninf

/-- The sum `a + b`. -/
def Dbl.add : Dbl → Dbl → Dbl
  | .nan, _ => .nan
  | _, .nan => .nan
  | .pinf, .ninf => .nan
  | .ninf, .pinf => .nan
  | .pinf, _ => .pinf
  | _, .pinf => .pinf
  | .ninf, _ => .ninf
  | _, .ninf => .ninf
  | .fin a, .fin b => .fin (a + b)

/-- The difference `a - b`. -/
def Dbl.sub (a b : Dbl) : Dbl := a.add b.neg

/-- An infinity of the sign of `q` times `plus`, NaN for `q = 0`: the product of
an infinity and a finite value. -/
def Dbl.infTimes (plus : Bool) (q : ℚ) : Dbl :=
  if q = 0 then .nan
  else if (0 < q) = plus then .pinf else .ninf

/-- The product `a * b`. -/
def Dbl.mul : Dbl → Dbl → Dbl
  | .nan, _ => .nan
  | _, .nan => .nan
  | .fin a, .fin b => .fin (a * b)
  | .fin a, .pinf => Dbl.infTimes true a
  | .fin a, .ninf => Dbl.infTimes false a
  | .pinf, .fin b => Dbl.infTimes true b
  | .ninf, .fin b => Dbl.infTimes false b
  | .pinf, .pinf => .pinf
  | .pinf, .ninf => .ninf
  | .ninf, .pinf => .ninf
  | .ninf, .ninf => .pinf

/-- The quotient `a / b`; a zero divisor is `+0.0`. -/
def Dbl.div : Dbl → Dbl → Dbl
  | .nan, _ => .nan
  | _, .nan => .nan
  | .fin a, .fin b =>
    if b = 0 then (if a = 0 then .nan else if 0 < a then .pinf else .ninf)
    else .fin (a / b)
  | .fin _, .pinf => .fin 0
  | .fin _, .ninf => .fin 0
  | .pinf, .fin b => if 0 ≤ b then .pinf else .ninf
  | .ninf, .fin b => if 0 ≤ b then .ninf else .pinf
  | .pinf, .pinf => .nan
  | .pinf, .ninf => .nan
  | .ninf, .pinf => .nan
  | .ninf, .ninf => .nan

/-- The comparison `a > b`. -/
def Dbl.gt : Dbl → Dbl → Bool
  | .nan, _ => false
  | _, .nan => false
  | .pinf, .pinf => false
  | .pinf, _ => true
  | _, .pinf => false
  | .ninf, _ => false
  | .fin _, .ninf => true
  | .fin a, .fin b => decide (b < a)

/-- The integer nearest to `x`, the even one of the two when `x` is halfway. -/
def roundHalfEven (x : ℚ) : Int :=
  if x - ⌊x⌋ < 1 / 2 then ⌊x⌋
  else if 1 / 2 < x - ⌊x⌋ then ⌊x⌋ + 1
  else if ⌊x⌋ % 2 = 0 then ⌊x⌋ else ⌊x⌋ + 1

/-- The exponent of the spacing of the binary64 values around `q`: with 53
significant bits it is 52 below the exponent of `q`, and it is -1074 for every
`q` below the least normal value 2^-1022. -/
def ulpExp (q : ℚ) : Int := max (Int.log 2 |q|) (-1022) - 52

/-- The multiple of the spacing around `q` that is nearest to `q`, the even
multiple of the two when `q` is halfway. -/
def nearest (q : ℚ) : ℚ := roundHalfEven (q / 2 ^ ulpExp q) * 2 ^ ulpExp q

/-- The binary64 value of a rational number: the nearest multiple of the
spacing, and an infinity when that is 2^1024 or more in absolute value. -/
def Dbl.ofRat (q : ℚ) : Dbl :=
  if 2 ^ 1024 ≤ nearest q then .pinf
  else if nearest q ≤ -2 ^ 1024 then .ninf
  else .fin (nearest q)

/-- The rounding of an exact result to binary64. -/
def Dbl.round : Dbl → Dbl
  | .fin q => Dbl.ofRat q
  | x => x

/-- The sum `a + b` of the machine. -/
def Dbl.fadd (a b : Dbl) : Dbl := (a.add b).round

/-- The product `a * b` of the machine. -/
def Dbl.fmul (a b : Dbl) : Dbl := (a.mul b).round

/-- The quotient `a / b` of the machine. -/
def Dbl.fdiv (a b : Dbl) : Dbl := (a.div b).round

/-- The functions of the C library that `dna_analyzer.cpp` calls, on finite
arguments: `std::sqrt` (for arguments that are not negative) and `log2` (for
positive arguments). -/
structure Libm where
  sqrt : ℚ → ℚ
  log2 : ℚ → ℚ

/-- The call `std::sqrt(a)`. -/
def Dbl.sqrt (lib : Libm) : Dbl → Dbl
  | .nan => .nan
  | .ninf => .nan
  | .fin q => if q < 0 then .nan else .fin (lib.sqrt q)
  | .pinf => .pinf

/-- The call `log2(a)`. -/
def Dbl.log2 (lib : Libm) : Dbl → Dbl
  | .nan => .nan
  | .ninf => .nan
  | .fin q => if q < 0 then .nan else if q = 0 then .ninf else .fin (lib.log2 q)
  | .pinf => .pinf

/-- The type `SequenceEmbedding`: its array `vector` of `size = 5` doubles. -/
abbrev SequenceEmbedding := List Dbl

/-- The value of type `int` that an integer is reduced to: an `int` has 32 bits
in two's complement, so the result of an addition on `int`, or of the conversion
of a length to `int`, is taken modulo 2^32 into the range from -2^31 to
2^31 - 1. -/
def wrapInt (n : Int) : Int := (n + 2147483648) % 4294967296 - 2147483648

/-- The loop `for (char c : sequence)` of `get_sequence_embedding` on the pair
`(gc_count, at_count)`. -/
def compositionLoop : List Char → Int × Int → Int × Int
  | [], acc => acc
  | c :: cs, (gc, atc) =>
    if c = 'G' ∨ c = 'C' then compositionLoop cs (wrapInt (gc + 1), atc)
    else if c = 'A' ∨ c = 'T' then compositionLoop cs (gc, wrapInt (atc + 1))
    else compositionLoop cs (gc, atc)

/-- The first loop over `kmer_counts` of `get_sequence_embedding` on the pair
`(rare_count, entropy)`; `size` is `kmer_counts.size()`. -/
def statsLoop (lib : Libm) (size : Nat) : List (KmerKey × Int) → Int × Dbl → Int × Dbl
  | [], acc => acc
  | p :: ps, (rare, entropy) =>
    let freq := (Dbl.ofInt p.2).div (Dbl.ofInt size)
    statsLoop lib size ps
      (if p.2 < 2 then wrapInt (rare + p.2) else rare,
       if freq.gt (.fin 0) then entropy.sub (freq.mul (freq.log2 lib)) else entropy)

/-- The second loop over `kmer_counts`, `total_kmers += p.second`, on
`total_kmers`. -/
def totalKmersLoop : List (KmerKey × Int) → Int → Int
  | [], total_kmers => total_kmers
  | p :: ps, total_kmers => totalKmersLoop ps (wrapInt (total_kmers + p.2))

/-- The value of `total_kmers` after its loop, from 0: the sum of the counts as
an `int`. -/
def totalKmers (kmer_counts : List (KmerKey × Int)) : Int :=
  totalKmersLoop kmer_counts 0

/-- The five assignments to `emb.vector` of `get_sequence_embedding`: the
vector before normalization. -/
def features (lib : Libm) (kmer_counts : List (KmerKey × Int)) (sequence : List Char) :
    SequenceEmbedding :=
  let total : Int := wrapInt sequence.length
  let comp := compositionLoop sequence (0, 0)
  let stats := statsLoop lib kmer_counts.length kmer_counts (0, .fin 0)
  let pal_count : Int := 0
  let total_kmers := totalKmers kmer_counts
  [(Dbl.ofInt comp.1).div (Dbl.ofInt total),
   (Dbl.ofInt stats.1).div (Dbl.ofInt total_kmers),
   (Dbl.ofInt comp.2).div (Dbl.ofInt total),
   stats.2.div (Dbl.ofInt kmer_counts.length),
   (Dbl.ofInt pal_count).div (Dbl.ofInt total_kmers)]

/-- The loop `for (...) mag += emb.vector[i] * emb.vector[i]` from `mag = 0.0`:
the sum of the squares. -/
def sumSquares (v : SequenceEmbedding) : Dbl :=
  v.foldl (fun mag x => mag.add (x.mul x)) (.fin 0)

/-- The end of `get_sequence_embedding`: `mag = std::sqrt(mag)` and the division
of every component by `mag` under the guard `mag > 0.0`. -/
def normalize (lib : Libm) (v : SequenceEmbedding) : SequenceEmbedding :=
  let mag := (sumSquares v).sqrt lib
  if mag.gt (.fin 0) then v.map fun x => x.div mag else v

/-- The function `get_sequence_embedding`; the `std::map` is the list of its
pairs in ascending key order. -/
def get_sequence_embedding (lib : Libm) (kmer_counts : List (KmerKey × Int))
    (sequence : List Char) : SequenceEmbedding :=
  normalize lib (features lib kmer_counts sequence)

/-- The verdict line that `predict_function_from_embedding` writes. -/
inductive Verdict where
  /-- "PREDICTION: Ribosomal / Structural (dominant)" -/
  | dominantRibosomal
  /-- "PREDICTION: Mobile Element / Repeats (dominant)" -/
  | dominantMobile
  /-- "PREDICTION: Metabolic / Housekeeping (dominant)" -/
  | dominantMetabolic
  /-- "PREDICTION: Ribosomal (mixed signatures)" -/
  | mixedRibosomal
  /-- "PREDICTION: Mobile Element (mixed signatures)" -/
  | mixedMobile
  /-- "PREDICTION: Metabolic (mixed signatures)" -/
  | mixedMetabolic
  /-- "PREDICTION: No single function dominant, potential mosaic or unknown function." -/
  | unknown
  deriving DecidableEq

/-- The reference vector `R` (Ribosomal): the literals `0.9, 0.1, 0.1, 0.9, 0.2`
as values of type `double`. -/
def refR : List Dbl :=
  [.ofRat (9 / 10), .ofRat (1 / 10), .ofRat (1 / 10), .ofRat (9 / 10), .ofRat (2 / 10)]

/-- The reference vector `T` (Mobile Element). -/
def refT : List Dbl :=
  [.ofRat (1 / 10), .ofRat (9 / 10), .ofRat (1 / 10), .ofRat (1 / 10), .ofRat (9 / 10)]

/-- The reference vector `M` (Metabolic). -/
def refM : List Dbl :=
  [.ofRat (5 / 10), .ofRat (2 / 10), .ofRat (6 / 10), .ofRat (7 / 10), .ofRat (1 / 10)]

/-- The literal `0.60`. -/
def c060 : Dbl := .ofRat (60 / 100)

/-- The literal `0.40`. -/
def c040 : Dbl := .ofRat (40 / 100)

/-- One of the three accumulations `r += emb.vector[i] * R[i]` of the loop of
`predict_function_from_embedding`, from `0.0`. -/
def dot (emb ref : List Dbl) : Dbl :=
  (emb.zip ref).foldl (fun acc p => acc.fadd (p.1.fmul p.2)) (.fin 0)

/-- The `if` chain of `predict_function_from_embedding` on the three fractions. -/
def verdictOf (r_frac t_frac m_frac : Dbl) : Verdict :=
  if r_frac.gt c060 then .dominantRibosomal
  else if t_frac.gt c060 then .dominantMobile
  else if m_frac.gt c060 then .dominantMetabolic
  else if r_frac.gt c040 && r_frac.gt t_frac && r_frac.gt m_frac then .mixedRibosomal
  else if t_frac.gt c040 && t_frac.gt r_frac && t_frac.gt m_frac then .mixedMobile
  else if m_frac.gt c040 && m_frac.gt r_frac && m_frac.gt t_frac then .mixedMetabolic
  else .unknown

/-- What the text returned by `predict_function_from_embedding` reports: the
three scores, the three fractions and the verdict. -/
structure Prediction where
  r : Dbl
  t : Dbl
  m : Dbl
  r_frac : Dbl
  t_frac : Dbl
  m_frac : Dbl
  verdict : Verdict
  deriving DecidableEq

/-- The function `predict_function_from_embedding`; its parameter `gc` is not
used by the source. -/
def predict_function_from_embedding (emb : SequenceEmbedding) : Prediction :=
  let r := dot emb refR
  let t := dot emb refT
  let m := dot emb refM
  let total_score := (r.fadd t).fadd m
  let r_frac := r.fdiv total_score
  let t_frac := t.fdiv total_score
  let m_frac := m.fdiv total_score
  { r := r, t := t, m := m, r_frac := r_frac, t_frac := t_frac, m_frac := m_frac,
    verdict := verdictOf r_frac t_frac m_frac }

/-- The report of `predict_function_from_embedding` on the embedding
(3, 0, 0, 0, 0): the scores 2.7000000000000002, 0.30000000000000004 and 1.5,
whose sum is 4.5, the fractions 0.6000000000000001, 0.06666666666666668 and
0.3333333333333333, and the verdict. -/
def samplePrediction : Prediction :=
  { r := .fin (3039929748475085 / 1125899906842624),
    t := .fin (1351079888211149 / 4503599627370496),
    m := .fin (3 / 2),
    r_frac := .fin (1351079888211149 / 2251799813685248),
    t_frac := .fin (2401919801264265 / 36028797018963968),
    m_frac := .fin (6004799503160661 / 18014398509481984),
    verdict := .dominantRibosomal }


/-! ## The encoding -/

theorem base4Value_nil : base4Value [] = 0 := rfl

theorem base4Value_cons (c : Char) (cs : List Char) :
    base4Value (c :: cs) = baseDigit c * 4 ^ cs.length + base4Value cs := by
  unfold base4Value
  simp only [List.length_cons, List.range_succ_eq_map, List.map_cons, List.sum_cons,
    List.map_map]
  congr 1
  congr 1
  apply List.map_congr_left
  intro i _
  simp only [Function.comp, Nat.succ_eq_add_one, List.getD_cons_succ, Nat.add_sub_cancel]
  congr 2
  omega

theorem base_to_int_of_isBase {c : Char} (h : isBase c = true) :
    base_to_int c = .ok (baseDigit c) := by
  simp only [isBase, Bool.or_eq_true, decide_eq_true_eq] at h
  rcases h with ((h | h) | h) | h <;> subst h <;> rfl

theorem base_to_int_of_not_isBase {c : Char} (h : isBase c = false) :
    base_to_int c = .error .invalidBase := by
  simp only [isBase, Bool.or_eq_false_iff, decide_eq_false_iff_not] at h
  obtain ⟨⟨⟨h1, h2⟩, h3⟩, h4⟩ := h
  simp [base_to_int, h1, h2, h3, h4]

theorem baseDigit_lt (c : Char) : baseDigit c < 4 := by
  unfold baseDigit
  split_ifs <;> omega

theorem base4Value_lt (s : List Char) : base4Value s < 4 ^ s.length := by
  induction s with
  | nil => simp [base4Value_nil]
  | cons c cs ih =>
    rw [base4Value_cons, List.length_cons, pow_succ]
    have := baseDigit_lt c
    nlinarith

theorem shift_or_eq (key b : Nat) (hk : key * 4 < 2 ^ 64) (hb : b < 4) :
    ((key <<< 2) % 2 ^ 64) ||| b = key * 4 + b := by
  rw [Nat.shiftLeft_eq, Nat.mod_eq_of_lt (by simpa using hk)]
  have h := @Nat.mul_add_lt_is_or 2 b (by simpa using hb) key
  rw [Nat.mul_comm key, ← h]

theorem encodeLoop_valid (cs : List Char) (key : Nat)
    (hv : ∀ c ∈ cs, isBase c = true) (hk : (key + 1) * 4 ^ cs.length ≤ 2 ^ 64) :
    encodeLoop cs key = .ok (key * 4 ^ cs.length + base4Value cs) := by
  induction cs generalizing key with
  | nil => simp [encodeLoop, base4Value_nil]
  | cons c cs ih =>
    have hc : isBase c = true := hv c (List.mem_cons_self _ _)
    have hd := baseDigit_lt c
    have hpos : 0 < 4 ^ cs.length := Nat.pow_pos (by norm_num)
    rw [List.length_cons, pow_succ] at hk
    have hk4 : key * 4 < 2 ^ 64 := by nlinarith
    rw [encodeLoop, base_to_int_of_isBase hc]
    simp only
    rw [shift_or_eq key _ hk4 hd, ih _ (fun x hx => hv x (List.mem_cons_of_mem _ hx)),
      base4Value_cons, List.length_cons, pow_succ]
    · congr 1; ring
    · nlinarith

theorem encodeLoop_invalid (cs : List Char) (key : Nat)
    (hv : ∃ c ∈ cs, isBase c = false) :
    encodeLoop cs key = .error .invalidBase := by
  induction cs generalizing key with
  | nil => simp at hv
  | cons c cs ih =>
    rw [encodeLoop]
    cases hc : isBase c with
    | false => rw [base_to_int_of_not_isBase hc]
    | true =>
      rw [base_to_int_of_isBase hc]
      simp only
      apply ih
      obtain ⟨x, hx, hxb⟩ := hv
      rcases List.mem_cons.1 hx with rfl | hx
      · rw [hc] at hxb; cases hxb
      · exact ⟨x, hx, hxb⟩

theorem encode_kmer_valid (K : Nat) (s : List Char) (hK : K ≤ 32) (hlen : s.length = K)
    (hv : ∀ c ∈ s, isBase c = true) : encode_kmer K s = .ok (base4Value s) := by
  have hp : (4 : Nat) ^ s.length ≤ 2 ^ 64 := by
    calc (4 : Nat) ^ s.length ≤ 4 ^ 32 := Nat.pow_le_pow_right (by norm_num) (by omega)
      _ = 2 ^ 64 := by norm_num
  simp only [encode_kmer, hlen, ne_eq, not_true_eq_false, if_false]
  rw [encodeLoop_valid s 0 hv (by simpa using hp)]
  simp

theorem baseDigit_inj {a b : Char} (ha : isBase a = true) (hb : isBase b = true)
    (h : baseDigit a = baseDigit b) : a = b := by
  simp only [isBase, Bool.or_eq_true, decide_eq_true_eq] at ha hb
  rcases ha with ((ha | ha) | ha) | ha <;> rcases hb with ((hb | hb) | hb) | hb <;>
    subst ha <;> subst hb <;> first | rfl | (exfalso; revert h; decide)

theorem base4Value_inj (s t : List Char) (hlen : s.length = t.length)
    (hs : ∀ c ∈ s, isBase c = true) (ht : ∀ c ∈ t, isBase c = true)
    (h : base4Value s = base4Value t) : s = t := by
  induction s generalizing t with
  | nil =>
    cases t with
    | nil => rfl
    | cons _ _ => simp at hlen
  | cons a s ih =>
    cases t with
    | nil => simp at hlen
    | cons b t =>
      simp only [List.length_cons, Nat.add_right_cancel_iff] at hlen
      rw [base4Value_cons, base4Value_cons, hlen] at h
      have h1 := base4Value_lt s
      have h2 := base4Value_lt t
      rw [hlen] at h1
      have hpos : 0 < 4 ^ t.length := Nat.pow_pos (by norm_num)
      have hd : baseDigit a = baseDigit b := by
        have e1 : (baseDigit a * 4 ^ t.length + base4Value s) / 4 ^ t.length = baseDigit a := by
          rw [Nat.mul_comm, Nat.mul_add_div hpos, Nat.div_eq_of_lt h1, Nat.add_zero]
        have e2 : (baseDigit b * 4 ^ t.length + base4Value t) / 4 ^ t.length = baseDigit b := by
          rw [Nat.mul_comm, Nat.mul_add_div hpos, Nat.div_eq_of_lt h2, Nat.add_zero]
        rw [← e1, ← e2, h]
      have hab : a = b :=
        baseDigit_inj (hs a (List.mem_cons_self _ _)) (ht b (List.mem_cons_self _ _)) hd
      have hv : base4Value s = base4Value t := by rw [hd] at h; omega
      rw [hab, ih t hlen (fun c hc => hs c (List.mem_cons_of_mem _ hc))
        (fun c hc => ht c (List.mem_cons_of_mem _ hc)) hv]

theorem encodeLoop_append (p q : List Char) (key : Nat) :
    encodeLoop (p ++ q) key =
      match encodeLoop p key with
      | .ok k => encodeLoop q k
      | .error e => .error e := by
  induction p generalizing key with
  | nil => simp [encodeLoop]
  | cons c p ih =>
    simp only [List.cons_append, encodeLoop]
    cases base_to_int c with
    | error e => rfl
    | ok b => exact ih _

/-- C4: for every K up to 32 (so for every K in [1,32]), `encode_kmer` is
injective on the strings of length K over A, C, G, T: equal encodings come from
equal strings. -/
theorem encode_kmer_injective (K : Nat) (s t : List Char) (hK : K ≤ 32)
    (hs : s.length = K) (ht : t.length = K)
    (hsv : ∀ c ∈ s, isBase c = true) (htv : ∀ c ∈ t, isBase c = true)
    (h : encode_kmer K s = encode_kmer K t) : s = t := by
  rw [encode_kmer_valid K s hK hs hsv, encode_kmer_valid K t hK ht htv] at h
  exact base4Value_inj s t (hs.trans ht.symm) hsv htv (Except.ok.inj h)

theorem encode_kmer_injective_witness :
    encode_kmer 3 ['G', 'A', 'T'] = encode_kmer 3 ['G', 'A', 'T'] ∧
      ['G', 'A', 'T'] = ['G', 'A', 'T'] :=
  ⟨rfl, encode_kmer_injective 3 ['G', 'A', 'T'] ['G', 'A', 'T'] (by decide)
    rfl rfl (by decide) (by decide) rfl⟩

/-- C5: for every K up to 32 (so for every K in [1,32]) and every string s of
length K over A, C, G, T,
`encode_kmer` returns the base-4 number with the digits of s, most significant
first (A=0, C=1, G=2, T=3); the value is at most 4^K - 1, which fits 64 bits, and
no shift of the loop overflows: before each base is consumed the key is the
base-4 value of the prefix read so far and `key << 2` is below 2^64. -/
theorem encode_kmer_base4 (K : Nat) (s : List Char) (hK : K ≤ 32)
    (hlen : s.length = K) (hv : ∀ c ∈ s, isBase c = true) :
    encode_kmer K s = .ok (base4Value s) ∧
      base4Value s ≤ 4 ^ K - 1 ∧ 4 ^ K - 1 ≤ 2 ^ 64 - 1 ∧
      ∀ p c r, s = p ++ c :: r →
        encodeLoop p 0 = .ok (base4Value p) ∧
          encodeLoop s 0 = encodeLoop (c :: r) (base4Value p) ∧
          base4Value p <<< 2 < 2 ^ 64 := by
  have hp : (4 : Nat) ^ K ≤ 2 ^ 64 := by
    calc (4 : Nat) ^ K ≤ 4 ^ 32 := Nat.pow_le_pow_right (by norm_num) hK
      _ = 2 ^ 64 := by norm_num
  refine ⟨encode_kmer_valid K s hK hlen hv, ?_, by omega, ?_⟩
  · have := base4Value_lt s
    rw [hlen] at this
    omega
  · intro p c r hs
    have hpv : ∀ x ∈ p, isBase x = true := fun x hx => hv x (by rw [hs]; simp [hx])
    have hpl : p.length + 1 ≤ K := by rw [← hlen, hs]; simp
    have h4 : (4 : Nat) ^ (p.length + 1) ≤ 2 ^ 64 :=
      le_trans (Nat.pow_le_pow_right (by norm_num) hpl) hp
    have hpe : encodeLoop p 0 = .ok (base4Value p) := by
      rw [encodeLoop_valid p 0 hpv (by rw [pow_succ] at h4; omega)]
      simp
    refine ⟨hpe, ?_, ?_⟩
    · rw [hs, encodeLoop_append, hpe]
    · have := base4Value_lt p
      rw [Nat.shiftLeft_eq]
      rw [pow_succ] at h4
      norm_num at h4 ⊢
      omega

theorem encode_kmer_base4_witness :
    encode_kmer 2 ['G', 'C'] = .ok (base4Value ['G', 'C']) ∧ base4Value ['G', 'C'] = 9 :=
  ⟨(encode_kmer_base4 2 ['G', 'C'] (by decide) rfl (by decide)).1, by decide⟩

/-- C6: `encode_kmer` succeeds exactly when the string has length K and all its
characters are in A, C, G, T; it fails with the length-mismatch error whenever
the length is not K, whatever the characters, and with the invalid-base error
whenever the length is K and some character is outside A, C, G, T. (The value
on success is C5's; K itself is unconstrained here.) -/
theorem encode_kmer_errors (K : Nat) (s : List Char) :
    ((∃ key, encode_kmer K s = .ok key) ↔ (s.length = K ∧ ∀ c ∈ s, isBase c = true)) ∧
      (s.length ≠ K → encode_kmer K s = .error .lengthMismatch) ∧
      (s.length = K → (∃ c ∈ s, isBase c = false) →
        encode_kmer K s = .error .invalidBase) := by
  have hmis : s.length ≠ K → encode_kmer K s = .error .lengthMismatch := by
    intro h; simp [encode_kmer, h]
  have hinv : s.length = K → (∃ c ∈ s, isBase c = false) →
      encode_kmer K s = .error .invalidBase := by
    intro h hc
    simp only [encode_kmer, h, ne_eq, not_true_eq_false, if_false]
    exact encodeLoop_invalid s 0 hc
  refine ⟨⟨?_, ?_⟩, hmis, hinv⟩
  · rintro ⟨key, hkey⟩
    by_cases hl : s.length = K
    · refine ⟨hl, fun c hc => ?_⟩
      cases hb : isBase c with
      | true => rfl
      | false => rw [hinv hl ⟨c, hc, hb⟩] at hkey; cases hkey
    · rw [hmis hl] at hkey; cases hkey
  · rintro ⟨hl, hv⟩
    simp only [encode_kmer, hl, ne_eq, not_true_eq_false, if_false]
    have : ∀ (cs : List Char) (key : Nat), (∀ c ∈ cs, isBase c = true) →
        ∃ k, encodeLoop cs key = .ok k := by
      intro cs
      induction cs with
      | nil => intro key _; exact ⟨key, rfl⟩
      | cons c cs ih =>
        intro key hcs
        rw [encodeLoop, base_to_int_of_isBase (hcs c (List.mem_cons_self _ _))]
        exact ih _ (fun x hx => hcs x (List.mem_cons_of_mem _ hx))
    exact this s 0 hv

/-! ## Termination of the probes -/

theorem slotAt_replicate (n i : Nat) : slotAt (List.replicate n emptySlot) i = emptySlot := by
  unfold slotAt
  rw [List.getD_eq_getElem?_getD]
  by_cases h : i < n
  · simp [List.getElem?_replicate, h]
  · simp [List.getElem?_replicate, h]

theorem probe_step (size start n : Nat) :
    ((start + n) % size + 1) % size = (start + (n + 1)) % size := by
  rw [Nat.mod_add_mod, Nat.add_assoc]

theorem queryLoop_returns (t : KMerHashTable) (key start : Nat) (hs : start < t.size_) :
    ∀ fuel n, n + fuel = t.size_ → 0 < fuel →
      ∃ l, queryLoop t key start fuel ((start + n) % t.size_) = some l := by
  intro fuel
  induction fuel with
  | zero => intro n _ h; omega
  | succ fuel ih =>
    intro n hn _
    rw [queryLoop]
    split_ifs with h1 h2 h3
    · exact ⟨_, rfl⟩
    · exact ⟨_, rfl⟩
    · rw [probe_step] at h3 ⊢
      apply ih (n + 1) (by omega)
      rcases Nat.eq_zero_or_pos fuel with h0 | h0
      · exfalso
        apply h3
        have : start + (n + 1) = start + t.size_ := by omega
        rw [this, Nat.add_mod_right, Nat.mod_eq_of_lt hs]
      · exact h0
    · exact ⟨_, rfl⟩

theorem findSlotLoop_ne_fuel (t : KMerHashTable) (key start : Nat) (hs : start < t.size_) :
    ∀ fuel n, n + fuel = t.size_ → 0 < fuel →
      findSlotLoop t key start fuel ((start + n) % t.size_) ≠ .fuel := by
  intro fuel
  induction fuel with
  | zero => intro n _ h; omega
  | succ fuel ih =>
    intro n hn _
    rw [findSlotLoop]
    split_ifs with h1 h3
    · simp
    · rw [probe_step] at h3 ⊢
      apply ih (n + 1) (by omega)
      rcases Nat.eq_zero_or_pos fuel with h0 | h0
      · exfalso
        apply h3
        have : start + (n + 1) = start + t.size_ := by omega
        rw [this, Nat.add_mod_right, Nat.mod_eq_of_lt hs]
      · exact h0
    · simp

theorem hash_lt (t : KMerHashTable) (key : Nat) (h : 1 ≤ t.size_) : hash t key < t.size_ :=
  Nat.mod_lt _ h

theorem find_slot_for_insert_ne_fuel (t : KMerHashTable) (key : Nat) (h : 1 ≤ t.size_) :
    find_slot_for_insert t key ≠ .fuel := by
  have := findSlotLoop_ne_fuel t key (hash t key) (hash_lt t key h) t.size_ 0 (by omega) h
  rwa [Nat.add_zero, Nat.mod_eq_of_lt (hash_lt t key h)] at this

theorem query_returns (t : KMerHashTable) (q : List Char) (h : 1 ≤ t.size_) :
    ∃ l, query t q = some l := by
  unfold query
  split_ifs with hl
  · exact ⟨_, rfl⟩
  · cases encode_kmer t.K q with
    | error e => exact ⟨_, rfl⟩
    | ok key =>
      have := queryLoop_returns t key (hash t key) (hash_lt t key h) t.size_ 0 (by omega) h
      rwa [Nat.add_zero, Nat.mod_eq_of_lt (hash_lt t key h)] at this

/-- C7: `query` never raises. On every table with capacity at least 1 and every
string it returns a list (the probe ends within `size_` steps); the list is
empty when the length of the string is not K, and empty when the length is K but
some character is outside A, C, G, T (the error of `encode_kmer` is swallowed). -/
theorem query_never_raises (t : KMerHashTable) (q : List Char) (hcap : 1 ≤ t.size_) :
    (∃ l, query t q = some l) ∧
      (q.length ≠ t.K → query t q = some []) ∧
      (q.length = t.K → (∃ c ∈ q, isBase c = false) → query t q = some []) := by
  refine ⟨query_returns t q hcap, ?_, ?_⟩
  · intro hl
    simp [query, hl]
  · intro hl hc
    simp [query, hl, (encode_kmer_errors t.K q).2.2 hl hc]

theorem query_never_raises_witness :
    query ⟨[(9, [0]), emptySlot], 2, 2, 1⟩ ['G', 'N'] = some [] :=
  (query_never_raises ⟨[(9, [0]), emptySlot], 2, 2, 1⟩ ['G', 'N'] (by decide)).2.2
    rfl ⟨'N', by decide, by decide⟩

theorem countsLoop_replicate (n : Nat) (counts : List (KmerKey × Nat)) :
    countsLoop (List.replicate n emptySlot) counts = counts := by
  induction n with
  | zero => rfl
  | succ n ih =>
    rw [List.replicate_succ, countsLoop]
    simpa [emptySlot] using ih

theorem query_of_empty_table (t : KMerHashTable) (q : List Char) (h : 1 ≤ t.size_)
    (ht : t.table = List.replicate t.size_ emptySlot) : query t q = some [] := by
  unfold query
  split_ifs with hl
  · rfl
  · cases encode_kmer t.K q with
    | error e => rfl
    | ok key =>
      simp only
      obtain ⟨f, hf⟩ : ∃ f, t.size_ = f + 1 := ⟨t.size_ - 1, by omega⟩
      rw [hf, queryLoop, ht, slotAt_replicate]
      simp [emptySlot]

/-- C8: for every K, every table state with capacity at least 1 (whatever it
indexed before) and every sequence shorter than K, `build_index` returns with a
table that holds zero distinct keys (`get_unique_count` is 0 and
`get_kmer_counts` is empty, every slot being the empty sentinel) and `query`
returns the empty list for every string. -/
theorem build_index_short (t : KMerHashTable) (genome : List Char) (hcap : 1 ≤ t.size_)
    (hlen : genome.length < t.K) :
    ∃ t1, build_index t genome = some t1 ∧
      t1.table = List.replicate t.size_ emptySlot ∧ t1.size_ = t.size_ ∧ t1.K = t.K ∧
      get_unique_count t1 = 0 ∧ get_kmer_counts t1 = [] ∧
      ∀ q, query t1 q = some [] := by
  refine ⟨{ t with table := List.replicate t.size_ emptySlot, unique_keys_count := 0 },
    ?_, rfl, rfl, rfl, rfl, ?_, ?_⟩
  · simp [build_index, hlen]
  · exact countsLoop_replicate _ _
  · intro q
    exact query_of_empty_table _ q hcap rfl

theorem build_index_short_witness :
    ∃ t1, build_index ⟨[(27, [0, 4]), emptySlot], 2, 5, 1⟩ ['A', 'C', 'G'] = some t1 ∧
      get_unique_count t1 = 0 ∧ get_kmer_counts t1 = [] ∧ ∀ q, query t1 q = some [] :=
  let ⟨t1, h1, _, _, _, h5, h6, h7⟩ :=
    build_index_short ⟨[(27, [0, 4]), emptySlot], 2, 5, 1⟩ ['A', 'C', 'G']
      (by decide) (by decide)
  ⟨t1, h1, h5, h6, h7⟩

/-- C9: constructing a table fails, with the construction error, exactly when
K < 1 or K > 32; for K in [1,32] (and any capacity, in particular one that is
at least 1) construction succeeds with `initial_size` slots that are all the
empty sentinel with an empty position list, and a distinct-key count of 0. -/
theorem constructor_spec (initial_size : Nat) (k : Int) :
    ((∃ e, KMerHashTable.new initial_size k = .error e) ↔ (k < 1 ∨ k > 32)) ∧
      ((k < 1 ∨ k > 32) → KMerHashTable.new initial_size k = .error .constructionError) ∧
      (1 ≤ k ∧ k ≤ 32 →
        ∃ t, KMerHashTable.new initial_size k = .ok t ∧
          t.table.length = initial_size ∧ (∀ s ∈ t.table, s = (EMPTY_KEY, [])) ∧
          t.size_ = initial_size ∧ (t.K : Int) = k ∧ get_unique_count t = 0) := by
  have hbad : (k < 1 ∨ k > 32) →
      KMerHashTable.new initial_size k = .error .constructionError := by
    intro h
    have : k ≤ 0 ∨ k > 32 := by omega
    simp [KMerHashTable.new, this]
  have hgood : 1 ≤ k ∧ k ≤ 32 →
      ∃ t, KMerHashTable.new initial_size k = .ok t ∧
        t.table.length = initial_size ∧ (∀ s ∈ t.table, s = (EMPTY_KEY, [])) ∧
        t.size_ = initial_size ∧ (t.K : Int) = k ∧ get_unique_count t = 0 := by
    intro h
    have hn : ¬ (k ≤ 0 ∨ k > 32) := by omega
    refine ⟨{ table := List.replicate initial_size emptySlot, size_ := initial_size,
              K := k.toNat, unique_keys_count := 0 },
      by simp only [KMerHashTable.new, hn, if_false], ?_, ?_, rfl, ?_, rfl⟩
    · simp
    · intro s hs
      exact (List.mem_replicate.1 hs).2
    · simp only
      omega
  refine ⟨⟨?_, fun h => ⟨_, hbad h⟩⟩, hbad, hgood⟩
  rintro ⟨e, he⟩
  by_contra hk
  obtain ⟨t, ht, _⟩ := hgood (by omega)
  rw [ht] at he
  cases he

/-! ## Occupancy -/

theorem rehashLoop_fields (old : List Slot) (t : KMerHashTable) :
    (rehashLoop old t).1.size_ = t.size_ ∧ (rehashLoop old t).1.K = t.K ∧
      (rehashLoop old t).1.unique_keys_count ≤ t.unique_keys_count + old.length := by
  induction old generalizing t with
  | nil => simp [rehashLoop]
  | cons o rest ih =>
    rw [rehashLoop]
    split_ifs with h
    · cases hp : find_slot_for_insert t o.1 with
      | fuel => simp
      | full => simp
      | slot s =>
        simp only
        obtain ⟨h1, h2, h3⟩ := ih (moveInto t s o)
        refine ⟨h1, h2, ?_⟩
        simp only [List.length_cons, moveInto] at h3 ⊢
        omega
    · obtain ⟨h1, h2, h3⟩ := ih t
      refine ⟨h1, h2, ?_⟩
      simp only [List.length_cons]
      omega

theorem rehash_fields (t : KMerHashTable) (n : Nat) :
    (rehash t n).1.size_ = n ∧ (rehash t n).1.K = t.K ∧
      (rehash t n).1.unique_keys_count ≤ t.size_ := by
  obtain ⟨h1, h2, h3⟩ := rehashLoop_fields (t.table.take t.size_)
    { t with table := List.replicate n emptySlot, size_ := n, unique_keys_count := 0 }
  refine ⟨h1, h2, ?_⟩
  have : (t.table.take t.size_).length ≤ t.size_ := by
    rw [List.length_take]; exact Nat.min_le_left _ _
  unfold rehash
  simp only at h3
  omega

theorem storeAt_fields (t : KMerHashTable) (s key pos : Nat) :
    (storeAt t s key pos).size_ = t.size_ ∧ (storeAt t s key pos).K = t.K ∧
      (storeAt t s key pos).unique_keys_count ≤ t.unique_keys_count + 1 := by
  unfold storeAt
  split_ifs <;> simp

theorem insertAfterCheck_fields (t : KMerHashTable) (key pos : Nat) :
    (insertAfterCheck t key pos).1.size_ = t.size_ ∧ (insertAfterCheck t key pos).1.K = t.K ∧
      (insertAfterCheck t key pos).1.unique_keys_count ≤ t.unique_keys_count + 1 := by
  unfold insertAfterCheck
  cases find_slot_for_insert t key with
  | fuel => simp
  | full => simp
  | slot s => exact storeAt_fields t s key pos

theorem insert_internal_fields (t : KMerHashTable) (key pos : Nat) :
    (insert_internal t key pos).1.K = t.K ∧
      t.size_ ≤ (insert_internal t key pos).1.size_ ∧
      10 * (insert_internal t key pos).1.unique_keys_count
        ≤ 7 * (insert_internal t key pos).1.size_ + 10 := by
  unfold insert_internal
  cases hov : overOccupancy t with
  | false =>
    simp only [Bool.false_eq_true, if_false]
    have hc : 10 * t.unique_keys_count ≤ 7 * t.size_ := by
      simpa [overOccupancy] using hov
    obtain ⟨h1, h2, h3⟩ := insertAfterCheck_fields t key pos
    refine ⟨h2, by omega, by omega⟩
  | true =>
    simp only [if_true]
    obtain ⟨g1, g2, g3⟩ := rehash_fields t (t.size_ * 2)
    rcases hr : rehash t (t.size_ * 2) with ⟨t1, e⟩
    rw [hr] at g1 g2 g3
    simp only at g1 g2 g3
    cases e with
    | returned =>
      simp only
      obtain ⟨h1, h2, h3⟩ := insertAfterCheck_fields t1 key pos
      refine ⟨by omega, by omega, by omega⟩
    | threw e => simp only; refine ⟨g2, by omega, by omega⟩
    | fuel => simp only; refine ⟨g2, by omega, by omega⟩

theorem insertAfterCheck_ne_fuel (t : KMerHashTable) (key pos : Nat) (h : 1 ≤ t.size_) :
    (insertAfterCheck t key pos).2 ≠ .fuel := by
  unfold insertAfterCheck
  have := find_slot_for_insert_ne_fuel t key h
  cases hp : find_slot_for_insert t key with
  | fuel => exact absurd hp this
  | full => simp
  | slot s => simp

theorem rehashLoop_ne_fuel (old : List Slot) (t : KMerHashTable) (h : 1 ≤ t.size_) :
    (rehashLoop old t).2 ≠ .fuel := by
  induction old generalizing t with
  | nil => simp [rehashLoop]
  | cons o rest ih =>
    rw [rehashLoop]
    split_ifs with hk
    · have := find_slot_for_insert_ne_fuel t o.1 h
      cases hp : find_slot_for_insert t o.1 with
      | fuel => exact absurd hp this
      | full => simp
      | slot s => exact ih (moveInto t s o) h
    · exact ih t h

theorem insert_internal_ne_fuel (t : KMerHashTable) (key pos : Nat) (h : 1 ≤ t.size_) :
    (insert_internal t key pos).2 ≠ .fuel := by
  unfold insert_internal
  split_ifs with hov
  · have g := rehashLoop_ne_fuel (t.table.take t.size_)
      { t with table := List.replicate (t.size_ * 2) emptySlot, size_ := t.size_ * 2,
               unique_keys_count := 0 } (by simp only; omega)
    have gs := (rehash_fields t (t.size_ * 2)).1
    change (rehash t (t.size_ * 2)).2 ≠ .fuel at g
    rcases hr : rehash t (t.size_ * 2) with ⟨t1, e⟩
    rw [hr] at g gs
    simp only at g gs
    cases e with
    | returned => exact insertAfterCheck_ne_fuel t1 key pos (by omega)
    | threw e => simp
    | fuel => exact absurd rfl g
  · exact insertAfterCheck_ne_fuel t key pos h

theorem buildLoop_returns (genome : List Char) (is : List Nat) (t : KMerHashTable)
    (h : 1 ≤ t.size_) (hb : 10 * t.unique_keys_count ≤ 7 * t.size_ + 10) :
    ∃ t1, buildLoop genome is t = some t1 ∧ t1.K = t.K ∧ t.size_ ≤ t1.size_ ∧
      10 * t1.unique_keys_count ≤ 7 * t1.size_ + 10 := by
  induction is generalizing t with
  | nil => exact ⟨t, rfl, rfl, le_refl _, hb⟩
  | cons i rest ih =>
    rw [buildLoop]
    cases encode_kmer t.K (List.take t.K (List.drop i genome)) with
    | error e => exact ih t h hb
    | ok key =>
      simp only
      obtain ⟨f1, f2, f3⟩ := insert_internal_fields t key i
      have f4 := insert_internal_ne_fuel t key i h
      rcases hr : insert_internal t key i with ⟨t1, e⟩
      rw [hr] at f1 f2 f3 f4
      simp only at f1 f2 f3 f4
      obtain ⟨t2, g1, g2, g3, g4⟩ := ih t1 (by omega) f3
      cases e with
      | fuel => exact absurd rfl f4
      | returned => exact ⟨t2, g1, by omega, by omega, g4⟩
      | threw e => exact ⟨t2, g1, by omega, by omega, g4⟩

theorem build_index_returns (t : KMerHashTable) (genome : List Char) (h : 1 ≤ t.size_) :
    ∃ t1, build_index t genome = some t1 ∧ t1.K = t.K ∧ t.size_ ≤ t1.size_ ∧
      10 * t1.unique_keys_count ≤ 7 * t1.size_ + 10 := by
  unfold build_index
  simp only
  split_ifs with hl
  · exact ⟨_, rfl, rfl, le_refl _, by simp⟩
  · exact buildLoop_returns genome _ _ h (by simp)

/-- C10 (amended): the occupancy test of `insert_internal` reads the count
before the insertion, so for every table with capacity at least 1 every call of
`insert_internal` ends (returning or throwing, never by the iteration bound of
the model) with `unique_keys_count - 1 <= 0.70 * size_`, written
`10 * unique_keys_count <= 7 * size_ + 10`; `build_index` returns and its
final table satisfies the same bound. -/
theorem occupancy_bound (t : KMerHashTable) (hcap : 1 ≤ t.size_) :
    (∀ key pos, (insert_internal t key pos).2 ≠ .fuel ∧
        10 * (insert_internal t key pos).1.unique_keys_count
          ≤ 7 * (insert_internal t key pos).1.size_ + 10) ∧
      (∀ genome, ∃ t1, build_index t genome = some t1 ∧
        10 * t1.unique_keys_count ≤ 7 * t1.size_ + 10) := by
  refine ⟨fun key pos => ⟨insert_internal_ne_fuel t key pos hcap,
    (insert_internal_fields t key pos).2.2⟩, fun genome => ?_⟩
  obtain ⟨t1, h1, _, _, h4⟩ := build_index_returns t genome hcap
  exact ⟨t1, h1, h4⟩

theorem occupancy_bound_witness :
    (insert_internal ⟨[emptySlot], 1, 1, 0⟩ 0 0).2 ≠ .fuel ∧
      10 * (insert_internal ⟨[emptySlot], 1, 1, 0⟩ 0 0).1.unique_keys_count
        ≤ 7 * (insert_internal ⟨[emptySlot], 1, 1, 0⟩ 0 0).1.size_ + 10 :=
  (occupancy_bound ⟨[emptySlot], 1, 1, 0⟩ (by decide)).1 0 0

/-- C10, evaluated: the first insertion into a table of capacity 1 returns with
one distinct key in one slot (occupancy 1.0, above 0.70), and with capacity 10
and K = 2 `build_index` of AACAGATCC ends with 8 distinct keys in 10 slots
(occupancy 0.8), the capacity never having grown. -/
theorem occupancy_above_limit :
    insert_internal ⟨[emptySlot], 1, 1, 0⟩ 0 0 = (⟨[(0, [0])], 1, 1, 1⟩, .returned) ∧
      ¬ (10 * (insert_internal ⟨[emptySlot], 1, 1, 0⟩ 0 0).1.unique_keys_count
          ≤ 7 * (insert_internal ⟨[emptySlot], 1, 1, 0⟩ 0 0).1.size_) ∧
      (indexOf 10 2 "AACAGATCC".toList).map
        (fun t => (get_unique_count t, t.size_)) = some (8, 10) ∧
      (indexOf 10 2 "AACAGATCC".toList).map
        (fun t => decide (10 * get_unique_count t ≤ 7 * t.size_)) = some false := by
  refine ⟨by decide, by decide, by decide, by decide⟩

/-! ## Cyclic probing -/

theorem cyc_ne_start (size start m : Nat) (hs : start < size) (h0 : 0 < m) (hm : m < size) :
    (start + m) % size ≠ start := by
  by_cases h : start + m < size
  · rw [Nat.mod_eq_of_lt h]; omega
  · rw [Nat.mod_eq_sub_mod (Nat.le_of_not_lt h), Nat.mod_eq_of_lt (by omega)]; omega

theorem cyc_inj (size start d1 d2 : Nat) (hs : start < size) (h1 : d1 < size) (h2 : d2 < size)
    (h : (start + d1) % size = (start + d2) % size) : d1 = d2 := by
  by_cases a : start + d1 < size <;> by_cases b : start + d2 < size
  · rw [Nat.mod_eq_of_lt a, Nat.mod_eq_of_lt b] at h; omega
  · rw [Nat.mod_eq_of_lt a, Nat.mod_eq_sub_mod (Nat.le_of_not_lt b),
      Nat.mod_eq_of_lt (by omega)] at h; omega
  · rw [Nat.mod_eq_of_lt b, Nat.mod_eq_sub_mod (Nat.le_of_not_lt a),
      Nat.mod_eq_of_lt (by omega)] at h; omega
  · rw [Nat.mod_eq_sub_mod (Nat.le_of_not_lt a), Nat.mod_eq_sub_mod (Nat.le_of_not_lt b),
      Nat.mod_eq_of_lt (by omega), Nat.mod_eq_of_lt (by omega)] at h; omega

theorem cyc_surj (size start j : Nat) (hs : start < size) (hj : j < size) :
    ∃ d, d < size ∧ (start + d) % size = j := by
  by_cases h : start ≤ j
  · exact ⟨j - start, by omega, by rw [Nat.mod_eq_of_lt (by omega)]; omega⟩
  · refine ⟨j + size - start, by omega, ?_⟩
    rw [Nat.mod_eq_sub_mod (by omega), Nat.mod_eq_of_lt (by omega)]; omega

theorem findSlotLoop_spec (t : KMerHashTable) (key start d : Nat) (hs : start < t.size_)
    (hd : d < t.size_)
    (hclear : ∀ e, e < d → keyAt t.table ((start + e) % t.size_) ≠ EMPTY_KEY ∧
      keyAt t.table ((start + e) % t.size_) ≠ key)
    (hstop : keyAt t.table ((start + d) % t.size_) = EMPTY_KEY ∨
      keyAt t.table ((start + d) % t.size_) = key) :
    ∀ fuel n, n + fuel = t.size_ → n ≤ d →
      findSlotLoop t key start fuel ((start + n) % t.size_) = .slot ((start + d) % t.size_) := by
  intro fuel
  induction fuel with
  | zero => intro n h1 h2; omega
  | succ fuel ih =>
    intro n hn hnd
    rw [findSlotLoop]
    rcases Nat.lt_or_ge n d with hlt | hge
    · have hc := hclear n hlt
      unfold keyAt at hc
      rw [if_pos hc, probe_step, if_neg (cyc_ne_start _ _ _ hs (by omega) (by omega))]
      exact ih (n + 1) (by omega) (by omega)
    · have hnd' : n = d := by omega
      subst hnd'
      unfold keyAt at hstop
      rw [if_neg (by rcases hstop with h | h <;> simp [h])]

theorem queryLoop_found (t : KMerHashTable) (key start d : Nat) (hs : start < t.size_)
    (hd : d < t.size_) (hk : key ≠ EMPTY_KEY)
    (hclear : ∀ e, e < d → keyAt t.table ((start + e) % t.size_) ≠ EMPTY_KEY ∧
      keyAt t.table ((start + e) % t.size_) ≠ key)
    (hstop : keyAt t.table ((start + d) % t.size_) = key) :
    ∀ fuel n, n + fuel = t.size_ → n ≤ d →
      queryLoop t key start fuel ((start + n) % t.size_)
        = some (slotAt t.table ((start + d) % t.size_)).2 := by
  intro fuel
  induction fuel with
  | zero => intro n h1 h2; omega
  | succ fuel ih =>
    intro n hn hnd
    rw [queryLoop]
    rcases Nat.lt_or_ge n d with hlt | hge
    · have hc := hclear n hlt
      unfold keyAt at hc
      rw [if_pos hc.1, if_neg hc.2, probe_step,
        if_neg (cyc_ne_start _ _ _ hs (by omega) (by omega))]
      exact ih (n + 1) (by omega) (by omega)
    · have hnd' : n = d := by omega
      subst hnd'
      unfold keyAt at hstop
      rw [if_pos (by rw [hstop]; exact hk), if_pos hstop]

theorem queryLoop_absent (t : KMerHashTable) (key start : Nat) (hs : start < t.size_)
    (habs : ∀ j, j < t.size_ → keyAt t.table j ≠ EMPTY_KEY → keyAt t.table j ≠ key) :
    ∀ fuel n, n + fuel = t.size_ → 0 < fuel →
      queryLoop t key start fuel ((start + n) % t.size_) = some [] := by
  intro fuel
  induction fuel with
  | zero => intro n _ h; omega
  | succ fuel ih =>
    intro n hn _
    have hsz : 0 < t.size_ := by omega
    rw [queryLoop]
    split_ifs with h1 h2 h3
    · exact absurd h2 (habs _ (Nat.mod_lt _ hsz) h1)
    · rfl
    · rw [probe_step] at h3 ⊢
      apply ih (n + 1) (by omega)
      rcases Nat.eq_zero_or_pos fuel with h0 | h0
      · exfalso
        apply h3
        have : start + (n + 1) = start + t.size_ := by omega
        rw [this, Nat.add_mod_right, Nat.mod_eq_of_lt hs]
      · exact h0
    · rfl

/-! ## Updating one slot -/

theorem slotAt_set (tb : List Slot) (j i : Nat) (a : Slot) (hj : j < tb.length) :
    slotAt (tb.set j a) i = if i = j then a else slotAt tb i := by
  unfold slotAt
  rw [List.getD_eq_getElem?_getD, List.getD_eq_getElem?_getD, List.getElem?_set]
  by_cases h : j = i
  · subst h; simp [hj]
  · have h' : ¬ i = j := fun e => h e.symm
    simp [h, h']

theorem keyAt_set (tb : List Slot) (j i : Nat) (a : Slot) (hj : j < tb.length) :
    keyAt (tb.set j a) i = if i = j then a.1 else keyAt tb i := by
  unfold keyAt
  rw [slotAt_set tb j i a hj]
  split_ifs <;> rfl

theorem slotAt_eq_getElem (tb : List Slot) (j : Nat) (hj : j < tb.length) :
    slotAt tb j = tb[j] := by
  unfold slotAt
  rw [List.getD_eq_getElem?_getD, List.getElem?_eq_getElem hj]; rfl

theorem occupied_le_length (tb : List Slot) : occupied tb ≤ tb.length :=
  List.countP_le_length _

theorem occupied_replicate (n : Nat) : occupied (List.replicate n emptySlot) = 0 := by
  induction n with
  | zero => rfl
  | succ n ih =>
    rw [List.replicate_succ]
    unfold occupied at ih ⊢
    rw [List.countP_cons, ih]
    simp [emptySlot]

theorem occupied_set (tb : List Slot) (j : Nat) (a : Slot) (hj : j < tb.length) :
    occupied (tb.set j a) + (if keyAt tb j ≠ EMPTY_KEY then 1 else 0)
      = occupied tb + (if a.1 ≠ EMPTY_KEY then 1 else 0) := by
  induction tb generalizing j with
  | nil => simp at hj
  | cons x xs ih =>
    cases j with
    | zero =>
      simp only [List.set_cons_zero, occupied, List.countP_cons, keyAt, slotAt,
        List.getD_cons_zero, decide_eq_true_eq]
      split_ifs <;> omega
    | succ j =>
      have hj' : j < xs.length := by simpa using hj
      have := ih j hj'
      simp only [List.set_cons_succ, occupied, List.countP_cons, keyAt, slotAt,
        List.getD_cons_succ, decide_eq_true_eq] at this ⊢
      omega

theorem exists_empty_slot (tb : List Slot) (h : occupied tb < tb.length) :
    ∃ j, j < tb.length ∧ keyAt tb j = EMPTY_KEY := by
  by_contra hne
  have hall : ∀ a ∈ tb, decide (a.1 ≠ EMPTY_KEY) = true := by
    intro a ha
    obtain ⟨j, hj, rfl⟩ := List.getElem_of_mem ha
    simp only [decide_eq_true_eq]
    intro hk
    apply hne
    refine ⟨j, hj, ?_⟩
    unfold keyAt
    rw [slotAt_eq_getElem tb j hj]
    exact hk
  have : occupied tb = tb.length := List.countP_eq_length.2 hall
  omega

/-! ## The probe finds its target -/

theorem probe_target (tb : List Slot) (size key : Nat) (hcap : 1 ≤ size)
    (h : ∃ j, j < size ∧ (keyAt tb j = EMPTY_KEY ∨ keyAt tb j = key)) :
    ∃ d, d < size ∧ PathClear tb size key d ∧
      (keyAt tb ((key % size + d) % size) = EMPTY_KEY ∨
        keyAt tb ((key % size + d) % size) = key) := by
  classical
  have hex : ∃ d, d < size ∧ (keyAt tb ((key % size + d) % size) = EMPTY_KEY ∨
      keyAt tb ((key % size + d) % size) = key) := by
    obtain ⟨j, hj, hk⟩ := h
    obtain ⟨d, hd, hdj⟩ := cyc_surj size (key % size) j (Nat.mod_lt _ hcap) hj
    exact ⟨d, hd, by rw [hdj]; exact hk⟩
  refine ⟨Nat.find hex, (Nat.find_spec hex).1, ?_, (Nat.find_spec hex).2⟩
  intro e he
  have hmin := Nat.find_min hex he
  have hlt : e < size := lt_trans he (Nat.find_spec hex).1
  constructor
  · intro hk; exact hmin ⟨hlt, Or.inl hk⟩
  · intro hk; exact hmin ⟨hlt, Or.inr hk⟩

theorem find_slot_for_insert_eq (t : KMerHashTable) (key d : Nat) (hcap : 1 ≤ t.size_)
    (hd : d < t.size_) (hclear : PathClear t.table t.size_ key d)
    (hstop : keyAt t.table ((key % t.size_ + d) % t.size_) = EMPTY_KEY ∨
      keyAt t.table ((key % t.size_ + d) % t.size_) = key) :
    find_slot_for_insert t key = .slot ((key % t.size_ + d) % t.size_) := by
  have hs : hash t key < t.size_ := hash_lt t key hcap
  have := findSlotLoop_spec t key (hash t key) d hs hd hclear hstop t.size_ 0
    (by omega) (by omega)
  rwa [Nat.add_zero, Nat.mod_eq_of_lt hs] at this

/-! ## The linear-probing invariant -/

theorem ProbeInv.unique {tb : List Slot} {size : Nat} (h : ProbeInv tb size) (hcap : 1 ≤ size)
    (j1 j2 k : Nat) (h1 : j1 < size) (h2 : j2 < size) (hk : k ≠ EMPTY_KEY)
    (e1 : keyAt tb j1 = k) (e2 : keyAt tb j2 = k) : j1 = j2 := by
  obtain ⟨d1, hd1, c1⟩ := cyc_surj size (k % size) j1 (Nat.mod_lt _ hcap) h1
  obtain ⟨d2, hd2, c2⟩ := cyc_surj size (k % size) j2 (Nat.mod_lt _ hcap) h2
  rcases Nat.lt_trichotomy d1 d2 with hlt | heq | hgt
  · exact absurd (by rw [c1]; exact e1) ((h k d2 hd2 hk (by rw [c2]; exact e2)) d1 hlt).2
  · rw [← c1, ← c2, heq]
  · exact absurd (by rw [c2]; exact e2) ((h k d1 hd1 hk (by rw [c1]; exact e1)) d2 hgt).2

theorem ProbeInv.replicate (n : Nat) : ProbeInv (List.replicate n emptySlot) n := by
  intro key d _ hk he
  unfold keyAt at he
  rw [slotAt_replicate] at he
  exact absurd he.symm hk

theorem ProbeInv.of_keys {tb tb1 : List Slot} {size : Nat} (h : ProbeInv tb size)
    (hkeys : ∀ j, keyAt tb1 j = keyAt tb j) : ProbeInv tb1 size := by
  intro key d hd hk he e hed
  rw [hkeys] at he
  have := h key d hd hk he e hed
  rwa [hkeys]

theorem ProbeInv.place {tb : List Slot} {size : Nat} (h : ProbeInv tb size) (hcap : 1 ≤ size)
    (hlen : tb.length = size) (key d : Nat) (ps : List Nat) (hd : d < size)
    (hclear : PathClear tb size key d)
    (hempty : keyAt tb ((key % size + d) % size) = EMPTY_KEY) :
    ProbeInv (tb.set ((key % size + d) % size) (key, ps)) size := by
  have hs : (key % size + d) % size < tb.length := by rw [hlen]; exact Nat.mod_lt _ hcap
  intro k1 d1 hd1 hk1 he1 e he
  rw [keyAt_set tb _ _ _ hs] at he1
  split_ifs at he1 with hpos
  · simp only at he1
    subst he1
    have hdd : d1 = d := cyc_inj size (key % size) d1 d (Nat.mod_lt _ hcap) hd1 hd hpos
    subst hdd
    have hne : (key % size + e) % size ≠ (key % size + d1) % size := fun heq =>
      absurd (cyc_inj size (key % size) e d1 (Nat.mod_lt _ hcap) (by omega) hd heq) (by omega)
    rw [keyAt_set tb _ _ _ hs, if_neg hne]
    exact hclear e he
  · have hc := h k1 d1 hd1 hk1 he1 e he
    have hne : (k1 % size + e) % size ≠ (key % size + d) % size := by
      intro heq
      rw [heq] at hc
      exact hc.1 hempty
    rw [keyAt_set tb _ _ _ hs, if_neg hne]
    exact hc

/-! ## The store of `insert_internal` -/

theorem storeAt_eq (t : KMerHashTable) (s key pos : Nat) (hs : s < t.table.length)
    (hk : keyAt t.table s = EMPTY_KEY ∨ keyAt t.table s = key) :
    storeAt t s key pos =
      { t with table := t.table.set s (key, (slotAt t.table s).2 ++ [pos]),
               unique_keys_count :=
                 t.unique_keys_count + (if keyAt t.table s = EMPTY_KEY then 1 else 0) } := by
  unfold storeAt
  unfold keyAt at hk ⊢
  by_cases he : (slotAt t.table s).1 = EMPTY_KEY
  · simp only [he, if_true]
    rw [slotAt_set _ _ _ _ hs, if_pos rfl, List.set_set]
  · have hkey : (slotAt t.table s).1 = key := by
      rcases hk with h | h
      · exact absurd h he
      · exact h
    simp only [he, if_false, Nat.add_zero]
    rw [hkey]

theorem Shape.of_storeAt {t : KMerHashTable} (h : Shape t) (key d pos : Nat) (hd : d < t.size_)
    (hclear : PathClear t.table t.size_ key d)
    (hstop : keyAt t.table ((key % t.size_ + d) % t.size_) = EMPTY_KEY ∨
      keyAt t.table ((key % t.size_ + d) % t.size_) = key) :
    Shape (storeAt t ((key % t.size_ + d) % t.size_) key pos) := by
  have hs : (key % t.size_ + d) % t.size_ < t.table.length := by
    rw [h.len]; exact Nat.mod_lt _ h.cap
  rw [storeAt_eq t _ key pos hs hstop]
  have hocc := occupied_set t.table ((key % t.size_ + d) % t.size_)
    (key, (slotAt t.table ((key % t.size_ + d) % t.size_)).2 ++ [pos]) hs
  refine ⟨by simp [h.len], h.cap, ?_, ?_⟩
  · by_cases hsame : keyAt t.table ((key % t.size_ + d) % t.size_) = key
    · apply h.probe.of_keys
      intro j
      simp only
      rw [keyAt_set _ _ _ _ hs]
      split_ifs with hj
      · rw [hj, hsame]
      · rfl
    · have hempty : keyAt t.table ((key % t.size_ + d) % t.size_) = EMPTY_KEY := by
        rcases hstop with h1 | h1
        · exact h1
        · exact absurd h1 hsame
      exact h.probe.place h.cap h.len key d _ hd hclear hempty
  · have hc := h.cnt
    simp only at hocc ⊢
    by_cases he : keyAt t.table ((key % t.size_ + d) % t.size_) = EMPTY_KEY
    · simp only [he, ne_eq, not_true_eq_false, if_false, if_true] at hocc ⊢
      split_ifs at hocc <;> omega
    · have hsame : keyAt t.table ((key % t.size_ + d) % t.size_) = key := by
        rcases hstop with h1 | h1
        · exact absurd h1 he
        · exact h1
      have hkey : key ≠ EMPTY_KEY := by rw [← hsame]; exact he
      simp only [he, ne_eq, not_false_eq_true, if_true, if_false, hkey] at hocc ⊢
      omega

/-- With an empty slot left, the probe of `insert_internal` finds the first slot
on the path of `key` that is empty or holds `key`, and stores there. -/
theorem insertAfterCheck_eq (t : KMerHashTable) (h : Shape t) (key pos : Nat)
    (hroom : occupied t.table < t.size_) :
    ∃ d, d < t.size_ ∧ PathClear t.table t.size_ key d ∧
      (keyAt t.table ((key % t.size_ + d) % t.size_) = EMPTY_KEY ∨
        keyAt t.table ((key % t.size_ + d) % t.size_) = key) ∧
      insertAfterCheck t key pos
        = (storeAt t ((key % t.size_ + d) % t.size_) key pos, .returned) := by
  obtain ⟨j, hj, hje⟩ := exists_empty_slot t.table (by rw [h.len]; exact hroom)
  rw [h.len] at hj
  obtain ⟨d, hd, hclear, hstop⟩ :=
    probe_target t.table t.size_ key h.cap ⟨j, hj, Or.inl hje⟩
  refine ⟨d, hd, hclear, hstop, ?_⟩
  unfold insertAfterCheck
  rw [find_slot_for_insert_eq t key d h.cap hd hclear hstop]

/-! ## Rehash -/

theorem rehashLoop_spec (rest : List Slot) (tn : KMerHashTable) (hs : Shape tn)
    (hcnt : tn.unique_keys_count = occupied tn.table)
    (hroom : occupied tn.table + rest.length < tn.size_)
    (hdisj : ∀ r ∈ rest, r.1 ≠ EMPTY_KEY → ∀ j, j < tn.size_ → keyAt tn.table j ≠ r.1)
    (hpw : rest.Pairwise (fun a b => a.1 ≠ EMPTY_KEY → a.1 ≠ b.1))
    (hclean : ∀ j, j < tn.size_ → keyAt tn.table j = EMPTY_KEY → (slotAt tn.table j).2 = []) :
    ∃ t1, rehashLoop rest tn = (t1, .returned) ∧ Shape t1 ∧ t1.size_ = tn.size_ ∧
      t1.K = tn.K ∧ t1.unique_keys_count = occupied t1.table ∧
      occupied t1.table ≤ occupied tn.table + rest.length ∧
      (∀ j, j < tn.size_ → keyAt t1.table j = EMPTY_KEY → (slotAt t1.table j).2 = []) ∧
      (∀ j, j < tn.size_ → keyAt t1.table j ≠ EMPTY_KEY →
        (∃ j0, j0 < tn.size_ ∧ keyAt tn.table j0 ≠ EMPTY_KEY ∧
          slotAt tn.table j0 = slotAt t1.table j) ∨ slotAt t1.table j ∈ rest) ∧
      (∀ j0, j0 < tn.size_ → keyAt tn.table j0 ≠ EMPTY_KEY →
        ∃ j, j < tn.size_ ∧ slotAt t1.table j = slotAt tn.table j0) ∧
      (∀ r ∈ rest, r.1 ≠ EMPTY_KEY → ∃ j, j < tn.size_ ∧ slotAt t1.table j = r) := by
  induction rest generalizing tn with
  | nil =>
    refine ⟨tn, rfl, hs, rfl, rfl, hcnt, by simp, hclean, ?_, ?_, ?_⟩
    · intro j hj hk; exact Or.inl ⟨j, hj, hk, rfl⟩
    · intro j0 hj0 _; exact ⟨j0, hj0, rfl⟩
    · intro r hr; simp at hr
  | cons o rest ih =>
    rw [List.pairwise_cons] at hpw
    rw [List.length_cons] at hroom
    by_cases ho : o.1 = EMPTY_KEY
    · rw [rehashLoop, if_neg (by simpa using ho)]
      obtain ⟨t1, e1, e2, e3, e4, e5, e6, e7, e8, e9, e10⟩ := ih tn hs hcnt (by omega)
        (fun r hr => hdisj r (List.mem_cons_of_mem _ hr)) hpw.2 hclean
      refine ⟨t1, e1, e2, e3, e4, e5, by rw [List.length_cons]; omega, e7, ?_, e9, ?_⟩
      · intro j hj hk
        rcases e8 j hj hk with h1 | h1
        · exact Or.inl h1
        · exact Or.inr (List.mem_cons_of_mem _ h1)
      · intro r hr hrk
        rcases List.mem_cons.1 hr with rfl | hr
        · exact absurd ho hrk
        · exact e10 r hr hrk
    · rw [rehashLoop, if_pos ho]
      have habs : ∀ j, j < tn.size_ → keyAt tn.table j ≠ o.1 :=
        hdisj o (List.mem_cons_self _ _) ho
      have hocc : occupied tn.table < tn.size_ := by omega
      obtain ⟨j, hj, hje⟩ := exists_empty_slot tn.table (by rw [hs.len]; exact hocc)
      rw [hs.len] at hj
      obtain ⟨d, hd, hclear, hstop⟩ :=
        probe_target tn.table tn.size_ o.1 hs.cap ⟨j, hj, Or.inl hje⟩
      have hslt : (o.1 % tn.size_ + d) % tn.size_ < tn.size_ := Nat.mod_lt _ hs.cap
      have hempty : keyAt tn.table ((o.1 % tn.size_ + d) % tn.size_) = EMPTY_KEY := by
        rcases hstop with h1 | h1
        · exact h1
        · exact absurd h1 (habs _ hslt)
      rw [find_slot_for_insert_eq tn o.1 d hs.cap hd hclear hstop]
      simp only
      have hsl : (o.1 % tn.size_ + d) % tn.size_ < tn.table.length := by rw [hs.len]; exact hslt
      have hoccset := occupied_set tn.table ((o.1 % tn.size_ + d) % tn.size_) (o.1, o.2) hsl
      rw [if_neg (by simpa using hempty), if_pos ho] at hoccset
      have hshape : Shape (moveInto tn ((o.1 % tn.size_ + d) % tn.size_) o) := by
        refine ⟨by simp [moveInto, hs.len], hs.cap, ?_, ?_⟩
        · exact hs.probe.place hs.cap hs.len o.1 d o.2 hd hclear hempty
        · simp only [moveInto]; omega
      have hslot : ∀ i, slotAt (moveInto tn ((o.1 % tn.size_ + d) % tn.size_) o).table i
          = if i = (o.1 % tn.size_ + d) % tn.size_ then o else slotAt tn.table i := by
        intro i
        simp only [moveInto]
        rw [slotAt_set _ _ _ _ hsl]
      have hkeyAt : ∀ i, keyAt (moveInto tn ((o.1 % tn.size_ + d) % tn.size_) o).table i
          = if i = (o.1 % tn.size_ + d) % tn.size_ then o.1 else keyAt tn.table i := by
        intro i
        unfold keyAt
        rw [hslot]
        split_ifs <;> rfl
      obtain ⟨t1, e1, e2, e3, e4, e5, e6, e7, e8, e9, e10⟩ :=
        ih (moveInto tn ((o.1 % tn.size_ + d) % tn.size_) o) hshape
          (by simp only [moveInto]; omega)
          (by simp only [moveInto]; omega)
          (by
            intro r hr hrk i hi
            rw [hkeyAt]
            split_ifs with hi2
            · exact hpw.1 r hr ho
            · exact hdisj r (List.mem_cons_of_mem _ hr) hrk i hi)
          hpw.2
          (by
            intro i hi hik
            rw [hkeyAt] at hik
            rw [hslot]
            split_ifs at hik ⊢ with hi2
            · exact absurd hik ho
            · exact hclean i hi hik)
      have hsz : (moveInto tn ((o.1 % tn.size_ + d) % tn.size_) o).size_ = tn.size_ := rfl
      rw [hsz] at e3 e7 e8 e9 e10
      refine ⟨t1, e1, e2, e3, e4, e5, ?_, e7, ?_, ?_, ?_⟩
      · simp only [moveInto, List.length_cons] at e6 ⊢; omega
      · intro i hi hik
        rcases e8 i hi hik with ⟨j0, hj0, hk0, hs0⟩ | h1
        · rw [hslot] at hs0
          rw [hkeyAt] at hk0
          split_ifs at hs0 hk0 with hj2
          · exact Or.inr (by rw [← hs0]; exact List.mem_cons_self _ _)
          · exact Or.inl ⟨j0, hj0, hk0, hs0⟩
        · exact Or.inr (List.mem_cons_of_mem _ h1)
      · intro j0 hj0 hk0
        have hne : j0 ≠ (o.1 % tn.size_ + d) % tn.size_ := by
          intro heq; rw [heq] at hk0; exact hk0 hempty
        obtain ⟨i, hi, hsi⟩ := e9 j0 hj0 (by rw [hkeyAt, if_neg hne]; exact hk0)
        rw [hslot, if_neg hne] at hsi
        exact ⟨i, hi, hsi⟩
      · intro r hr hrk
        rcases List.mem_cons.1 hr with rfl | hr
        · obtain ⟨i, hi, hsi⟩ := e9 ((r.1 % tn.size_ + d) % tn.size_) hslt
            (by rw [hkeyAt, if_pos rfl]; exact ho)
          rw [hslot, if_pos rfl] at hsi
          exact ⟨i, hi, hsi⟩
        · exact e10 r hr hrk

theorem Shape.keys_pairwise {t : KMerHashTable} (hs : Shape t) :
    t.table.Pairwise (fun a b => a.1 ≠ EMPTY_KEY → a.1 ≠ b.1) := by
  rw [List.pairwise_iff_getElem]
  intro i j hi hj hij ha hab
  have e1 : keyAt t.table i = t.table[i].1 := by unfold keyAt; rw [slotAt_eq_getElem _ _ hi]
  have e2 : keyAt t.table j = t.table[i].1 := by
    unfold keyAt; rw [slotAt_eq_getElem _ _ hj, hab]
  have := hs.probe.unique hs.cap i j _ (by rw [← hs.len]; exact hi)
    (by rw [← hs.len]; exact hj) ha e1 e2
  omega

theorem rehash_spec (t : KMerHashTable) (n : Nat) (hs : Shape t) (hn : t.size_ < n) :
    ∃ t1, rehash t n = (t1, .returned) ∧ Shape t1 ∧ t1.size_ = n ∧ t1.K = t.K ∧
      t1.unique_keys_count = occupied t1.table ∧ occupied t1.table ≤ t.size_ ∧
      (∀ j, j < n → keyAt t1.table j = EMPTY_KEY → (slotAt t1.table j).2 = []) ∧
      (∀ j, j < n → keyAt t1.table j ≠ EMPTY_KEY →
        ∃ j0, j0 < t.size_ ∧ slotAt t.table j0 = slotAt t1.table j) ∧
      (∀ j0, j0 < t.size_ → keyAt t.table j0 ≠ EMPTY_KEY →
        ∃ j, j < n ∧ slotAt t1.table j = slotAt t.table j0) := by
  have htake : t.table.take t.size_ = t.table := List.take_of_length_le (by rw [hs.len])
  have hpw := hs.keys_pairwise
  have hshape0 : Shape { t with table := List.replicate n emptySlot, size_ := n,
                                unique_keys_count := 0 } :=
    ⟨by simp, by simp only; have := hs.cap; omega, ProbeInv.replicate n,
      by simp [occupied_replicate]⟩
  obtain ⟨t1, e1, e2, e3, e4, e5, e6, e7, e8, e9, e10⟩ :=
    rehashLoop_spec t.table _ hshape0 (by simp [occupied_replicate])
      (by simp only [occupied_replicate]; rw [hs.len]; omega)
      (by
        intro r _ hrk j _
        unfold keyAt
        simp only
        rw [slotAt_replicate]
        exact fun h => hrk h.symm)
      hpw
      (by
        intro j _ _
        simp only
        rw [slotAt_replicate]
        rfl)
  simp only [occupied_replicate, Nat.zero_add] at e3 e4 e6 e7 e8 e9 e10
  refine ⟨t1, by unfold rehash; rw [htake]; exact e1, e2, e3, e4, e5,
    by rw [← hs.len]; exact e6, e7, ?_, ?_⟩
  · intro j hj hk
    rcases e8 j hj hk with ⟨j0, _, hk0, _⟩ | hmem
    · exfalso
      apply hk0
      unfold keyAt
      rw [slotAt_replicate]
      rfl
    · obtain ⟨i, hi, hget⟩ := List.getElem_of_mem hmem
      exact ⟨i, by rw [← hs.len]; exact hi, by rw [slotAt_eq_getElem _ _ hi]; exact hget⟩
  · intro j0 hj0 hk0
    have hj0l : j0 < t.table.length := by rw [hs.len]; exact hj0
    have hmem : slotAt t.table j0 ∈ t.table := by
      rw [slotAt_eq_getElem _ _ hj0l]; exact List.getElem_mem _
    exact e10 _ hmem hk0

/-! ## The table as a map from keys to position lists -/

theorem Rep.of_rehash {t : KMerHashTable} {m : KmerKey → List Nat} (h : Rep t m) (n : Nat)
    (hn : t.size_ < n) :
    ∃ t1, rehash t n = (t1, .returned) ∧ Rep t1 m ∧ t1.size_ = n ∧ t1.K = t.K ∧
      occupied t1.table ≤ t.size_ := by
  obtain ⟨t1, e1, e2, e3, e4, e5, e6, e7, e8, e9⟩ := rehash_spec t n h.shape hn
  refine ⟨t1, e1, ⟨e2, e5, by rw [e3]; exact e7, ?_, ?_⟩, e3, e4, e6⟩
  · intro j hj hk
    rw [e3] at hj
    obtain ⟨j0, hj0, hs0⟩ := e8 j hj hk
    have hk0 : keyAt t.table j0 = keyAt t1.table j := by unfold keyAt; rw [hs0]
    have := h.content j0 hj0 (by rw [hk0]; exact hk)
    rw [hk0, hs0] at this
    exact this
  · intro k hk hm
    obtain ⟨j0, hj0, hk0⟩ := h.stored k hk hm
    obtain ⟨j, hj, hsj⟩ := e9 j0 hj0 (by rw [hk0]; exact hk)
    exact ⟨j, by rw [e3]; exact hj, by unfold keyAt at hk0 ⊢; rw [hsj]; exact hk0⟩

theorem absent_of_probe_empty {tb : List Slot} {size : Nat} (h : ProbeInv tb size)
    (hcap : 1 ≤ size) (key d : Nat) (hk : key ≠ EMPTY_KEY)
    (hclear : PathClear tb size key d)
    (hempty : keyAt tb ((key % size + d) % size) = EMPTY_KEY) :
    ∀ j, j < size → keyAt tb j ≠ key := by
  intro j hj hjk
  obtain ⟨d1, hd1, c1⟩ := cyc_surj size (key % size) j (Nat.mod_lt _ hcap) hj
  rw [← c1] at hjk
  rcases Nat.lt_trichotomy d1 d with hlt | heq | hgt
  · exact (hclear d1 hlt).2 hjk
  · rw [heq, hempty] at hjk; exact hk hjk.symm
  · exact (h key d1 hd1 hk hjk d hgt).1 hempty

theorem Rep.of_insertAfterCheck {t : KMerHashTable} {m : KmerKey → List Nat} (h : Rep t m)
    (key pos : Nat) (hk : key ≠ EMPTY_KEY) (hroom : occupied t.table < t.size_) :
    ∃ t1, insertAfterCheck t key pos = (t1, .returned) ∧ Rep t1 (appendPos m key pos) ∧
      t1.size_ = t.size_ ∧ t1.K = t.K := by
  obtain ⟨d, hd, hclear, hstop, heq⟩ := insertAfterCheck_eq t h.shape key pos hroom
  have hcap := h.shape.cap
  have hslt : (key % t.size_ + d) % t.size_ < t.size_ := Nat.mod_lt _ hcap
  have hsl : (key % t.size_ + d) % t.size_ < t.table.length := by
    rw [h.shape.len]; exact hslt
  have hshape := h.shape.of_storeAt key d pos hd hclear hstop
  have hst := storeAt_eq t _ key pos hsl hstop
  have hocc := occupied_set t.table ((key % t.size_ + d) % t.size_)
    (key, (slotAt t.table ((key % t.size_ + d) % t.size_)).2 ++ [pos]) hsl
  have hslot : ∀ i, slotAt (storeAt t ((key % t.size_ + d) % t.size_) key pos).table i
      = if i = (key % t.size_ + d) % t.size_
        then (key, (slotAt t.table ((key % t.size_ + d) % t.size_)).2 ++ [pos])
        else slotAt t.table i := by
    intro i
    rw [hst]
    simp only
    rw [slotAt_set _ _ _ _ hsl]
  have hkeyAt : ∀ i, keyAt (storeAt t ((key % t.size_ + d) % t.size_) key pos).table i
      = if i = (key % t.size_ + d) % t.size_ then key else keyAt t.table i := by
    intro i
    unfold keyAt
    rw [hslot]
    split_ifs <;> rfl
  have hother : ∀ j, j < t.size_ → j ≠ (key % t.size_ + d) % t.size_ →
      keyAt t.table j ≠ key := by
    intro j hj hne hjk
    rcases hstop with he | hs
    · exact absurd hjk
        (absent_of_probe_empty h.shape.probe hcap key d hk hclear he j hj)
    · exact hne (h.shape.probe.unique hcap j _ key hj hslt hk hjk hs)
  have hposs : (slotAt t.table ((key % t.size_ + d) % t.size_)).2 = m key := by
    rcases hstop with he | hs
    · rw [h.clean _ hslt he]
      by_contra hne
      obtain ⟨j, hj, hjk⟩ := h.stored key hk (fun e => hne e.symm)
      exact absent_of_probe_empty h.shape.probe hcap key d hk hclear he j hj hjk
    · have := (h.content _ hslt (by rw [hs]; exact hk)).1
      rw [hs] at this
      exact this
  have hsize : (storeAt t ((key % t.size_ + d) % t.size_) key pos).size_ = t.size_ := by
    rw [hst]
  refine ⟨_, heq, ⟨hshape, ?_, ?_, ?_, ?_⟩, hsize, by rw [hst]⟩
  · rw [hst]
    have hc := h.count
    simp only at hocc ⊢
    rw [if_pos hk] at hocc
    by_cases he : keyAt t.table ((key % t.size_ + d) % t.size_) = EMPTY_KEY
    · rw [if_neg (by simpa using he)] at hocc
      rw [if_pos he]
      omega
    · rw [if_pos he] at hocc
      rw [if_neg he]
      omega
  · intro j hj hjk
    rw [hsize] at hj
    rw [hkeyAt] at hjk
    rw [hslot]
    split_ifs at hjk ⊢ with hjs
    · exact absurd hjk hk
    · exact h.clean j hj hjk
  · intro j hj hjk
    rw [hsize] at hj
    rw [hkeyAt] at hjk ⊢
    rw [hslot]
    split_ifs at hjk ⊢ with hjs
    · simp only [appendPos, if_true, hposs]
      exact ⟨trivial, by simp⟩
    · have hne := hother j hj hjs
      simp only [appendPos, if_neg hne]
      exact h.content j hj hjk
  · intro k hkk hmk
    rw [hsize]
    by_cases hkey : k = key
    · exact ⟨_, hslt, by rw [hkeyAt, if_pos rfl, hkey]⟩
    · simp only [appendPos, if_neg hkey] at hmk
      obtain ⟨j, hj, hjk⟩ := h.stored k hkk hmk
      have hjs : j ≠ (key % t.size_ + d) % t.size_ := by
        intro e
        rw [e] at hjk
        rcases hstop with he | hs
        · rw [he] at hjk; exact hkk hjk.symm
        · rw [hs] at hjk; exact hkey hjk.symm
      exact ⟨j, hj, by rw [hkeyAt, if_neg hjs]; exact hjk⟩

theorem Rep.of_insert_internal {t : KMerHashTable} {m : KmerKey → List Nat} (h : Rep t m)
    (key pos : Nat) (hk : key ≠ EMPTY_KEY) :
    ∃ t1, insert_internal t key pos = (t1, .returned) ∧ Rep t1 (appendPos m key pos) ∧
      t1.K = t.K := by
  have hcap := h.shape.cap
  unfold insert_internal
  cases hov : overOccupancy t with
  | false =>
    simp only [Bool.false_eq_true, if_false]
    have hc : 10 * t.unique_keys_count ≤ 7 * t.size_ := by simpa [overOccupancy] using hov
    obtain ⟨t1, e1, e2, _, e4⟩ := h.of_insertAfterCheck key pos hk (by rw [← h.count]; omega)
    exact ⟨t1, e1, e2, e4⟩
  | true =>
    simp only [if_true]
    obtain ⟨t1, e1, e2, e3, e4, e5⟩ := h.of_rehash (t.size_ * 2) (by omega)
    rw [e1]
    simp only
    obtain ⟨t2, f1, f2, _, f4⟩ := e2.of_insertAfterCheck key pos hk (by rw [e3]; omega)
    exact ⟨t2, f1, f2, by rw [f4, e4]⟩

theorem Rep.query_key {t : KMerHashTable} {m : KmerKey → List Nat} (h : Rep t m) (key : Nat)
    (hk : key ≠ EMPTY_KEY ∨ m key = []) :
    queryLoop t key (hash t key) t.size_ (hash t key) = some (m key) := by
  have hcap := h.shape.cap
  have hs : hash t key < t.size_ := hash_lt t key hcap
  by_cases hm : key ≠ EMPTY_KEY ∧ m key ≠ []
  · obtain ⟨j, hj, hjk⟩ := h.stored key hm.1 hm.2
    obtain ⟨d, hd, hdj⟩ := cyc_surj t.size_ (key % t.size_) j (Nat.mod_lt _ hcap) hj
    rw [← hdj] at hjk
    have hclear := h.shape.probe key d hd hm.1 hjk
    have := queryLoop_found t key (hash t key) d hs hd hm.1 hclear hjk t.size_ 0
      (by omega) (by omega)
    rw [Nat.add_zero, Nat.mod_eq_of_lt hs] at this
    rw [this]
    have hc := (h.content _ (Nat.mod_lt _ hcap) (by rw [hjk]; exact hm.1)).1
    rw [hjk] at hc
    unfold hash
    rw [hc]
  · have hmk : m key = [] := by
      rcases hk with hk | hk
      · by_contra hne; exact hm ⟨hk, hne⟩
      · exact hk
    have := queryLoop_absent t key (hash t key) hs
      (fun j hj hje hjk => (h.content j hj hje).2 (by rw [hjk]; exact hmk))
      t.size_ 0 (by omega) hcap
    rw [Nat.add_zero, Nat.mod_eq_of_lt hs] at this
    rw [this, hmk]

/-! ## The sentinel -/

theorem base4Value_replicate_T : base4Value (List.replicate 32 'T') = EMPTY_KEY := by decide

theorem encode_kmer_ok_valid {K : Nat} {w : List Char} {key : Nat}
    (h : encode_kmer K w = .ok key) : w.length = K ∧ ∀ c ∈ w, isBase c = true :=
  (encode_kmer_errors K w).1.1 ⟨key, h⟩

/-- Only the string of 32 T's encodes to `EMPTY_KEY`. -/
theorem encode_kmer_eq_sentinel {K : Nat} {w : List Char} (hK : K ≤ 32)
    (h : encode_kmer K w = .ok EMPTY_KEY) : w = List.replicate 32 'T' := by
  obtain ⟨hlen, hv⟩ := encode_kmer_ok_valid h
  rw [encode_kmer_valid K w hK hlen hv] at h
  have hval : base4Value w = EMPTY_KEY := Except.ok.inj h
  have hlt := base4Value_lt w
  have hK32 : w.length = 32 := by
    by_contra hne
    have h31 : w.length ≤ 31 := by omega
    have : (4 : Nat) ^ w.length ≤ 4 ^ 31 := Nat.pow_le_pow_right (by norm_num) h31
    rw [hval] at hlt
    have h2 : EMPTY_KEY = 2 ^ 64 - 1 := rfl
    norm_num [h2] at hlt this
    omega
  apply base4Value_inj w _ (by simp [hK32]) hv
  · intro c hc
    rw [(List.mem_replicate.1 hc).2]; rfl
  · rw [hval, base4Value_replicate_T]

/-! ## `build_index` -/

theorem encodesTo_iff (K : Nat) (w : List Char) (key : Nat) :
    encodesTo K w key = true ↔ encode_kmer K w = .ok key := by
  unfold encodesTo
  cases encode_kmer K w with
  | error e => simp
  | ok k => simp

theorem positionsOfKey_append (genome : List Char) (K : Nat) (done : List Nat) (i key : Nat) :
    positionsOfKey genome K (done ++ [i]) key =
      positionsOfKey genome K done key ++
        (if encodesTo K ((genome.drop i).take K) key = true then [i] else []) := by
  unfold positionsOfKey
  rw [List.filter_append]
  congr 1
  by_cases h : encodesTo K ((genome.drop i).take K) key = true
  · simp [List.filter, h]
  · simp [List.filter, h]

theorem buildLoop_spec (genome : List Char) (rest done : List Nat) (t : KMerHashTable)
    (hfree : ∀ i, encode_kmer t.K ((genome.drop i).take t.K) ≠ .ok EMPTY_KEY)
    (h : Rep t (positionsOfKey genome t.K done)) :
    ∃ t1, buildLoop genome rest t = some t1 ∧ t1.K = t.K ∧
      Rep t1 (positionsOfKey genome t.K (done ++ rest)) := by
  induction rest generalizing done t with
  | nil => exact ⟨t, rfl, rfl, by rw [List.append_nil]; exact h⟩
  | cons i rest ih =>
    rw [buildLoop]
    cases he : encode_kmer t.K (List.take t.K (List.drop i genome)) with
    | error e =>
      simp only
      have hm : positionsOfKey genome t.K (done ++ [i]) = positionsOfKey genome t.K done := by
        funext key
        have hn : ¬ encodesTo t.K ((genome.drop i).take t.K) key = true := by
          rw [encodesTo_iff, he]; simp
        rw [positionsOfKey_append, if_neg hn, List.append_nil]
      obtain ⟨t1, e1, e2, e3⟩ := ih (done ++ [i]) t hfree (by rw [hm]; exact h)
      exact ⟨t1, e1, e2, by simpa using e3⟩
    | ok key =>
      simp only
      have hkey : key ≠ EMPTY_KEY := by
        intro hk
        rw [hk] at he
        exact hfree i he
      obtain ⟨t1, e1, e2, e3⟩ := h.of_insert_internal key i hkey
      rw [e1]
      simp only
      have hm : appendPos (positionsOfKey genome t.K done) key i
          = positionsOfKey genome t1.K (done ++ [i]) := by
        funext k
        rw [e3, positionsOfKey_append]
        unfold appendPos
        by_cases hk : k = key
        · rw [if_pos hk, if_pos (by rw [encodesTo_iff, he, hk])]
        · rw [if_neg hk, if_neg (by
            rw [encodesTo_iff, he]
            exact fun e => hk (Except.ok.inj e).symm), List.append_nil]
      rw [hm] at e2
      obtain ⟨t2, f1, f2, f3⟩ := ih (done ++ [i]) t1 (by rw [e3]; exact hfree) e2
      exact ⟨t2, f1, by rw [f2, e3], by rw [e3] at f3; simpa using f3⟩

theorem Rep.reset (t : KMerHashTable) (hcap : 1 ≤ t.size_) (m : KmerKey → List Nat)
    (hm : ∀ k, m k = []) :
    Rep { t with table := List.replicate t.size_ emptySlot, unique_keys_count := 0 } m := by
  refine ⟨⟨by simp, hcap, ProbeInv.replicate _, by simp [occupied_replicate]⟩,
    by simp [occupied_replicate], ?_, ?_, ?_⟩
  · intro j _ _
    simp only
    rw [slotAt_replicate]; rfl
  · intro j _ hk
    exfalso; apply hk
    unfold keyAt
    simp only
    rw [slotAt_replicate]; rfl
  · intro k _ hk
    exact absurd (hm k) hk

theorem build_index_spec (t : KMerHashTable) (genome : List Char) (hcap : 1 ≤ t.size_)
    (hfree : ∀ i, encode_kmer t.K ((genome.drop i).take t.K) ≠ .ok EMPTY_KEY) :
    ∃ t1, build_index t genome = some t1 ∧ t1.K = t.K ∧
      Rep t1 (positionsOfKey genome t.K (List.range (genome.length + 1 - t.K))) := by
  unfold build_index
  simp only
  split_ifs with hl
  · have h0 : genome.length + 1 - t.K = 0 := by omega
    refine ⟨_, rfl, rfl, ?_⟩
    rw [h0]
    exact Rep.reset t hcap _ (fun k => rfl)
  · have h1 : genome.length + 1 - t.K = genome.length - t.K + 1 := by omega
    rw [h1]
    have := buildLoop_spec genome (List.range (genome.length - t.K + 1)) []
      { t with table := List.replicate t.size_ emptySlot, unique_keys_count := 0 }
      hfree (Rep.reset t hcap _ (fun k => rfl))
    simpa using this

/-! ## Queries after `build_index` -/

theorem mem_occurrences (genome w : List Char) (p : Nat) :
    p ∈ occurrences genome w ↔
      p + w.length ≤ genome.length ∧ (genome.drop p).take w.length = w := by
  unfold occurrences
  rw [List.mem_filter, List.mem_range, decide_eq_true_eq]
  constructor
  · rintro ⟨h1, h2⟩
    refine ⟨?_, h2⟩
    have hl := congrArg List.length h2
    rw [List.length_take, List.length_drop] at hl
    omega
  · rintro ⟨h1, h2⟩
    exact ⟨by omega, h2⟩

theorem occurrences_ascending (genome w : List Char) :
    (occurrences genome w).Pairwise (· < ·) :=
  List.Pairwise.filter _ (List.pairwise_lt_range _)

theorem positionsOfKey_eq_occurrences (genome w : List Char) (K key : Nat) (hK : K ≤ 32)
    (hlen : w.length = K) (he : encode_kmer K w = .ok key) :
    positionsOfKey genome K (List.range (genome.length + 1 - K)) key = occurrences genome w := by
  have hv := (encode_kmer_ok_valid he).2
  unfold positionsOfKey occurrences
  rw [hlen]
  apply List.filter_congr
  intro i _
  rw [Bool.eq_iff_iff, encodesTo_iff, decide_eq_true_eq]
  constructor
  · intro hi
    obtain ⟨hl, hvi⟩ := encode_kmer_ok_valid hi
    exact encode_kmer_injective K _ w hK hl hlen hvi hv (by rw [hi, he])
  · intro hi
    rw [hi, he]

theorem query_of_rep {t : KMerHashTable} {m : KmerKey → List Nat} (h : Rep t m)
    (w : List Char) (key : Nat) (he : encode_kmer t.K w = .ok key)
    (hk : key ≠ EMPTY_KEY ∨ m key = []) : query t w = some (m key) := by
  unfold query
  rw [if_neg (by simpa using (encode_kmer_ok_valid he).1), he]
  exact h.query_key key hk

/-- Correctness of the index away from the sentinel: for K up to 32, capacity at
least 1 and a sequence none of whose windows is the string of 32 T's (no
condition when K is at most 31), `build_index` returns and afterwards `query` of
every string of K bases returns exactly the start positions at which the string
occurs in the sequence, in ascending order. -/
theorem index_correct (t : KMerHashTable) (genome : List Char) (hcap : 1 ≤ t.size_)
    (hK : t.K ≤ 32)
    (hfree : ∀ i, (genome.drop i).take t.K ≠ List.replicate 32 'T') :
    ∃ t1, build_index t genome = some t1 ∧ t1.K = t.K ∧
      ∀ w, w.length = t.K → (∀ c ∈ w, isBase c = true) →
        query t1 w = some (occurrences genome w) := by
  have hfree1 : ∀ i, encode_kmer t.K ((genome.drop i).take t.K) ≠ .ok EMPTY_KEY :=
    fun i h => hfree i (encode_kmer_eq_sentinel hK h)
  obtain ⟨t1, e1, e2, e3⟩ := build_index_spec t genome hcap hfree1
  refine ⟨t1, e1, e2, fun w hlen hv => ?_⟩
  have he := encode_kmer_valid t.K w hK hlen hv
  rw [← positionsOfKey_eq_occurrences genome w t.K _ hK hlen he]
  apply query_of_rep e3 w _ (by rw [e2]; exact he)
  by_cases hk : base4Value w = EMPTY_KEY
  · right
    unfold positionsOfKey
    rw [List.filter_eq_nil_iff]
    intro i _
    rw [encodesTo_iff, hk]
    exact hfree1 i
  · exact Or.inl hk

theorem index_correct_witness :
    ∃ t1, build_index ⟨List.replicate 3 emptySlot, 3, 2, 0⟩ "GCGCGCGCAT".toList = some t1 ∧
      query t1 ['G', 'C'] = some (occurrences "GCGCGCGCAT".toList ['G', 'C']) ∧
      occurrences "GCGCGCGCAT".toList ['G', 'C'] = [0, 2, 4, 6] :=
  let ⟨t1, h1, _, h3⟩ := index_correct ⟨List.replicate 3 emptySlot, 3, 2, 0⟩
    "GCGCGCGCAT".toList (by decide) (by decide)
    (fun i h => absurd (congrArg List.length h) (by
      rw [List.length_take, List.length_replicate]
      exact fun e => absurd (e ▸ Nat.min_le_left 2 _) (by decide)))
  ⟨t1, h1, h3 ['G', 'C'] rfl (by decide), by decide⟩

/-! ## `get_kmer_counts` -/

theorem mem_mapAssign (l : List (KmerKey × Nat)) (hl : MapSorted l) (k v : Nat)
    (x : KmerKey × Nat) :
    x ∈ mapAssign l k v ↔ x = (k, v) ∨ (x.1 ≠ k ∧ x ∈ l) := by
  induction l with
  | nil => simp [mapAssign]
  | cons a rest ih =>
    obtain ⟨ak, av⟩ := a
    unfold MapSorted at hl
    rw [List.pairwise_cons] at hl
    have hgt : ∀ y ∈ rest, ak < y.1 := fun y hy => hl.1 y hy
    rw [mapAssign]
    split_ifs with h1 h2
    · rw [List.mem_cons]
      constructor
      · rintro (h | h)
        · exact Or.inl h
        · right
          rcases List.mem_cons.1 h with rfl | h
          · exact ⟨Nat.ne_of_gt h1, List.mem_cons_self _ _⟩
          · exact ⟨Nat.ne_of_gt (lt_trans h1 (hgt x h)), List.mem_cons_of_mem _ h⟩
      · rintro (h | ⟨_, h⟩)
        · exact Or.inl h
        · exact Or.inr h
    · subst h2
      rw [List.mem_cons]
      constructor
      · rintro (h | h)
        · exact Or.inl h
        · exact Or.inr ⟨Nat.ne_of_gt (hgt x h), List.mem_cons_of_mem _ h⟩
      · rintro (h | ⟨hne, h⟩)
        · exact Or.inl h
        · rcases List.mem_cons.1 h with rfl | h
          · exact absurd rfl hne
          · exact Or.inr h
    · rw [List.mem_cons, ih hl.2, List.mem_cons]
      constructor
      · rintro (h | h | ⟨hne, h⟩)
        · subst h
          exact Or.inr ⟨by simp only; exact fun e => h2 e.symm, Or.inl rfl⟩
        · exact Or.inl h
        · exact Or.inr ⟨hne, Or.inr h⟩
      · rintro (h | ⟨hne, h | h⟩)
        · exact Or.inr (Or.inl h)
        · exact Or.inl h
        · exact Or.inr (Or.inr ⟨hne, h⟩)

theorem mapAssign_sorted (l : List (KmerKey × Nat)) (hl : MapSorted l) (k v : Nat) :
    MapSorted (mapAssign l k v) := by
  induction l with
  | nil => simp [mapAssign, MapSorted]
  | cons a rest ih =>
    obtain ⟨ak, av⟩ := a
    have hl' := hl
    unfold MapSorted at hl'
    rw [List.pairwise_cons] at hl'
    rw [mapAssign]
    split_ifs with h1 h2
    · unfold MapSorted
      rw [List.pairwise_cons]
      refine ⟨?_, hl⟩
      intro y hy
      rcases List.mem_cons.1 hy with rfl | hy
      · exact h1
      · exact lt_trans h1 (hl'.1 y hy)
    · subst h2
      unfold MapSorted
      rw [List.pairwise_cons]
      exact ⟨hl'.1, hl'.2⟩
    · unfold MapSorted
      rw [List.pairwise_cons]
      refine ⟨?_, ih hl'.2⟩
      intro y hy
      rcases (mem_mapAssign rest hl'.2 k v y).1 hy with rfl | ⟨_, hy⟩
      · exact Nat.lt_of_le_of_ne (Nat.le_of_not_lt h1) (fun e => h2 e.symm)
      · exact hl'.1 y hy

theorem countsLoop_spec (rest : List Slot) (acc : List (KmerKey × Nat)) (hacc : MapSorted acc)
    (hpw : rest.Pairwise (fun a b => a.1 ≠ EMPTY_KEY → a.1 ≠ b.1)) :
    MapSorted (countsLoop rest acc) ∧
      ∀ x, x ∈ countsLoop rest acc ↔
        (∃ s ∈ rest, s.1 ≠ EMPTY_KEY ∧ x = (s.1, s.2.length)) ∨
          (x ∈ acc ∧ ∀ s ∈ rest, s.1 ≠ EMPTY_KEY → s.1 ≠ x.1) := by
  induction rest generalizing acc with
  | nil => simp [countsLoop, hacc]
  | cons p rest ih =>
    rw [List.pairwise_cons] at hpw
    rw [countsLoop]
    by_cases hp : p.1 = EMPTY_KEY
    · rw [if_neg (by simpa using hp)]
      obtain ⟨i1, i2⟩ := ih acc hacc hpw.2
      refine ⟨i1, fun x => ?_⟩
      rw [i2]
      constructor
      · rintro (⟨s, hs, hsk, hx⟩ | ⟨hx, hall⟩)
        · exact Or.inl ⟨s, List.mem_cons_of_mem _ hs, hsk, hx⟩
        · refine Or.inr ⟨hx, fun s hs hsk => ?_⟩
          rcases List.mem_cons.1 hs with rfl | hs
          · exact absurd hp hsk
          · exact hall s hs hsk
      · rintro (⟨s, hs, hsk, hx⟩ | ⟨hx, hall⟩)
        · rcases List.mem_cons.1 hs with rfl | hs
          · exact absurd hp hsk
          · exact Or.inl ⟨s, hs, hsk, hx⟩
        · exact Or.inr ⟨hx, fun s hs hsk => hall s (List.mem_cons_of_mem _ hs) hsk⟩
    · rw [if_pos hp]
      obtain ⟨i1, i2⟩ := ih (mapAssign acc p.1 p.2.length) (mapAssign_sorted acc hacc _ _) hpw.2
      refine ⟨i1, fun x => ?_⟩
      rw [i2, mem_mapAssign acc hacc]
      constructor
      · rintro (⟨s, hs, hsk, hx⟩ | ⟨hx | ⟨hne, hx⟩, hall⟩)
        · exact Or.inl ⟨s, List.mem_cons_of_mem _ hs, hsk, hx⟩
        · exact Or.inl ⟨p, List.mem_cons_self _ _, hp, hx⟩
        · refine Or.inr ⟨hx, fun s hs hsk => ?_⟩
          rcases List.mem_cons.1 hs with rfl | hs
          · exact fun e => hne e.symm
          · exact hall s hs hsk
      · rintro (⟨s, hs, hsk, hx⟩ | ⟨hx, hall⟩)
        · rcases List.mem_cons.1 hs with rfl | hs
          · refine Or.inr ⟨Or.inl hx, fun r hr hrk => ?_⟩
            rw [hx]
            exact fun e => hpw.1 r hr hsk e.symm
          · exact Or.inl ⟨s, hs, hsk, hx⟩
        · refine Or.inr ⟨Or.inr ⟨?_, hx⟩,
            fun s hs hsk => hall s (List.mem_cons_of_mem _ hs) hsk⟩
          exact fun e => hall p (List.mem_cons_self _ _) hp e.symm

theorem Rep.counts {t : KMerHashTable} {m : KmerKey → List Nat} (h : Rep t m) :
    MapSorted (get_kmer_counts t) ∧
      ∀ k n, (k, n) ∈ get_kmer_counts t ↔
        k ≠ EMPTY_KEY ∧ m k ≠ [] ∧ n = (m k).length := by
  obtain ⟨c1, c2⟩ := countsLoop_spec t.table [] (by simp [MapSorted]) h.shape.keys_pairwise
  refine ⟨c1, fun k n => ?_⟩
  unfold get_kmer_counts
  rw [c2]
  constructor
  · rintro (⟨s, hs, hsk, hx⟩ | ⟨hx, _⟩)
    · obtain ⟨j, hj, rfl⟩ := List.getElem_of_mem hs
      have hjs : j < t.size_ := by rw [← h.shape.len]; exact hj
      have hsl := slotAt_eq_getElem t.table j hj
      have hc := h.content j hjs (by unfold keyAt; rw [hsl]; exact hsk)
      unfold keyAt at hc
      rw [hsl] at hc
      simp only [Prod.mk.injEq] at hx
      rw [hx.1, hx.2, hc.1]
      exact ⟨hsk, hc.2, rfl⟩
    · simp at hx
  · rintro ⟨hk, hm, hn⟩
    obtain ⟨j, hj, hjk⟩ := h.stored k hk hm
    have hjl : j < t.table.length := by rw [h.shape.len]; exact hj
    have hc := h.content j hj (by rw [hjk]; exact hk)
    refine Or.inl ⟨slotAt t.table j, ?_, ?_, ?_⟩
    · rw [slotAt_eq_getElem _ _ hjl]; exact List.getElem_mem _
    · unfold keyAt at hjk; rw [hjk]; exact hk
    · unfold keyAt at hjk hc
      rw [hc.1, hjk, hn]

/-- Correctness of the counts away from the sentinel: under the conditions of
`index_correct`, `get_kmer_counts` after `build_index` is a map (keys strictly
ascending) that holds, for every string of K bases occurring in the sequence,
its encoding with the number of its occurrences, and nothing else. -/
theorem counts_correct (t : KMerHashTable) (genome : List Char) (hcap : 1 ≤ t.size_)
    (hK : t.K ≤ 32)
    (hfree : ∀ i, (genome.drop i).take t.K ≠ List.replicate 32 'T') :
    ∃ t1, build_index t genome = some t1 ∧ MapSorted (get_kmer_counts t1) ∧
      (∀ w, w.length = t.K → (∀ c ∈ w, isBase c = true) → ∀ n,
        (base4Value w, n) ∈ get_kmer_counts t1 ↔
          occurrences genome w ≠ [] ∧ n = (occurrences genome w).length) ∧
      (∀ x ∈ get_kmer_counts t1, ∃ w, w.length = t.K ∧ (∀ c ∈ w, isBase c = true) ∧
        x = (base4Value w, (occurrences genome w).length)) := by
  have hfree1 : ∀ i, encode_kmer t.K ((genome.drop i).take t.K) ≠ .ok EMPTY_KEY :=
    fun i h => hfree i (encode_kmer_eq_sentinel hK h)
  obtain ⟨t1, e1, _, e3⟩ := build_index_spec t genome hcap hfree1
  obtain ⟨c1, c2⟩ := e3.counts
  refine ⟨t1, e1, c1, ?_, ?_⟩
  · intro w hlen hv n
    have he := encode_kmer_valid t.K w hK hlen hv
    rw [c2, positionsOfKey_eq_occurrences genome w t.K _ hK hlen he]
    constructor
    · rintro ⟨_, h2, h3⟩; exact ⟨h2, h3⟩
    · rintro ⟨h2, h3⟩
      refine ⟨?_, h2, h3⟩
      intro hk
      obtain ⟨p, hp⟩ := List.exists_mem_of_ne_nil _ h2
      have hp2 := ((mem_occurrences genome w p).1 hp).2
      rw [hlen] at hp2
      apply hfree1 p
      rw [hp2, he, hk]
  · rintro ⟨k, n⟩ hx
    obtain ⟨_, h2, h3⟩ := (c2 k n).1 hx
    obtain ⟨i, hi⟩ := List.exists_mem_of_ne_nil _ h2
    unfold positionsOfKey at hi
    rw [List.mem_filter, encodesTo_iff] at hi
    obtain ⟨hl, hv⟩ := encode_kmer_ok_valid hi.2
    have he := encode_kmer_valid t.K _ hK hl hv
    have hk : base4Value ((genome.drop i).take t.K) = k := by
      rw [he] at hi; exact Except.ok.inj hi.2
    refine ⟨_, hl, hv, ?_⟩
    rw [h3, ← positionsOfKey_eq_occurrences genome _ t.K _ hK hl he, hk]

theorem counts_correct_witness :
    ∃ t1, build_index ⟨List.replicate 2 emptySlot, 2, 3, 0⟩ (List.replicate 10 'A')
        = some t1 ∧
      ((base4Value ['A', 'A', 'A'], 8) ∈ get_kmer_counts t1 ↔
        occurrences (List.replicate 10 'A') ['A', 'A', 'A'] ≠ [] ∧
          8 = (occurrences (List.replicate 10 'A') ['A', 'A', 'A']).length) :=
  let ⟨t1, h1, _, h3, _⟩ := counts_correct ⟨List.replicate 2 emptySlot, 2, 3, 0⟩
    (List.replicate 10 'A') (by decide) (by decide)
    (fun i h => absurd (congrArg List.length h) (by
      rw [List.length_take, List.length_replicate]
      exact fun e => absurd (e ▸ Nat.min_le_left 3 _) (by decide)))
  ⟨t1, h1, h3 ['A', 'A', 'A'] rfl (by decide) 8⟩

/-- The scenario of the specification at every capacity: for GCGCGCGCAT with
K = 2, `query` of GC returns [0, 2, 4, 6]. -/
theorem query_GC_scenario (initial_size : Nat) (hcap : 1 ≤ initial_size) :
    (indexOf initial_size 2 "GCGCGCGCAT".toList).bind (fun t => query t ['G', 'C'])
      = some [0, 2, 4, 6] := by
  obtain ⟨t1, h1, _, h3⟩ := index_correct
    ⟨List.replicate initial_size emptySlot, initial_size, 2, 0⟩ "GCGCGCGCAT".toList hcap
    (by simp only; omega)
    (fun i h => absurd (congrArg List.length h) (by
      rw [List.length_take, List.length_replicate]
      exact fun e => absurd (e ▸ Nat.min_le_left 2 _) (by decide)))
  have hnew : indexOf initial_size 2 "GCGCGCGCAT".toList
      = build_index ⟨List.replicate initial_size emptySlot, initial_size, 2, 0⟩
          "GCGCGCGCAT".toList := rfl
  rw [hnew, h1]
  show query t1 ['G', 'C'] = some [0, 2, 4, 6]
  rw [h3 ['G', 'C'] rfl (by decide)]
  decide

theorem query_GC_scenario_witness :
    (indexOf 512 2 "GCGCGCGCAT".toList).bind (fun t => query t ['G', 'C'])
      = some [0, 2, 4, 6] :=
  query_GC_scenario 512 (by decide)

/-! ## The sentinel as a key: K = 32 -/

/-- C1, evaluated at K = 32, capacity 1 and the sequence of 32 T's: the window
at position 0 has length 32 and only bases (the string occurs at position 0),
its key is `EMPTY_KEY`, and after `build_index` the query of that window returns
the empty list, so position 0 is missing from it. -/
theorem sentinel_window_not_found :
    ((List.replicate 32 'T').drop 0).take 32 = List.replicate 32 'T' ∧
      (∀ c ∈ List.replicate 32 'T', isBase c = true) ∧
      occurrences (List.replicate 32 'T') (List.replicate 32 'T') = [0] ∧
      encode_kmer 32 (List.replicate 32 'T') = .ok EMPTY_KEY ∧
      (indexOf 1 32 (List.replicate 32 'T')).bind
        (fun t => query t (List.replicate 32 'T')) = some [] := by
  refine ⟨by decide, by decide, by decide, rfl, by decide⟩

/-- C2, evaluated at K = 32, capacity 2 and the sequence of 32 T's followed by
C: the query of the window at position 1 (31 T's and C) returns [0, 1], although
that string occurs at position 1 only, the window at position 0 being the 32
T's. -/
theorem stale_position_reported :
    (indexOf 2 32 (List.replicate 32 'T' ++ ['C'])).bind
        (fun t => query t (List.replicate 31 'T' ++ ['C'])) = some [0, 1] ∧
      occurrences (List.replicate 32 'T' ++ ['C']) (List.replicate 31 'T' ++ ['C']) = [1] ∧
      ((List.replicate 32 'T' ++ ['C']).drop 0).take 32 ≠ List.replicate 31 'T' ++ ['C'] := by
  refine ⟨by decide, by decide, by decide⟩

/-- C3, evaluated at K = 32: for the sequence of 32 T's (capacity 1) the counts
are empty although the sequence has one valid window, and for 32 T's followed
by C (capacity 2) the only entry has count 2 although its window, 31 T's and C,
occurs once. -/
theorem counts_wrong_at_sentinel :
    (indexOf 1 32 (List.replicate 32 'T')).map get_kmer_counts = some [] ∧
      occurrences (List.replicate 32 'T') (List.replicate 32 'T') = [0] ∧
      (indexOf 2 32 (List.replicate 32 'T' ++ ['C'])).map get_kmer_counts
        = some [(2 ^ 64 - 3, 2)] ∧
      encode_kmer 32 (List.replicate 31 'T' ++ ['C']) = .ok (2 ^ 64 - 3) ∧
      occurrences (List.replicate 32 'T' ++ ['C']) (List.replicate 31 'T' ++ ['C']) = [1] := by
  refine ⟨by decide, by decide, by decide, rfl, by decide⟩

/-! ## Every insertion finds a slot -/

theorem Shape.of_reset (t : KMerHashTable) (hcap : 1 ≤ t.size_) :
    Shape { t with table := List.replicate t.size_ emptySlot, unique_keys_count := 0 } :=
  ⟨by simp, hcap, ProbeInv.replicate _, by simp [occupied_replicate]⟩

/-- With an empty slot left, the probe of `insert_internal` returns a slot that
is empty or holds the key, never -1. -/
theorem Shape.probe_finds {t : KMerHashTable} (h : Shape t) (key : Nat)
    (hroom : occupied t.table < t.size_) :
    ∃ s, s < t.size_ ∧ find_slot_for_insert t key = .slot s ∧
      (keyAt t.table s = EMPTY_KEY ∨ keyAt t.table s = key) := by
  obtain ⟨j, hj, hje⟩ := exists_empty_slot t.table (by rw [h.len]; exact hroom)
  rw [h.len] at hj
  obtain ⟨d, hd, hclear, hstop⟩ :=
    probe_target t.table t.size_ key h.cap ⟨j, hj, Or.inl hje⟩
  exact ⟨_, Nat.mod_lt _ h.cap, find_slot_for_insert_eq t key d h.cap hd hclear hstop, hstop⟩

theorem Shape.insertAfterCheck_returns {t : KMerHashTable} (h : Shape t) (key pos : Nat)
    (hroom : occupied t.table < t.size_) :
    ∃ t1, insertAfterCheck t key pos = (t1, .returned) ∧ Shape t1 ∧
      t1.size_ = t.size_ ∧ t1.K = t.K := by
  obtain ⟨d, hd, hclear, hstop, heq⟩ := insertAfterCheck_eq t h key pos hroom
  refine ⟨_, heq, h.of_storeAt key d pos hd hclear hstop, ?_, ?_⟩
  · exact (storeAt_fields t _ key pos).1
  · exact (storeAt_fields t _ key pos).2.1

/-- The occupancy test leaves room: a table that passes it has an empty slot. -/
theorem Shape.room_of_not_over {t : KMerHashTable} (h : Shape t)
    (hov : overOccupancy t = false) : occupied t.table < t.size_ := by
  have hc : 10 * t.unique_keys_count ≤ 7 * t.size_ := by simpa [overOccupancy] using hov
  have := h.cnt
  have := h.cap
  omega

/-- For every key, the sentinel included, `insert_internal` on a table with the
class invariant returns normally: the rehash it may run returns and the probe
finds a slot. -/
theorem Shape.insert_internal_returns {t : KMerHashTable} (h : Shape t) (key pos : Nat) :
    ∃ t1, insert_internal t key pos = (t1, .returned) ∧ Shape t1 ∧ t1.K = t.K ∧
      t.size_ ≤ t1.size_ ∧
      (overOccupancy t = true → (rehash t (t.size_ * 2)).2 = .returned) := by
  have hcap := h.cap
  unfold insert_internal
  cases hov : overOccupancy t with
  | false =>
    simp only [Bool.false_eq_true, if_false]
    obtain ⟨t1, e1, e2, e3, e4⟩ := h.insertAfterCheck_returns key pos (h.room_of_not_over hov)
    exact ⟨t1, e1, e2, e4, by omega, by simp⟩
  | true =>
    simp only [if_true]
    obtain ⟨t1, e1, e2, e3, e4, e5, e6, _⟩ := rehash_spec t (t.size_ * 2) h (by omega)
    rw [e1]
    simp only
    obtain ⟨t2, f1, f2, f3, f4⟩ := e2.insertAfterCheck_returns key pos (by rw [e3]; omega)
    exact ⟨t2, f1, f2, by rw [f4, e4], by omega, fun _ => trivial⟩

theorem Reachable.shape {t : KMerHashTable} (h : Reachable t) : Shape t := by
  induction h with
  | construct n k t hn hnew =>
    unfold KMerHashTable.new at hnew
    split_ifs at hnew
    cases hnew
    exact ⟨by simp, hn, ProbeInv.replicate _, by simp [occupied_replicate]⟩
  | reset t _ ih => exact Shape.of_reset t ih.cap
  | insert t key pos _ ih =>
    obtain ⟨t1, e1, e2, _⟩ := ih.insert_internal_returns key pos
    rw [e1]; exact e2
  | rehash t n _ hn ih =>
    obtain ⟨t1, e1, e2, _⟩ := rehash_spec t n ih (by have := ih.cap; omega)
    rw [e1]; exact e2

theorem buildEndings_returned (genome : List Char) (is : List Nat) (t : KMerHashTable)
    (h : Shape t) : ∀ e ∈ buildEndings genome is t, e = .returned := by
  induction is generalizing t with
  | nil => intro e he; simp [buildEndings] at he
  | cons i rest ih =>
    rw [buildEndings]
    cases encode_kmer t.K (List.take t.K (List.drop i genome)) with
    | error _ => exact ih t h
    | ok key =>
      simp only
      obtain ⟨t1, e1, e2, _⟩ := h.insert_internal_returns key i
      rw [e1]
      intro e he
      rcases List.mem_cons.1 he with rfl | he
      · rfl
      · exact ih t1 e2 e he

theorem buildLoop_reachable (genome : List Char) (is : List Nat) (t : KMerHashTable)
    (h : Reachable t) : ∃ t1, buildLoop genome is t = some t1 ∧ Reachable t1 := by
  induction is generalizing t with
  | nil => exact ⟨t, rfl, h⟩
  | cons i rest ih =>
    rw [buildLoop]
    cases encode_kmer t.K (List.take t.K (List.drop i genome)) with
    | error _ => exact ih t h
    | ok key =>
      simp only
      obtain ⟨t1, e1, _⟩ := h.shape.insert_internal_returns key i
      have hr := Reachable.insert t key i h
      rw [e1] at hr ⊢
      exact ih t1 hr

/-- The table `build_index` leaves is a reachable state. -/
theorem build_index_reachable (t : KMerHashTable) (genome : List Char) (h : Reachable t) :
    ∃ t1, build_index t genome = some t1 ∧ Reachable t1 := by
  unfold build_index
  simp only
  split_ifs
  · exact ⟨_, rfl, Reachable.reset t h⟩
  · exact buildLoop_reachable genome _ _ (Reachable.reset t h)

/-- C16: TableFull is unreachable. For every table with capacity at least 1
(whatever K, so for K in [1,32]) and every sequence, `build_index` returns and
every call of `insert_internal` it makes returns normally, which by the
definition of the calls means that no probe of `insert_internal` or of `rehash`
gave -1. The same holds call by call in every reachable state and for every key:
the rehash that the occupancy test may trigger returns, and the probe that
follows yields a slot that is empty or already holds the key. -/
theorem table_full_unreachable (t : KMerHashTable) (genome : List Char) (hcap : 1 ≤ t.size_) :
    (∃ t1, build_index t genome = some t1) ∧
      (∀ e ∈ build_index_endings t genome, e = .returned) ∧
      (∀ t1, Reachable t1 → ∀ key pos,
        (insert_internal t1 key pos).2 = .returned ∧
        (overOccupancy t1 = true → (rehash t1 (t1.size_ * 2)).2 = .returned) ∧
        ∃ s, find_slot_for_insert
              (if overOccupancy t1 then (rehash t1 (t1.size_ * 2)).1 else t1) key = .slot s ∧
          (keyAt (if overOccupancy t1 then (rehash t1 (t1.size_ * 2)).1 else t1).table s
              = EMPTY_KEY ∨
            keyAt (if overOccupancy t1 then (rehash t1 (t1.size_ * 2)).1 else t1).table s
              = key)) := by
  refine ⟨?_, ?_, ?_⟩
  · obtain ⟨t1, h1, _⟩ := build_index_returns t genome hcap
    exact ⟨t1, h1⟩
  · unfold build_index_endings
    split_ifs
    · intro e he; simp at he
    · exact buildEndings_returned genome _ _ (Shape.of_reset t hcap)
  · intro t1 hr key pos
    have hs := hr.shape
    obtain ⟨t2, e1, _, _, _, e5⟩ := hs.insert_internal_returns key pos
    refine ⟨by rw [e1], e5, ?_⟩
    cases hov : overOccupancy t1 with
    | false =>
      simp only [Bool.false_eq_true, if_false]
      obtain ⟨s, _, f2, f3⟩ := hs.probe_finds key (hs.room_of_not_over hov)
      exact ⟨s, f2, f3⟩
    | true =>
      simp only [if_true]
      obtain ⟨t3, g1, g2, g3, _, _, g6, _⟩ :=
        rehash_spec t1 (t1.size_ * 2) hs (by have := hs.cap; omega)
      rw [g1]
      simp only
      obtain ⟨s, _, f2, f3⟩ := g2.probe_finds key (by have := hs.cap; rw [g3]; omega)
      exact ⟨s, f2, f3⟩

theorem table_full_unreachable_witness :
    (∃ t1, build_index ⟨[emptySlot], 1, 2, 0⟩ "GCGCGCGCAT".toList = some t1) ∧
      ∀ e ∈ build_index_endings ⟨[emptySlot], 1, 2, 0⟩ "GCGCGCGCAT".toList, e = .returned :=
  ⟨(table_full_unreachable ⟨[emptySlot], 1, 2, 0⟩ "GCGCGCGCAT".toList (by decide)).1,
    (table_full_unreachable ⟨[emptySlot], 1, 2, 0⟩ "GCGCGCGCAT".toList (by decide)).2.1⟩

/-- C20: the linear-probing invariant. In every reachable table state a key
other than the sentinel is stored in at most one slot; a stored key sits some
`d` steps after its home slot `key % size_` with every slot on the way occupied
(by other keys); and the probe of `query` for a stored key therefore returns
the position list of the slot that holds it. -/
theorem linear_probing_invariant (t : KMerHashTable) (h : Reachable t) :
    (∀ j1 j2, j1 < t.size_ → j2 < t.size_ → keyAt t.table j1 ≠ EMPTY_KEY →
        keyAt t.table j1 = keyAt t.table j2 → j1 = j2) ∧
      (∀ j, j < t.size_ → keyAt t.table j ≠ EMPTY_KEY →
        ∃ d, d < t.size_ ∧ (keyAt t.table j % t.size_ + d) % t.size_ = j ∧
          ∀ e, e < d →
            keyAt t.table ((keyAt t.table j % t.size_ + e) % t.size_) ≠ EMPTY_KEY ∧
            keyAt t.table ((keyAt t.table j % t.size_ + e) % t.size_) ≠ keyAt t.table j) ∧
      (∀ j, j < t.size_ → keyAt t.table j ≠ EMPTY_KEY →
        queryLoop t (keyAt t.table j) (hash t (keyAt t.table j)) t.size_
          (hash t (keyAt t.table j)) = some (slotAt t.table j).2) := by
  have hs := h.shape
  have hcap := hs.cap
  have hpath : ∀ j, j < t.size_ → keyAt t.table j ≠ EMPTY_KEY →
      ∃ d, d < t.size_ ∧ (keyAt t.table j % t.size_ + d) % t.size_ = j ∧
        PathClear t.table t.size_ (keyAt t.table j) d := by
    intro j hj hk
    obtain ⟨d, hd, hdj⟩ := cyc_surj t.size_ (keyAt t.table j % t.size_) j (Nat.mod_lt _ hcap) hj
    exact ⟨d, hd, hdj, hs.probe _ d hd hk (by rw [hdj])⟩
  refine ⟨?_, ?_, ?_⟩
  · intro j1 j2 h1 h2 hk he
    exact hs.probe.unique hcap j1 j2 _ h1 h2 hk rfl he.symm
  · intro j hj hk
    obtain ⟨d, hd, hdj, hc⟩ := hpath j hj hk
    exact ⟨d, hd, hdj, hc⟩
  · intro j hj hk
    obtain ⟨d, hd, hdj, hc⟩ := hpath j hj hk
    have hh : hash t (keyAt t.table j) < t.size_ := hash_lt t _ hcap
    have := queryLoop_found t (keyAt t.table j) (hash t (keyAt t.table j)) d hh hd hk hc
      (by unfold hash; rw [hdj]) t.size_ 0 (by omega) (by omega)
    rw [Nat.add_zero, Nat.mod_eq_of_lt hh] at this
    rw [this]
    unfold hash
    rw [hdj]

theorem linear_probing_invariant_witness :
    keyAt sampleTable.table 1 = 7 ∧
      queryLoop sampleTable (keyAt sampleTable.table 1)
        (hash sampleTable (keyAt sampleTable.table 1)) sampleTable.size_
        (hash sampleTable (keyAt sampleTable.table 1))
        = some (slotAt sampleTable.table 1).2 :=
  ⟨by decide, (linear_probing_invariant sampleTable
    (Reachable.insert _ 7 0 (Reachable.construct 2 3 ⟨[emptySlot, emptySlot], 2, 3, 0⟩
      (by decide) rfl))).2.2 1 (by decide) (by decide)⟩

/-! ## Rehash keeps the content -/

theorem mem_entries (tb : List Slot) (x : Slot) :
    x ∈ entries tb ↔ x.1 ≠ EMPTY_KEY ∧ ∃ j, j < tb.length ∧ slotAt tb j = x := by
  unfold entries
  rw [List.mem_filter, decide_eq_true_eq]
  constructor
  · rintro ⟨hm, hk⟩
    obtain ⟨j, hj, rfl⟩ := List.getElem_of_mem hm
    exact ⟨hk, j, hj, slotAt_eq_getElem tb j hj⟩
  · rintro ⟨hk, j, hj, rfl⟩
    exact ⟨by rw [slotAt_eq_getElem tb j hj]; exact List.getElem_mem _, hk⟩

theorem Shape.entries_nodup {t : KMerHashTable} (h : Shape t) : (entries t.table).Nodup := by
  unfold entries List.Nodup
  refine List.Pairwise.imp_of_mem ?_ (List.Pairwise.filter _ h.keys_pairwise)
  intro a b ha _ hab heq
  rw [List.mem_filter, decide_eq_true_eq] at ha
  exact hab ha.2 (by rw [heq])

theorem Shape.query_stored {t : KMerHashTable} (h : Shape t) (key j : Nat) (hj : j < t.size_)
    (hk : key ≠ EMPTY_KEY) (hjk : keyAt t.table j = key) :
    queryLoop t key (hash t key) t.size_ (hash t key) = some (slotAt t.table j).2 := by
  have hcap := h.cap
  have hh : hash t key < t.size_ := hash_lt t key hcap
  obtain ⟨d, hd, hdj⟩ := cyc_surj t.size_ (key % t.size_) j (Nat.mod_lt _ hcap) hj
  have hstop : keyAt t.table ((hash t key + d) % t.size_) = key := by
    unfold hash; rw [hdj]; exact hjk
  have := queryLoop_found t key (hash t key) d hh hd hk (h.probe key d hd hk hstop) hstop
    t.size_ 0 (by omega) (by omega)
  rw [Nat.add_zero, Nat.mod_eq_of_lt hh] at this
  rw [this]
  unfold hash
  rw [hdj]

theorem query_key_absent (t : KMerHashTable) (key : Nat) (hcap : 1 ≤ t.size_)
    (habs : ∀ j, j < t.size_ → keyAt t.table j ≠ EMPTY_KEY → keyAt t.table j ≠ key) :
    queryLoop t key (hash t key) t.size_ (hash t key) = some [] := by
  have hh : hash t key < t.size_ := hash_lt t key hcap
  have := queryLoop_absent t key (hash t key) hh habs t.size_ 0 (by omega) hcap
  rwa [Nat.add_zero, Nat.mod_eq_of_lt hh] at this

/-- C17: rehash preserves content. For every reachable table state and every
new capacity at least twice the old one, `rehash` returns; the (key, position
list) entries of the new table are those of the old one, each once and with its
position list unchanged (the two entry lists are permutations of each other);
the distinct-key count is the number of entries; and `query` returns for every
string what it returned before. -/
theorem rehash_preserves_content (t : KMerHashTable) (new_size : Nat) (h : Reachable t)
    (hn : t.size_ * 2 ≤ new_size) :
    ∃ t1, rehash t new_size = (t1, .returned) ∧ t1.size_ = new_size ∧ t1.K = t.K ∧
      (entries t1.table).Perm (entries t.table) ∧
      get_unique_count t1 = (entries t1.table).length ∧
      ∀ w, query t1 w = query t w := by
  have hs := h.shape
  have hcap := hs.cap
  obtain ⟨t1, e1, e2, e3, e4, e5, _, _, e8, e9⟩ := rehash_spec t new_size hs (by omega)
  have hold : ∀ j, j < new_size → keyAt t1.table j ≠ EMPTY_KEY →
      ∃ j0, j0 < t.size_ ∧ slotAt t.table j0 = slotAt t1.table j := e8
  refine ⟨t1, e1, e3, e4, ?_, ?_, ?_⟩
  · rw [List.perm_ext_iff_of_nodup e2.entries_nodup hs.entries_nodup]
    intro x
    rw [mem_entries, mem_entries, e2.len, hs.len, e3]
    constructor
    · rintro ⟨hk, j, hj, rfl⟩
      obtain ⟨j0, hj0, hs0⟩ := hold j hj hk
      exact ⟨hk, j0, hj0, hs0⟩
    · rintro ⟨hk, j0, hj0, rfl⟩
      obtain ⟨j, hj, hsj⟩ := e9 j0 hj0 hk
      exact ⟨hk, j, hj, hsj⟩
  · unfold get_unique_count entries
    rw [e5]
    exact List.countP_eq_length_filter _ t1.table
  · intro w
    unfold query
    rw [e4]
    split_ifs with hl
    · rfl
    · cases encode_kmer t.K w with
      | error _ => rfl
      | ok key =>
        simp only
        by_cases hst : key ≠ EMPTY_KEY ∧ ∃ j0, j0 < t.size_ ∧ keyAt t.table j0 = key
        · obtain ⟨hk, j0, hj0, hjk⟩ := hst
          obtain ⟨j, hj, hsj⟩ := e9 j0 hj0 (by rw [hjk]; exact hk)
          rw [hs.query_stored key j0 hj0 hk hjk,
            e2.query_stored key j (by rw [e3]; exact hj) hk (by unfold keyAt at hjk ⊢; rw [hsj]; exact hjk),
            hsj]
        · have habs : ∀ j, j < t.size_ → keyAt t.table j ≠ EMPTY_KEY → keyAt t.table j ≠ key := by
            intro j hj hje hjk
            exact hst ⟨by rw [← hjk]; exact hje, j, hj, hjk⟩
          rw [query_key_absent t key hcap habs, query_key_absent t1 key e2.cap]
          intro j hj hje hjk
          rw [e3] at hj
          obtain ⟨j0, hj0, hs0⟩ := hold j hj hje
          have hk0 : keyAt t.table j0 = keyAt t1.table j := by unfold keyAt; rw [hs0]
          exact habs j0 hj0 (by rw [hk0]; exact hje) (by rw [hk0]; exact hjk)

/-! ## The sentinel is never found -/

theorem mem_mapAssign_imp (l : List (KmerKey × Nat)) (k v : Nat) (x : KmerKey × Nat)
    (h : x ∈ mapAssign l k v) : x = (k, v) ∨ x ∈ l := by
  induction l with
  | nil => simpa [mapAssign] using h
  | cons a rest ih =>
    obtain ⟨ak, av⟩ := a
    rw [mapAssign] at h
    split_ifs at h with h1 h2
    · rcases List.mem_cons.1 h with h | h
      · exact Or.inl h
      · exact Or.inr h
    · rcases List.mem_cons.1 h with h | h
      · subst h2; exact Or.inl h
      · exact Or.inr (List.mem_cons_of_mem _ h)
    · rcases List.mem_cons.1 h with h | h
      · exact Or.inr (by rw [h]; exact List.mem_cons_self _ _)
      · rcases ih h with h | h
        · exact Or.inl h
        · exact Or.inr (List.mem_cons_of_mem _ h)

theorem countsLoop_keys (rest : List Slot) (acc : List (KmerKey × Nat))
    (hacc : ∀ x ∈ acc, x.1 ≠ EMPTY_KEY) : ∀ x ∈ countsLoop rest acc, x.1 ≠ EMPTY_KEY := by
  induction rest generalizing acc with
  | nil => simpa [countsLoop] using hacc
  | cons p rest ih =>
    rw [countsLoop]
    split_ifs with hp
    · apply ih
      intro x hx
      rcases mem_mapAssign_imp acc _ _ x hx with rfl | hx
      · exact hp
      · exact hacc x hx
    · exact ih acc hacc

theorem query_sentinel (t : KMerHashTable) (w : List Char) (hcap : 1 ≤ t.size_)
    (he : encode_kmer t.K w = .ok EMPTY_KEY) : query t w = some [] := by
  unfold query
  rw [if_neg (by simpa using (encode_kmer_ok_valid he).1), he]
  exact query_key_absent t EMPTY_KEY hcap (fun _ _ h => h)

/-- C18: the sentinel collision at K = 32. The string of 32 T's is a valid
32-mer and its encoding is `EMPTY_KEY`, the largest 64-bit value 2^64 - 1. It is
unindexable: for every table with capacity at least 1 and K = 32 and every
sequence (one that contains the 32 T's included), after `build_index` the query
of the 32 T's returns the empty list and `get_kmer_counts` has no entry with
that key. For K up to 31 no encoding equals the sentinel. -/
theorem sentinel_collision :
    ((List.replicate 32 'T').length = 32 ∧ (∀ c ∈ List.replicate 32 'T', isBase c = true) ∧
        encode_kmer 32 (List.replicate 32 'T') = .ok EMPTY_KEY ∧ EMPTY_KEY = 2 ^ 64 - 1) ∧
      (∀ (t : KMerHashTable) (genome : List Char), 1 ≤ t.size_ → t.K = 32 →
        ∃ t1, build_index t genome = some t1 ∧
          query t1 (List.replicate 32 'T') = some [] ∧
          ∀ n, (EMPTY_KEY, n) ∉ get_kmer_counts t1) ∧
      (∀ (K : Nat) (w : List Char) (key : KmerKey), K ≤ 31 →
        encode_kmer K w = .ok key → key ≠ EMPTY_KEY) := by
  refine ⟨⟨by decide, by decide, rfl, rfl⟩, ?_, ?_⟩
  · intro t genome hcap hK
    obtain ⟨t1, h1, h2, h3, _⟩ := build_index_returns t genome hcap
    refine ⟨t1, h1, ?_, ?_⟩
    · apply query_sentinel t1 _ (by omega)
      rw [h2, hK]
      rfl
    · intro n hn
      exact countsLoop_keys t1.table [] (by simp) _ hn rfl
  · intro K w key hK he hk
    rw [hk] at he
    have hw := encode_kmer_eq_sentinel (by omega) he
    have hl := (encode_kmer_ok_valid he).1
    rw [hw, List.length_replicate] at hl
    omega

theorem rehash_preserves_content_witness :
    ∃ t1, rehash sampleTable 4 = (t1, .returned) ∧ t1.size_ = 4 ∧
      (entries t1.table).Perm (entries sampleTable.table) ∧
      ∀ w, query t1 w = query sampleTable w :=
  let ⟨t1, h1, h2, _, h4, _, h6⟩ := rehash_preserves_content sampleTable 4
    (Reachable.insert _ 7 0 (Reachable.construct 2 3 ⟨[emptySlot, emptySlot], 2, 3, 0⟩
      (by decide) rfl)) (by decide)
  ⟨t1, h1, h2, h4, h6⟩

/-- C19, evaluated at K = 32, capacity 1 and the sequence of 32 T's: after
`build_index` the counter is 1, no slot is occupied, `get_kmer_counts` has no
entry, and the sequence has one distinct valid window. After the first (and
only) insertion the counter already differs from the number of occupied
slots. -/
theorem counter_wrong_at_sentinel :
    (indexOf 1 32 (List.replicate 32 'T')).map
        (fun t => (get_unique_count t, occupied t.table, (get_kmer_counts t).length))
        = some (1, 0, 0) ∧
      (distinctValidWindows (List.replicate 32 'T') 32).length = 1 ∧
      (insert_internal ⟨[emptySlot], 1, 32, 0⟩ EMPTY_KEY 0).2 = .returned ∧
      get_unique_count (insert_internal ⟨[emptySlot], 1, 32, 0⟩ EMPTY_KEY 0).1 = 1 ∧
      occupied (insert_internal ⟨[emptySlot], 1, 32, 0⟩ EMPTY_KEY 0).1.table = 0 := by
  refine ⟨by decide, by decide, by decide, by decide, by decide⟩

/-! ## The counter away from the sentinel -/

theorem length_mapAssign_new (l : List (KmerKey × Nat)) (k v : Nat)
    (hk : ∀ x ∈ l, x.1 ≠ k) : (mapAssign l k v).length = l.length + 1 := by
  induction l with
  | nil => simp [mapAssign]
  | cons a rest ih =>
    obtain ⟨ak, av⟩ := a
    rw [mapAssign]
    split_ifs with h1 h2
    · simp
    · exact absurd h2.symm (hk (ak, av) (List.mem_cons_self _ _))
    · simp [ih (fun x hx => hk x (List.mem_cons_of_mem _ hx))]

theorem countsLoop_length (rest : List Slot) (acc : List (KmerKey × Nat))
    (hpw : rest.Pairwise (fun a b => a.1 ≠ EMPTY_KEY → a.1 ≠ b.1))
    (hdis : ∀ s ∈ rest, s.1 ≠ EMPTY_KEY → ∀ x ∈ acc, x.1 ≠ s.1) :
    (countsLoop rest acc).length = acc.length + occupied rest := by
  induction rest generalizing acc with
  | nil => simp [countsLoop, occupied]
  | cons p rest ih =>
    rw [List.pairwise_cons] at hpw
    rw [countsLoop]
    by_cases hp : p.1 = EMPTY_KEY
    · rw [if_neg (by simpa using hp),
        ih acc hpw.2 (fun s hs => hdis s (List.mem_cons_of_mem _ hs))]
      simp [occupied, List.countP_cons, hp]
    · rw [if_pos hp, ih _ hpw.2, length_mapAssign_new acc _ _
        (hdis p (List.mem_cons_self _ _) hp)]
      · simp [occupied, List.countP_cons, hp]
        omega
      · intro s hs hsk x hx
        rcases mem_mapAssign_imp acc _ _ x hx with rfl | hx
        · exact hpw.1 s hs hp
        · exact hdis s (List.mem_cons_of_mem _ hs) hsk x hx

theorem Shape.counts_length {t : KMerHashTable} (h : Shape t) :
    (get_kmer_counts t).length = occupied t.table := by
  unfold get_kmer_counts
  rw [countsLoop_length t.table [] h.keys_pairwise (by simp)]
  simp

theorem mem_distinctValidWindows (genome : List Char) (K : Nat) (w : List Char) :
    w ∈ distinctValidWindows genome K ↔
      (∀ c ∈ w, isBase c = true) ∧
        ∃ i, i < genome.length + 1 - K ∧ (genome.drop i).take K = w := by
  unfold distinctValidWindows
  rw [List.mem_dedup, List.mem_filter, List.mem_map, List.all_eq_true]
  constructor
  · rintro ⟨⟨i, hi, rfl⟩, hv⟩
    exact ⟨hv, i, List.mem_range.1 hi, rfl⟩
  · rintro ⟨hv, i, hi, rfl⟩
    exact ⟨⟨i, List.mem_range.2 hi, rfl⟩, hv⟩

theorem window_length (genome : List Char) (K i : Nat) (hi : i < genome.length + 1 - K) :
    ((genome.drop i).take K).length = K := by
  rw [List.length_take, List.length_drop]
  omega

/-- The counter away from the sentinel: under the conditions of `index_correct`,
after `build_index` the distinct-key counter equals the number of occupied
slots, the number of entries of `get_kmer_counts` and the number of distinct
valid K-length windows of the sequence. -/
theorem counter_correct (t : KMerHashTable) (genome : List Char) (hcap : 1 ≤ t.size_)
    (hK : t.K ≤ 32)
    (hfree : ∀ i, (genome.drop i).take t.K ≠ List.replicate 32 'T') :
    ∃ t1, build_index t genome = some t1 ∧
      get_unique_count t1 = occupied t1.table ∧
      (get_kmer_counts t1).length = occupied t1.table ∧
      (distinctValidWindows genome t.K).length = occupied t1.table := by
  have hfree1 : ∀ i, encode_kmer t.K ((genome.drop i).take t.K) ≠ .ok EMPTY_KEY :=
    fun i h => hfree i (encode_kmer_eq_sentinel hK h)
  obtain ⟨t1, e1, _, e3⟩ := build_index_spec t genome hcap hfree1
  refine ⟨t1, e1, e3.count, e3.shape.counts_length, ?_⟩
  have hocc : occupied t1.table = ((entries t1.table).map Prod.fst).length := by
    rw [List.length_map]
    exact List.countP_eq_length_filter _ t1.table
  rw [hocc, ← List.length_map (distinctValidWindows genome t.K) base4Value]
  apply List.Perm.length_eq
  have hvalid : ∀ w ∈ distinctValidWindows genome t.K,
      w.length = t.K ∧ ∀ c ∈ w, isBase c = true := by
    intro w hw
    obtain ⟨hv, i, hi, rfl⟩ := (mem_distinctValidWindows genome t.K w).1 hw
    exact ⟨window_length genome t.K i hi, hv⟩
  have hnd1 : ((distinctValidWindows genome t.K).map base4Value).Nodup := by
    apply List.Nodup.map_on _ (List.nodup_dedup _)
    intro x hx y hy hxy
    exact base4Value_inj x y ((hvalid x hx).1.trans (hvalid y hy).1.symm)
      (hvalid x hx).2 (hvalid y hy).2 hxy
  have hnd2 : ((entries t1.table).map Prod.fst).Nodup := by
    unfold List.Nodup
    rw [List.pairwise_map]
    unfold entries
    refine List.Pairwise.imp_of_mem ?_ (List.Pairwise.filter _ e3.shape.keys_pairwise)
    intro a b ha _ hab
    rw [List.mem_filter, decide_eq_true_eq] at ha
    exact hab ha.2
  rw [List.perm_ext_iff_of_nodup hnd1 hnd2]
  intro k
  rw [List.mem_map, List.mem_map]
  constructor
  · rintro ⟨w, hw, rfl⟩
    obtain ⟨hv, i, hi, hwi⟩ := (mem_distinctValidWindows genome t.K w).1 hw
    have hl : w.length = t.K := (hvalid w hw).1
    have he := encode_kmer_valid t.K w hK hl hv
    have hk : base4Value w ≠ EMPTY_KEY := by
      intro hk
      apply hfree1 i
      rw [hwi, he, hk]
    have hm : positionsOfKey genome t.K (List.range (genome.length + 1 - t.K))
        (base4Value w) ≠ [] := by
      apply List.ne_nil_of_mem (a := i)
      unfold positionsOfKey
      rw [List.mem_filter, encodesTo_iff, hwi]
      exact ⟨List.mem_range.2 hi, he⟩
    obtain ⟨j, hj, hjk⟩ := e3.stored _ hk hm
    refine ⟨slotAt t1.table j, ?_, hjk⟩
    rw [mem_entries]
    exact ⟨by unfold keyAt at hjk; rw [hjk]; exact hk, j,
      by rw [e3.shape.len]; exact hj, rfl⟩
  · rintro ⟨x, hx, rfl⟩
    obtain ⟨hk, j, hj, rfl⟩ := (mem_entries _ _).1 hx
    rw [e3.shape.len] at hj
    have hc := (e3.content j hj hk).2
    obtain ⟨i, hi⟩ := List.exists_mem_of_ne_nil _ hc
    unfold positionsOfKey at hi
    rw [List.mem_filter, encodesTo_iff, List.mem_range] at hi
    obtain ⟨hl, hv⟩ := encode_kmer_ok_valid hi.2
    refine ⟨(genome.drop i).take t.K, ?_, ?_⟩
    · rw [mem_distinctValidWindows]
      exact ⟨hv, i, hi.1, rfl⟩
    · have he := encode_kmer_valid t.K _ hK hl hv
      rw [he] at hi
      exact Except.ok.inj hi.2

theorem counter_correct_witness :
    ∃ t1, build_index ⟨[emptySlot], 1, 2, 0⟩ "GCGCGCGCAT".toList = some t1 ∧
      get_unique_count t1 = occupied t1.table ∧
      (distinctValidWindows "GCGCGCGCAT".toList 2).length = occupied t1.table :=
  let ⟨t1, h1, h2, _, h4⟩ := counter_correct ⟨[emptySlot], 1, 2, 0⟩ "GCGCGCGCAT".toList
    (by decide) (by decide)
    (fun i h => absurd (congrArg List.length h) (by
      rw [List.length_take, List.length_replicate]
      exact fun e => absurd (e ▸ Nat.min_le_left 2 _) (by decide)))
  ⟨t1, h1, h2, h4⟩

/-! ## Arithmetic on finite values -/

theorem Dbl.add_fin (a b : ℚ) : (Dbl.fin a).add (.fin b) = .fin (a + b) := rfl

theorem Dbl.mul_fin (a b : ℚ) : (Dbl.fin a).mul (.fin b) = .fin (a * b) := rfl

theorem Dbl.neg_fin (a : ℚ) : (Dbl.fin a).neg = .fin (-a) := rfl

theorem Dbl.sub_fin (a b : ℚ) : (Dbl.fin a).sub (.fin b) = .fin (a - b) := by
  simp [Dbl.sub, Dbl.neg, Dbl.add, sub_eq_add_neg]

theorem Dbl.div_fin (a b : ℚ) : (Dbl.fin a).div (.fin b) =
    if b = 0 then (if a = 0 then .nan else if 0 < a then .pinf else .ninf)
    else .fin (a / b) := rfl

theorem Dbl.gt_fin (a b : ℚ) : (Dbl.fin a).gt (.fin b) = decide (b < a) := rfl

theorem Dbl.log2_fin (lib : Libm) (q : ℚ) : (Dbl.fin q).log2 lib =
    if q < 0 then .nan else if q = 0 then .ninf else .fin (lib.log2 q) := rfl

theorem Dbl.sqrt_fin (lib : Libm) (q : ℚ) : (Dbl.fin q).sqrt lib =
    if q < 0 then .nan else .fin (lib.sqrt q) := rfl

/-! ## The `if` chain of the classifier -/

theorem Dbl.gt_asymm (a b : Dbl) (h : a.gt b = true) : b.gt a = false := by
  cases a <;> cases b <;> simp_all [Dbl.gt]
  exact le_of_lt h

theorem Dbl.gt_nan_left (b : Dbl) : Dbl.nan.gt b = false := by
  cases b <;> rfl

theorem Dbl.gt_nan_right (a : Dbl) : a.gt .nan = false := by
  cases a <;> rfl

theorem verdictOf_dominantRibosomal (rf tf mf : Dbl) :
    verdictOf rf tf mf = .dominantRibosomal ↔ rf.gt c060 = true := by
  unfold verdictOf
  split_ifs <;> simp_all

theorem verdictOf_dominantMobile (rf tf mf : Dbl) :
    verdictOf rf tf mf = .dominantMobile ↔ rf.gt c060 = false ∧ tf.gt c060 = true := by
  unfold verdictOf
  split_ifs <;> simp_all

theorem verdictOf_dominantMetabolic (rf tf mf : Dbl) :
    verdictOf rf tf mf = .dominantMetabolic ↔
      rf.gt c060 = false ∧ tf.gt c060 = false ∧ mf.gt c060 = true := by
  unfold verdictOf
  split_ifs <;> simp_all

theorem verdictOf_mixedRibosomal (rf tf mf : Dbl) :
    verdictOf rf tf mf = .mixedRibosomal ↔
      (rf.gt c060 = false ∧ tf.gt c060 = false ∧ mf.gt c060 = false) ∧
        rf.gt c040 = true ∧ rf.gt tf = true ∧ rf.gt mf = true := by
  unfold verdictOf
  split_ifs <;> simp_all

theorem verdictOf_mixedMobile (rf tf mf : Dbl) :
    verdictOf rf tf mf = .mixedMobile ↔
      (rf.gt c060 = false ∧ tf.gt c060 = false ∧ mf.gt c060 = false) ∧
        tf.gt c040 = true ∧ tf.gt rf = true ∧ tf.gt mf = true := by
  have h := Dbl.gt_asymm rf tf
  unfold verdictOf
  split_ifs <;> simp_all

theorem verdictOf_mixedMetabolic (rf tf mf : Dbl) :
    verdictOf rf tf mf = .mixedMetabolic ↔
      (rf.gt c060 = false ∧ tf.gt c060 = false ∧ mf.gt c060 = false) ∧
        mf.gt c040 = true ∧ mf.gt rf = true ∧ mf.gt tf = true := by
  have h1 := Dbl.gt_asymm rf mf
  have h2 := Dbl.gt_asymm tf mf
  unfold verdictOf
  split_ifs <;> simp_all

theorem verdictOf_unknown (rf tf mf : Dbl) :
    verdictOf rf tf mf = .unknown ↔
      (rf.gt c060 = false ∧ tf.gt c060 = false ∧ mf.gt c060 = false) ∧
        ¬ (rf.gt c040 = true ∧ rf.gt tf = true ∧ rf.gt mf = true) ∧
        ¬ (tf.gt c040 = true ∧ tf.gt rf = true ∧ tf.gt mf = true) ∧
        ¬ (mf.gt c040 = true ∧ mf.gt rf = true ∧ mf.gt tf = true) := by
  unfold verdictOf
  split_ifs <;> simp_all

/-! ## Rounding to binary64 -/

theorem roundHalfEven_le (y : ℚ) (k : Int) (h : y ≤ k) : roundHalfEven y ≤ k := by
  have hf : ⌊y⌋ ≤ k := Int.floor_le_iff.2 (lt_of_le_of_lt h (by linarith))
  unfold roundHalfEven
  rcases lt_or_eq_of_le hf with hlt | heq
  · split_ifs <;> omega
  · have hy : y = k := le_antisymm h (heq ▸ Int.floor_le y)
    have : y - ⌊y⌋ = 0 := by rw [heq, hy]; ring
    rw [this]
    norm_num
    omega

theorem le_roundHalfEven (y : ℚ) (k : Int) (h : (k : ℚ) ≤ y) : k ≤ roundHalfEven y := by
  have hf : k ≤ ⌊y⌋ := Int.le_floor.2 h
  unfold roundHalfEven
  split_ifs <;> omega

theorem roundHalfEven_le_of_lt_half (y : ℚ) (k : Int) (h : y < k + 1 / 2) :
    roundHalfEven y ≤ k := by
  have hf : ⌊y⌋ ≤ k := by
    have : ⌊y⌋ < k + 1 := Int.floor_lt.2 (by push_cast; linarith)
    omega
  unfold roundHalfEven
  rcases lt_or_eq_of_le hf with hlt | heq
  · split_ifs <;> omega
  · have h1 : y - ⌊y⌋ < 1 / 2 := by rw [heq]; linarith
    rw [if_pos h1]
    omega

theorem succ_le_roundHalfEven_of_half_lt (y : ℚ) (k : Int) (h : (k : ℚ) + 1 / 2 < y) :
    k + 1 ≤ roundHalfEven y := by
  have hf : k ≤ ⌊y⌋ := Int.le_floor.2 (by linarith)
  unfold roundHalfEven
  rcases lt_or_eq_of_le hf with hlt | heq
  · split_ifs <;> omega
  · have h1 : ¬ (y - ⌊y⌋ < 1 / 2) := by rw [← heq]; linarith
    have h2 : 1 / 2 < y - ⌊y⌋ := by rw [← heq]; linarith
    rw [if_neg h1, if_pos h2]
    omega

theorem roundHalfEven_half (k : Int) :
    roundHalfEven ((k : ℚ) + 1 / 2) = if k % 2 = 0 then k else k + 1 := by
  have hf : ⌊(k : ℚ) + 1 / 2⌋ = k := by
    rw [Int.floor_eq_iff]
    constructor <;> linarith
  unfold roundHalfEven
  rw [hf]
  norm_num

theorem two_zpow_le_iff (x : ℚ) (hx : 0 < x) (k : Int) :
    (2 : ℚ) ^ k ≤ x ↔ k ≤ Int.log 2 x := by
  have h := @Int.zpow_le_iff_le_log ℚ _ _ 2 (by norm_num) k x hx
  simpa using h

theorem lt_two_zpow_iff (x : ℚ) (hx : 0 < x) (k : Int) :
    x < (2 : ℚ) ^ k ↔ Int.log 2 x < k := by
  have h := @Int.lt_zpow_iff_log_lt ℚ _ _ 2 (by norm_num) k x hx
  simpa using h

theorem ulpExp_of_binade (x : ℚ) (k : Int) (hk : -1022 ≤ k) (h1 : (2 : ℚ) ^ k ≤ x)
    (h2 : x < (2 : ℚ) ^ (k + 1)) : ulpExp x = k - 52 := by
  have hx : 0 < x := lt_of_lt_of_le (zpow_pos (by norm_num) k) h1
  have ha : |x| = x := abs_of_pos hx
  have hl1 := (two_zpow_le_iff x hx k).1 h1
  have hl2 := (lt_two_zpow_iff x hx (k + 1)).1 h2
  unfold ulpExp
  rw [ha]
  omega

theorem nearest_eq (x : ℚ) : nearest x = roundHalfEven (x / 2 ^ ulpExp x) * 2 ^ ulpExp x := rfl

theorem nearest_nonpos (x : ℚ) (hx : x ≤ 0) : nearest x ≤ 0 := by
  have hP : (0 : ℚ) < 2 ^ ulpExp x := zpow_pos (by norm_num) _
  have hy : x / 2 ^ ulpExp x ≤ ((0 : Int) : ℚ) := by
    rw [Int.cast_zero]
    exact div_nonpos_of_nonpos_of_nonneg hx (le_of_lt hP)
  have hn := roundHalfEven_le _ 0 hy
  have hn' : (roundHalfEven (x / 2 ^ ulpExp x) : ℚ) ≤ 0 := by exact_mod_cast hn
  rw [nearest_eq]
  exact mul_nonpos_of_nonpos_of_nonneg hn' (le_of_lt hP)

/-- Rounding does not cross a power of two from above. -/
theorem le_nearest (x : ℚ) (k : Int) (hk : -1022 ≤ k) (h : (2 : ℚ) ^ k ≤ x) :
    (2 : ℚ) ^ k ≤ nearest x := by
  have hx : 0 < x := lt_of_lt_of_le (zpow_pos (by norm_num) k) h
  have ha : |x| = x := abs_of_pos hx
  have hl := (two_zpow_le_iff x hx k).1 h
  have hu : ulpExp x = Int.log 2 x - 52 := by
    unfold ulpExp
    rw [ha]
    omega
  have hP : (0 : ℚ) < 2 ^ ulpExp x := zpow_pos (by norm_num) _
  have hL : (2 : ℚ) ^ Int.log 2 x ≤ x := (two_zpow_le_iff x hx _).2 (le_refl _)
  have hsplit : (2 : ℚ) ^ Int.log 2 x = 2 ^ (52 : Int) * 2 ^ ulpExp x := by
    rw [← zpow_add₀ (by norm_num : (2 : ℚ) ≠ 0), hu]
    congr 1
    omega
  have hy : (((2 ^ 52 : Nat) : Int) : ℚ) ≤ x / 2 ^ ulpExp x := by
    rw [le_div_iff₀ hP]
    calc (((2 ^ 52 : Nat) : Int) : ℚ) * 2 ^ ulpExp x = 2 ^ (52 : Int) * 2 ^ ulpExp x := by
          norm_num
      _ = 2 ^ Int.log 2 x := hsplit.symm
      _ ≤ x := hL
  have hn := le_roundHalfEven _ _ hy
  have hn' : (((2 ^ 52 : Nat) : Int) : ℚ) ≤ (roundHalfEven (x / 2 ^ ulpExp x) : ℚ) := by
    exact_mod_cast hn
  rw [nearest_eq]
  calc (2 : ℚ) ^ k ≤ 2 ^ Int.log 2 x := zpow_le_zpow_right₀ (by norm_num) hl
    _ = 2 ^ (52 : Int) * 2 ^ ulpExp x := hsplit
    _ = (((2 ^ 52 : Nat) : Int) : ℚ) * 2 ^ ulpExp x := by norm_num
    _ ≤ roundHalfEven (x / 2 ^ ulpExp x) * 2 ^ ulpExp x :=
        mul_le_mul_of_nonneg_right hn' (le_of_lt hP)

/-- Rounding does not cross a power of two from below. -/
theorem nearest_le (x : ℚ) (k : Int) (hk : -1021 ≤ k) (hx : 0 < x) (h : x < (2 : ℚ) ^ k) :
    nearest x ≤ (2 : ℚ) ^ k := by
  have ha : |x| = x := abs_of_pos hx
  have hl := (lt_two_zpow_iff x hx k).1 h
  have hP : (0 : ℚ) < 2 ^ ulpExp x := zpow_pos (by norm_num) _
  have hu : ulpExp x + 53 ≤ k := by
    unfold ulpExp
    rw [ha]
    omega
  have hu2 : Int.log 2 x + 1 ≤ ulpExp x + 53 := by
    unfold ulpExp
    rw [ha]
    omega
  have hL : x < (2 : ℚ) ^ (ulpExp x + 53) :=
    lt_of_lt_of_le ((lt_two_zpow_iff x hx _).2 (by omega))
      (zpow_le_zpow_right₀ (by norm_num) hu2)
  have hsplit : (2 : ℚ) ^ (ulpExp x + 53) = 2 ^ (53 : Int) * 2 ^ ulpExp x := by
    rw [← zpow_add₀ (by norm_num : (2 : ℚ) ≠ 0)]
    congr 1
    omega
  have hy : x / 2 ^ ulpExp x ≤ (((2 ^ 53 : Nat) : Int) : ℚ) := by
    rw [div_le_iff₀ hP]
    calc x ≤ 2 ^ (ulpExp x + 53) := le_of_lt hL
      _ = 2 ^ (53 : Int) * 2 ^ ulpExp x := hsplit
      _ = (((2 ^ 53 : Nat) : Int) : ℚ) * 2 ^ ulpExp x := by norm_num
  have hn := roundHalfEven_le _ _ hy
  have hn' : (roundHalfEven (x / 2 ^ ulpExp x) : ℚ) ≤ (((2 ^ 53 : Nat) : Int) : ℚ) := by
    exact_mod_cast hn
  rw [nearest_eq]
  calc (roundHalfEven (x / 2 ^ ulpExp x) : ℚ) * 2 ^ ulpExp x
      ≤ (((2 ^ 53 : Nat) : Int) : ℚ) * 2 ^ ulpExp x :=
        mul_le_mul_of_nonneg_right hn' (le_of_lt hP)
    _ = 2 ^ (53 : Int) * 2 ^ ulpExp x := by norm_num
    _ = 2 ^ (ulpExp x + 53) := hsplit.symm
    _ ≤ 2 ^ k := zpow_le_zpow_right₀ (by norm_num) hu

theorem Dbl.gt_ofRat_fin (x c : ℚ) (h1 : -2 ^ 1024 ≤ c) (h2 : c < 2 ^ 1024) :
    (Dbl.ofRat x).gt (.fin c) = true ↔ c < nearest x := by
  unfold Dbl.ofRat
  split_ifs with ha hb
  · simp only [Dbl.gt, true_iff]
    exact lt_of_lt_of_le h2 ha
  · simp only [Dbl.gt, Bool.false_eq_true, false_iff, not_lt]
    exact le_trans hb h1
  · simp [Dbl.gt]

/-- The comparison of a rounded value with a normal value `m * 2 ^ (k - 52)` of
type `double`, `m` having 53 bits: it is greater exactly from the halfway point
to the next `double` on, that point included when `m` is odd. -/
theorem Dbl.gt_ofRat_binade (x : ℚ) (m k : Int) (hk : -1021 ≤ k) (hk2 : k ≤ 1022)
    (hm1 : 2 ^ 52 ≤ m) (hm2 : m < 2 ^ 53) :
    (Dbl.ofRat x).gt (.fin (m * 2 ^ (k - 52))) = true ↔
      if m % 2 = 0 then ((m : ℚ) + 1 / 2) * 2 ^ (k - 52) < x
      else ((m : ℚ) + 1 / 2) * 2 ^ (k - 52) ≤ x := by
  have hP : (0 : ℚ) < 2 ^ (k - 52) := zpow_pos (by norm_num) _
  have hm1' : ((2 : ℚ) ^ (52 : Int)) ≤ (m : ℚ) := by
    have h : ((2 ^ 52 : Int) : ℚ) ≤ (m : ℚ) := by exact_mod_cast hm1
    norm_num at h ⊢
    exact h
  have hm2' : (m : ℚ) + 1 ≤ (2 : ℚ) ^ (53 : Int) := by
    have h : ((m + 1 : Int) : ℚ) ≤ ((2 ^ 53 : Int) : ℚ) := by
      exact_mod_cast (by omega : m + 1 ≤ 2 ^ 53)
    norm_num at h ⊢
    exact h
  have hlow : (2 : ℚ) ^ k = 2 ^ (52 : Int) * 2 ^ (k - 52) := by
    rw [← zpow_add₀ (by norm_num : (2 : ℚ) ≠ 0)]
    congr 1
    omega
  have hhigh : (2 : ℚ) ^ (k + 1) = 2 ^ (53 : Int) * 2 ^ (k - 52) := by
    rw [← zpow_add₀ (by norm_num : (2 : ℚ) ≠ 0)]
    congr 1
    omega
  have hc1 : (2 : ℚ) ^ k ≤ m * 2 ^ (k - 52) := by
    rw [hlow]
    exact mul_le_mul_of_nonneg_right hm1' (le_of_lt hP)
  have hc2 : (m : ℚ) * 2 ^ (k - 52) < 2 ^ (k + 1) := by
    rw [hhigh]
    exact mul_lt_mul_of_pos_right (by linarith) hP
  have hθ1 : (2 : ℚ) ^ k < ((m : ℚ) + 1 / 2) * 2 ^ (k - 52) := by
    rw [hlow]
    exact mul_lt_mul_of_pos_right (by linarith) hP
  have hθ2 : ((m : ℚ) + 1 / 2) * 2 ^ (k - 52) < 2 ^ (k + 1) := by
    rw [hhigh]
    exact mul_lt_mul_of_pos_right (by linarith) hP
  have htop : (2 : ℚ) ^ (k + 1) ≤ 2 ^ 1024 := by
    have h := zpow_le_zpow_right₀ (by norm_num : (1 : ℚ) ≤ 2)
      (by omega : k + 1 ≤ (1024 : Int))
    have h1024 : (2 : ℚ) ^ (1024 : Int) = 2 ^ (1024 : Nat) := by
      rw [← zpow_natCast]
      rfl
    rw [← h1024]
    exact h
  have hk0 : (0 : ℚ) < 2 ^ k := zpow_pos (by norm_num) _
  rw [Dbl.gt_ofRat_fin x _ (by linarith) (by linarith)]
  by_cases hx1 : x < 2 ^ k
  · have hno : ¬ (m * 2 ^ (k - 52) < nearest x) := by
      rw [not_lt]
      by_cases hx0 : x ≤ 0
      · have := nearest_nonpos x hx0
        linarith
      · have := nearest_le x k hk (not_le.1 hx0) hx1
        linarith
    split_ifs
    · exact ⟨fun h => absurd h hno, fun h => absurd h (by linarith)⟩
    · exact ⟨fun h => absurd h hno, fun h => absurd h (by linarith)⟩
  · rw [not_lt] at hx1
    by_cases hx2 : x < 2 ^ (k + 1)
    · have hu := ulpExp_of_binade x k (by omega) hx1 hx2
      rw [nearest_eq, hu]
      have hiff : (m : ℚ) * 2 ^ (k - 52) < roundHalfEven (x / 2 ^ (k - 52)) * 2 ^ (k - 52) ↔
          m + 1 ≤ roundHalfEven (x / 2 ^ (k - 52)) := by
        rw [mul_lt_mul_right hP]
        constructor
        · intro h
          have : m < roundHalfEven (x / 2 ^ (k - 52)) := by exact_mod_cast h
          omega
        · intro h
          have : m < roundHalfEven (x / 2 ^ (k - 52)) := by omega
          exact_mod_cast this
      rw [hiff]
      have hy : ∀ t : ℚ, (t * 2 ^ (k - 52) < x ↔ t < x / 2 ^ (k - 52)) ∧
          (t * 2 ^ (k - 52) ≤ x ↔ t ≤ x / 2 ^ (k - 52)) :=
        fun t => ⟨(lt_div_iff₀ hP).symm, (le_div_iff₀ hP).symm⟩
      split_ifs with hpar
      · rw [(hy _).1]
        constructor
        · intro h
          by_contra hle
          rw [not_lt] at hle
          rcases lt_or_eq_of_le hle with hlt | heq
          · have := roundHalfEven_le_of_lt_half _ m hlt
            omega
          · have := roundHalfEven_half m
            rw [← heq, if_pos hpar] at this
            omega
        · exact succ_le_roundHalfEven_of_half_lt _ m
      · rw [(hy _).2]
        constructor
        · intro h
          by_contra hlt
          rw [not_le] at hlt
          have := roundHalfEven_le_of_lt_half _ m hlt
          omega
        · intro h
          rcases lt_or_eq_of_le h with hlt | heq
          · exact succ_le_roundHalfEven_of_half_lt _ m hlt
          · have := roundHalfEven_half m
            rw [heq, if_neg hpar] at this
            omega
    · rw [not_lt] at hx2
      have hyes : (m : ℚ) * 2 ^ (k - 52) < nearest x :=
        lt_of_lt_of_le hc2 (le_nearest x (k + 1) (by omega) hx2)
      split_ifs
      · exact ⟨fun _ => by linarith, fun _ => hyes⟩
      · exact ⟨fun _ => by linarith, fun _ => hyes⟩

theorem roundHalfEven_mono (y z : ℚ) (h : y ≤ z) : roundHalfEven y ≤ roundHalfEven z := by
  have hf : ⌊y⌋ ≤ ⌊z⌋ := Int.floor_mono h
  rcases lt_or_eq_of_le hf with hlt | heq
  · have h1 : roundHalfEven y ≤ ⌊y⌋ + 1 := by
      unfold roundHalfEven
      split_ifs <;> omega
    have h2 : ⌊z⌋ ≤ roundHalfEven z := by
      unfold roundHalfEven
      split_ifs <;> omega
    omega
  · unfold roundHalfEven
    rw [heq]
    have hd : y - ⌊z⌋ ≤ z - ⌊z⌋ := by linarith
    split_ifs <;> first | omega | (exfalso; linarith)

/-- Rounding to the nearest integer, ties to even, is symmetric. -/
theorem roundHalfEven_neg (y : ℚ) : roundHalfEven (-y) = -roundHalfEven y := by
  by_cases hint : (⌊y⌋ : ℚ) = y
  · have h1 : ⌊-y⌋ = -⌊y⌋ := by
      rw [← hint, ← Int.cast_neg, Int.floor_intCast, Int.floor_intCast]
    have h2 : -y - ((-⌊y⌋ : Int) : ℚ) = 0 := by
      push_cast
      rw [hint]
      ring
    have h3 : y - (⌊y⌋ : ℚ) = 0 := by rw [hint]; ring
    unfold roundHalfEven
    rw [h1, h2, h3]
    norm_num
  · have hlt : (⌊y⌋ : ℚ) < y := lt_of_le_of_ne (Int.floor_le y) hint
    have hlt2 : y < ⌊y⌋ + 1 := Int.lt_floor_add_one y
    have h1 : ⌊-y⌋ = -⌊y⌋ - 1 := by
      rw [Int.floor_eq_iff]
      push_cast
      constructor <;> linarith
    have h2 : -y - ((-⌊y⌋ - 1 : Int) : ℚ) = 1 - (y - ⌊y⌋) := by
      push_cast
      ring
    unfold roundHalfEven
    rw [h1, h2]
    by_cases ha : y - ⌊y⌋ < 1 / 2
    · have hb : ¬ (1 - (y - ⌊y⌋) < 1 / 2) := by linarith
      have hc : 1 / 2 < 1 - (y - ⌊y⌋) := by linarith
      rw [if_pos ha, if_neg hb, if_pos hc]
      omega
    · by_cases hb : 1 / 2 < y - ⌊y⌋
      · have hc : 1 - (y - ⌊y⌋) < 1 / 2 := by linarith
        rw [if_neg ha, if_pos hb, if_pos hc]
        omega
      · have hc : ¬ (1 - (y - ⌊y⌋) < 1 / 2) := by linarith
        have hd : ¬ (1 / 2 < 1 - (y - ⌊y⌋)) := by linarith
        rw [if_neg ha, if_neg hb, if_neg hc, if_neg hd]
        split_ifs <;> omega

theorem ulpExp_neg (x : ℚ) : ulpExp (-x) = ulpExp x := by
  unfold ulpExp
  rw [abs_neg]

theorem nearest_neg (x : ℚ) : nearest (-x) = -nearest x := by
  rw [nearest_eq, nearest_eq, ulpExp_neg, neg_div, roundHalfEven_neg]
  push_cast
  ring

theorem nearest_nonneg (x : ℚ) (hx : 0 ≤ x) : 0 ≤ nearest x := by
  have h := nearest_nonpos (-x) (by linarith)
  rw [nearest_neg] at h
  linarith

theorem nearest_mono_pos (x y : ℚ) (hx : 0 < x) (h : x ≤ y) : nearest x ≤ nearest y := by
  have hy : 0 < y := lt_of_lt_of_le hx h
  have hL : Int.log 2 x ≤ Int.log 2 y := Int.log_mono_right hx h
  have hax : |x| = x := abs_of_pos hx
  have hay : |y| = y := abs_of_pos hy
  by_cases he : ulpExp x = ulpExp y
  · rw [nearest_eq, nearest_eq, he]
    have hP : (0 : ℚ) < 2 ^ ulpExp y := zpow_pos (by norm_num) _
    have hq : x / 2 ^ ulpExp y ≤ y / 2 ^ ulpExp y := div_le_div_of_nonneg_right h (le_of_lt hP)
    have hn := roundHalfEven_mono _ _ hq
    have hn' : (roundHalfEven (x / 2 ^ ulpExp y) : ℚ) ≤ roundHalfEven (y / 2 ^ ulpExp y) := by
      exact_mod_cast hn
    exact mul_le_mul_of_nonneg_right hn' (le_of_lt hP)
  · have hux : ulpExp x = max (Int.log 2 x) (-1022) - 52 := by
      unfold ulpExp
      rw [hax]
    have huy : ulpExp y = max (Int.log 2 y) (-1022) - 52 := by
      unfold ulpExp
      rw [hay]
    have h1 : nearest x ≤ 2 ^ (ulpExp x + 53) :=
      nearest_le x _ (by omega) hx ((lt_two_zpow_iff x hx _).2 (by omega))
    have h2 : (2 : ℚ) ^ (ulpExp y + 52) ≤ nearest y :=
      le_nearest y _ (by omega) ((two_zpow_le_iff y hy _).2 (by omega))
    have h3 : (2 : ℚ) ^ (ulpExp x + 53) ≤ 2 ^ (ulpExp y + 52) :=
      zpow_le_zpow_right₀ (by norm_num) (by omega)
    linarith

/-- Rounding is monotone. -/
theorem nearest_mono (x y : ℚ) (h : x ≤ y) : nearest x ≤ nearest y := by
  by_cases hx : 0 < x
  · exact nearest_mono_pos x y hx h
  · rw [not_lt] at hx
    by_cases hy : 0 ≤ y
    · exact le_trans (nearest_nonpos x hx) (nearest_nonneg y hy)
    · rw [not_le] at hy
      have := nearest_mono_pos (-y) (-x) (by linarith) (by linarith)
      rw [nearest_neg, nearest_neg] at this
      linarith

/-- A rounded value that is greater than another comes from a greater value. -/
theorem Dbl.gt_ofRat_ofRat (x y : ℚ) (h : (Dbl.ofRat x).gt (Dbl.ofRat y) = true) : y < x := by
  by_contra hle
  rw [not_lt] at hle
  have hm := nearest_mono x y hle
  unfold Dbl.ofRat at h
  split_ifs at h <;> simp [Dbl.gt] at h <;> linarith

theorem roundHalfEven_intCast (k : Int) : roundHalfEven (k : ℚ) = k := by
  unfold roundHalfEven
  rw [Int.floor_intCast]
  norm_num

theorem roundHalfEven_error (y : ℚ) : |(roundHalfEven y : ℚ) - y| ≤ 1 / 2 := by
  have h1 := Int.floor_le y
  have h2 := Int.lt_floor_add_one y
  unfold roundHalfEven
  rw [abs_le]
  split_ifs <;> push_cast <;> constructor <;> linarith

/-- The value of type `double` that `Dbl.ofRat` finds is within half a spacing
of the rational number. -/
theorem nearest_error (x : ℚ) : |nearest x - x| ≤ 2 ^ ulpExp x / 2 := by
  have hP : (0 : ℚ) < 2 ^ ulpExp x := zpow_pos (by norm_num) _
  have h := roundHalfEven_error (x / 2 ^ ulpExp x)
  have he : nearest x - x = ((roundHalfEven (x / 2 ^ ulpExp x) : ℚ) - x / 2 ^ ulpExp x)
      * 2 ^ ulpExp x := by
    rw [nearest_eq]
    field_simp
  rw [he, abs_mul, abs_of_pos hP]
  calc |(roundHalfEven (x / 2 ^ ulpExp x) : ℚ) - x / 2 ^ ulpExp x| * 2 ^ ulpExp x
      ≤ 1 / 2 * 2 ^ ulpExp x := mul_le_mul_of_nonneg_right h (le_of_lt hP)
    _ = 2 ^ ulpExp x / 2 := by ring

/-- A value `m * 2 ^ e` with `m` of at most 53 bits and `e` from -1074 on is a
value of type `double`: rounding leaves it as it is. -/
theorem nearest_of_double (m e : Int) (hm : |m| < 2 ^ 53) (he : -1074 ≤ e) :
    nearest ((m : ℚ) * 2 ^ e) = (m : ℚ) * 2 ^ e := by
  by_cases hm0 : m = 0
  · rw [hm0, Int.cast_zero, zero_mul, nearest_eq, zero_div]
    have := roundHalfEven_intCast 0
    rw [Int.cast_zero] at this
    rw [this, Int.cast_zero, zero_mul]
  · have hE : (0 : ℚ) < 2 ^ e := zpow_pos (by norm_num) _
    have habs : |(m : ℚ) * 2 ^ e| = |(m : ℚ)| * 2 ^ e := by
      rw [abs_mul, abs_of_pos hE]
    have hmpos : (0 : ℚ) < |(m : ℚ)| := abs_pos.2 (by exact_mod_cast hm0)
    have hxpos : (0 : ℚ) < |(m : ℚ) * 2 ^ e| := by
      rw [habs]
      exact mul_pos hmpos hE
    have hmq : |(m : ℚ)| < 2 ^ (53 : Int) := by
      have h : ((|m| : Int) : ℚ) < ((2 ^ 53 : Int) : ℚ) := by exact_mod_cast hm
      rw [Int.cast_abs] at h
      norm_num at h ⊢
      exact h
    have hlt : |(m : ℚ) * 2 ^ e| < 2 ^ (e + 53) := by
      rw [habs, zpow_add₀ (by norm_num : (2 : ℚ) ≠ 0), mul_comm ((2 : ℚ) ^ e)]
      exact mul_lt_mul_of_pos_right hmq hE
    have hL := (lt_two_zpow_iff _ hxpos _).1 hlt
    have hu : ulpExp ((m : ℚ) * 2 ^ e) ≤ e := by
      unfold ulpExp
      omega
    obtain ⟨d, hd⟩ : ∃ d : Nat, e = ulpExp ((m : ℚ) * 2 ^ e) + d :=
      ⟨(e - ulpExp ((m : ℚ) * 2 ^ e)).toNat, by omega⟩
    have hP : (0 : ℚ) < 2 ^ ulpExp ((m : ℚ) * 2 ^ e) := zpow_pos (by norm_num) _
    have hsplit : (2 : ℚ) ^ e = 2 ^ d * 2 ^ ulpExp ((m : ℚ) * 2 ^ e) := by
      conv_lhs => rw [hd]
      rw [zpow_add₀ (by norm_num : (2 : ℚ) ≠ 0), zpow_natCast, mul_comm]
    have hq : (m : ℚ) * 2 ^ e / 2 ^ ulpExp ((m : ℚ) * 2 ^ e) = ((m * 2 ^ d : Int) : ℚ) := by
      rw [div_eq_iff (ne_of_gt hP)]
      conv_lhs => rw [hsplit]
      push_cast
      ring
    rw [nearest_eq, hq, roundHalfEven_intCast]
    conv_rhs => rw [hsplit]
    push_cast
    ring

/-! ## The classifier -/

theorem Dbl.round_fin (q : ℚ) : (Dbl.fin q).round = .ofRat q := rfl

theorem Dbl.fdiv_zero (x : ℚ) : (Dbl.fin x).fdiv (.fin 0) =
    if x = 0 then .nan else if 0 < x then .pinf else .ninf := by
  unfold Dbl.fdiv
  rw [Dbl.div_fin, if_pos rfl]
  split_ifs <;> rfl

theorem Dbl.fdiv_fin (a s : ℚ) (hs : s ≠ 0) : (Dbl.fin a).fdiv (.fin s) = .ofRat (a / s) := by
  unfold Dbl.fdiv
  rw [Dbl.div_fin, if_neg hs, Dbl.round_fin]

/-- The literals of the classifier as values of type `double`: 0.5 is a binary
fraction, the others are rounded. -/
theorem literals_binary64 :
    refR = [.fin (8106479329266893 / 2 ^ 53), .fin (3602879701896397 / 2 ^ 55),
      .fin (3602879701896397 / 2 ^ 55), .fin (8106479329266893 / 2 ^ 53),
      .fin (3602879701896397 / 2 ^ 54)] ∧
    refT = [.fin (3602879701896397 / 2 ^ 55), .fin (8106479329266893 / 2 ^ 53),
      .fin (3602879701896397 / 2 ^ 55), .fin (3602879701896397 / 2 ^ 55),
      .fin (8106479329266893 / 2 ^ 53)] ∧
    refM = [.fin (1 / 2), .fin (3602879701896397 / 2 ^ 54), .fin (5404319552844595 / 2 ^ 53),
      .fin (3152519739159347 / 2 ^ 52), .fin (3602879701896397 / 2 ^ 55)] ∧
    c060 = .fin (5404319552844595 / 2 ^ 53) ∧
    c040 = .fin (3602879701896397 / 2 ^ 53) := by
  decide!

theorem c060_finite : c060 = .fin (5404319552844595 / 2 ^ 53) := literals_binary64.2.2.2.1

theorem c040_finite : c040 = .fin (3602879701896397 / 2 ^ 53) := literals_binary64.2.2.2.2

/-- A rounded value exceeds the literal 0.60 exactly when the value before the
rounding is at least halfway from the `double` 0.60 to the next `double`: the
tie rounds up, to the even neighbour. -/
theorem Dbl.gt_c060_iff (x : ℚ) :
    (Dbl.ofRat x).gt c060 = true ↔ (5404319552844595 + 1 / 2) / 2 ^ 53 ≤ x := by
  have h := Dbl.gt_ofRat_binade x 5404319552844595 (-1) (by norm_num) (by norm_num)
    (by norm_num) (by norm_num)
  have hc : c060 = .fin ((5404319552844595 : Int) * 2 ^ ((-1 : Int) - 52)) := by
    rw [c060_finite]
    congr 1
    norm_num [zpow_neg]
  rw [hc, h, if_neg (by decide)]
  norm_num [zpow_neg]

/-- A rounded value exceeds the literal 0.40 exactly when the value before the
rounding is more than halfway from the `double` 0.40 to the next `double`: the
tie rounds down, to the even neighbour. -/
theorem Dbl.gt_c040_iff (x : ℚ) :
    (Dbl.ofRat x).gt c040 = true ↔ (7205759403792794 + 1 / 2) / 2 ^ 54 < x := by
  have h := Dbl.gt_ofRat_binade x 7205759403792794 (-2) (by norm_num) (by norm_num)
    (by norm_num) (by norm_num)
  have hc : c040 = .fin ((7205759403792794 : Int) * 2 ^ ((-2 : Int) - 52)) := by
    rw [c040_finite]
    congr 1
    norm_num [zpow_neg]
  rw [hc, h, if_pos (by decide)]
  norm_num [zpow_neg]

theorem predict_sample :
    predict_function_from_embedding [.fin 3, .fin 0, .fin 0, .fin 0, .fin 0]
      = samplePrediction := by
  decide!

/-- C13: the decision policy of `predict_function_from_embedding`, for every
embedding. The report holds the three scores, and the fractions are the scores
divided by the sum of the scores, each operation rounded to binary64.

On the fractions as computed, compared as values of type `double` with the
literals 0.60 and 0.40: the verdict is "dominant" exactly when some fraction
exceeds 0.60, for the first of Ribosomal, Mobile, Metabolic whose fraction does;
it is "mixed signatures" for a category exactly when no fraction exceeds 0.60
and that category's fraction exceeds 0.40 and is strictly greater than both
others; and it is the "no single function dominant" verdict exactly when neither
holds.

For finite scores `a`, `b`, `c` whose computed sum `s` is finite and not 0, the
fractions are the quotients `a / s`, `b / s`, `c / s` rounded once, so in terms
of the quotients themselves: a fraction exceeds 0.60 exactly when the quotient
is at least 0.6 + 3.3e-17 (halfway from the `double` 0.60 to the next one), which
decides the "dominant" verdicts; and a "mixed signatures" verdict for a category
implies that its quotient is above 0.4 + 5.0e-17 (halfway from the `double` 0.40
to the next one), below the bound for "dominant", and strictly greater than both
other quotients. -/
theorem decision_policy (emb : SequenceEmbedding) (p : Prediction)
    (hp : predict_function_from_embedding emb = p) :
    (p.r = dot emb refR ∧ p.t = dot emb refT ∧ p.m = dot emb refM) ∧
    (p.r_frac = p.r.fdiv ((p.r.fadd p.t).fadd p.m) ∧
      p.t_frac = p.t.fdiv ((p.r.fadd p.t).fadd p.m) ∧
      p.m_frac = p.m.fdiv ((p.r.fadd p.t).fadd p.m)) ∧
    (p.verdict = .dominantRibosomal ↔ p.r_frac.gt c060 = true) ∧
    (p.verdict = .dominantMobile ↔ p.r_frac.gt c060 = false ∧ p.t_frac.gt c060 = true) ∧
    (p.verdict = .dominantMetabolic ↔
      p.r_frac.gt c060 = false ∧ p.t_frac.gt c060 = false ∧ p.m_frac.gt c060 = true) ∧
    ((p.verdict = .dominantRibosomal ∨ p.verdict = .dominantMobile ∨
        p.verdict = .dominantMetabolic) ↔
      (p.r_frac.gt c060 = true ∨ p.t_frac.gt c060 = true ∨ p.m_frac.gt c060 = true)) ∧
    (p.verdict = .mixedRibosomal ↔
      (p.r_frac.gt c060 = false ∧ p.t_frac.gt c060 = false ∧ p.m_frac.gt c060 = false) ∧
        p.r_frac.gt c040 = true ∧ p.r_frac.gt p.t_frac = true ∧
        p.r_frac.gt p.m_frac = true) ∧
    (p.verdict = .mixedMobile ↔
      (p.r_frac.gt c060 = false ∧ p.t_frac.gt c060 = false ∧ p.m_frac.gt c060 = false) ∧
        p.t_frac.gt c040 = true ∧ p.t_frac.gt p.r_frac = true ∧
        p.t_frac.gt p.m_frac = true) ∧
    (p.verdict = .mixedMetabolic ↔
      (p.r_frac.gt c060 = false ∧ p.t_frac.gt c060 = false ∧ p.m_frac.gt c060 = false) ∧
        p.m_frac.gt c040 = true ∧ p.m_frac.gt p.r_frac = true ∧
        p.m_frac.gt p.t_frac = true) ∧
    (p.verdict = .unknown ↔
      (p.r_frac.gt c060 = false ∧ p.t_frac.gt c060 = false ∧ p.m_frac.gt c060 = false) ∧
        ¬ (p.r_frac.gt c040 = true ∧ p.r_frac.gt p.t_frac = true ∧
          p.r_frac.gt p.m_frac = true) ∧
        ¬ (p.t_frac.gt c040 = true ∧ p.t_frac.gt p.r_frac = true ∧
          p.t_frac.gt p.m_frac = true) ∧
        ¬ (p.m_frac.gt c040 = true ∧ p.m_frac.gt p.r_frac = true ∧
          p.m_frac.gt p.t_frac = true)) ∧
    (∀ a b c s : ℚ, p.r = .fin a → p.t = .fin b → p.m = .fin c →
      (p.r.fadd p.t).fadd p.m = .fin s → s ≠ 0 →
      (p.r_frac = .ofRat (a / s) ∧ p.t_frac = .ofRat (b / s) ∧ p.m_frac = .ofRat (c / s)) ∧
      (p.verdict = .dominantRibosomal ↔ (5404319552844595 + 1 / 2) / 2 ^ 53 ≤ a / s) ∧
      (p.verdict = .dominantMobile ↔
        a / s < (5404319552844595 + 1 / 2) / 2 ^ 53 ∧
          (5404319552844595 + 1 / 2) / 2 ^ 53 ≤ b / s) ∧
      (p.verdict = .dominantMetabolic ↔
        a / s < (5404319552844595 + 1 / 2) / 2 ^ 53 ∧
          b / s < (5404319552844595 + 1 / 2) / 2 ^ 53 ∧
          (5404319552844595 + 1 / 2) / 2 ^ 53 ≤ c / s) ∧
      (p.verdict = .mixedRibosomal →
        (7205759403792794 + 1 / 2) / 2 ^ 54 < a / s ∧
          a / s < (5404319552844595 + 1 / 2) / 2 ^ 53 ∧ b / s < a / s ∧ c / s < a / s) ∧
      (p.verdict = .mixedMobile →
        (7205759403792794 + 1 / 2) / 2 ^ 54 < b / s ∧
          b / s < (5404319552844595 + 1 / 2) / 2 ^ 53 ∧ a / s < b / s ∧ c / s < b / s) ∧
      (p.verdict = .mixedMetabolic →
        (7205759403792794 + 1 / 2) / 2 ^ 54 < c / s ∧
          c / s < (5404319552844595 + 1 / 2) / 2 ^ 53 ∧ a / s < c / s ∧ b / s < c / s)) := by
  subst hp
  have hv : (predict_function_from_embedding emb).verdict =
      verdictOf (predict_function_from_embedding emb).r_frac
        (predict_function_from_embedding emb).t_frac
        (predict_function_from_embedding emb).m_frac := rfl
  have hrf : (predict_function_from_embedding emb).r_frac =
      (predict_function_from_embedding emb).r.fdiv
        (((predict_function_from_embedding emb).r.fadd (predict_function_from_embedding emb).t).fadd
          (predict_function_from_embedding emb).m) := rfl
  have htf : (predict_function_from_embedding emb).t_frac =
      (predict_function_from_embedding emb).t.fdiv
        (((predict_function_from_embedding emb).r.fadd (predict_function_from_embedding emb).t).fadd
          (predict_function_from_embedding emb).m) := rfl
  have hmf : (predict_function_from_embedding emb).m_frac =
      (predict_function_from_embedding emb).m.fdiv
        (((predict_function_from_embedding emb).r.fadd (predict_function_from_embedding emb).t).fadd
          (predict_function_from_embedding emb).m) := rfl
  have hdr := verdictOf_dominantRibosomal (predict_function_from_embedding emb).r_frac
    (predict_function_from_embedding emb).t_frac (predict_function_from_embedding emb).m_frac
  have hdt := verdictOf_dominantMobile (predict_function_from_embedding emb).r_frac
    (predict_function_from_embedding emb).t_frac (predict_function_from_embedding emb).m_frac
  have hdm := verdictOf_dominantMetabolic (predict_function_from_embedding emb).r_frac
    (predict_function_from_embedding emb).t_frac (predict_function_from_embedding emb).m_frac
  have hxr := verdictOf_mixedRibosomal (predict_function_from_embedding emb).r_frac
    (predict_function_from_embedding emb).t_frac (predict_function_from_embedding emb).m_frac
  have hxt := verdictOf_mixedMobile (predict_function_from_embedding emb).r_frac
    (predict_function_from_embedding emb).t_frac (predict_function_from_embedding emb).m_frac
  have hxm := verdictOf_mixedMetabolic (predict_function_from_embedding emb).r_frac
    (predict_function_from_embedding emb).t_frac (predict_function_from_embedding emb).m_frac
  have hun := verdictOf_unknown (predict_function_from_embedding emb).r_frac
    (predict_function_from_embedding emb).t_frac (predict_function_from_embedding emb).m_frac
  rw [← hv] at hdr hdt hdm hxr hxt hxm hun
  refine ⟨⟨rfl, rfl, rfl⟩, ⟨hrf, htf, hmf⟩, hdr, hdt, hdm, ?_, hxr, hxt, hxm, hun, ?_⟩
  · rw [hdr, hdt, hdm]
    cases (predict_function_from_embedding emb).r_frac.gt c060 <;>
      cases (predict_function_from_embedding emb).t_frac.gt c060 <;>
      cases (predict_function_from_embedding emb).m_frac.gt c060 <;> simp
  · intro a b c s ha hb hc hs hs0
    have hra : (predict_function_from_embedding emb).r_frac = .ofRat (a / s) := by
      rw [hrf, hs, ha]
      exact Dbl.fdiv_fin a s hs0
    have htb : (predict_function_from_embedding emb).t_frac = .ofRat (b / s) := by
      rw [htf, hs, hb]
      exact Dbl.fdiv_fin b s hs0
    have hmc : (predict_function_from_embedding emb).m_frac = .ofRat (c / s) := by
      rw [hmf, hs, hc]
      exact Dbl.fdiv_fin c s hs0
    have hfalse : ∀ x : ℚ, (Dbl.ofRat x).gt c060 = false ↔
        x < (5404319552844595 + 1 / 2) / 2 ^ 53 := by
      intro x
      rw [← not_le, ← Dbl.gt_c060_iff, Bool.not_eq_true]
    simp only [hra, htb, hmc, Dbl.gt_c060_iff, Dbl.gt_c040_iff, hfalse]
      at hdr hdt hdm hxr hxt hxm
    refine ⟨⟨hra, htb, hmc⟩, hdr, hdt, hdm, ?_, ?_, ?_⟩
    · intro h
      obtain ⟨⟨h1, _, _⟩, h4, h5, h6⟩ := hxr.1 h
      exact ⟨h4, h1, Dbl.gt_ofRat_ofRat _ _ h5, Dbl.gt_ofRat_ofRat _ _ h6⟩
    · intro h
      obtain ⟨⟨_, h2, _⟩, h4, h5, h6⟩ := hxt.1 h
      exact ⟨h4, h2, Dbl.gt_ofRat_ofRat _ _ h5, Dbl.gt_ofRat_ofRat _ _ h6⟩
    · intro h
      obtain ⟨⟨_, _, h3⟩, h4, h5, h6⟩ := hxm.1 h
      exact ⟨h4, h3, Dbl.gt_ofRat_ofRat _ _ h5, Dbl.gt_ofRat_ofRat _ _ h6⟩

theorem decision_policy_witness :
    predict_function_from_embedding [.fin 3, .fin 0, .fin 0, .fin 0, .fin 0]
        = samplePrediction ∧
      (samplePrediction.verdict = .dominantRibosomal ↔
        samplePrediction.r_frac.gt c060 = true) ∧
      (samplePrediction.verdict = .dominantRibosomal ↔
        (5404319552844595 + 1 / 2) / 2 ^ 53
          ≤ (3039929748475085 / 1125899906842624 : ℚ) / (9 / 2)) :=
  ⟨predict_sample,
    (decision_policy [.fin 3, .fin 0, .fin 0, .fin 0, .fin 0] samplePrediction
      predict_sample).2.2.1,
    ((decision_policy [.fin 3, .fin 0, .fin 0, .fin 0, .fin 0] samplePrediction
      predict_sample).2.2.2.2.2.2.2.2.2.2
        (3039929748475085 / 1125899906842624) (1351079888211149 / 4503599627370496) (3 / 2)
        (9 / 2) rfl rfl rfl (by decide!) (by norm_num)).2.1⟩

/-- The embedding (3, 0, 0, 0, 0): the product `3 * 0.9` is 2.7000000000000002
and the sum of the scores is 4.5, so the Ribosomal fraction is
0.6000000000000001, above the literal 0.60, and the verdict is "Ribosomal /
Structural (dominant)"; in decimal fractions the quotient of 2.7 and 4.5 is
0.60 itself. -/
theorem rounding_decides_dominant :
    predict_function_from_embedding [.fin 3, .fin 0, .fin 0, .fin 0, .fin 0]
        = samplePrediction ∧
      samplePrediction.r_frac.gt c060 = true ∧
      samplePrediction.verdict = .dominantRibosomal ∧
      (3 * (9 / 10) : ℚ) / (3 * (9 / 10) + 3 * (1 / 10) + 3 * (5 / 10)) = 60 / 100 :=
  ⟨predict_sample, by decide!, rfl, by norm_num⟩

/-- The embedding (0, 1, 1, 3, 0): the Ribosomal and Metabolic scores are both
2.9 in decimals, and are 2.9000000000000004 and 2.8999999999999995 as computed,
so the Ribosomal fraction is the greater one and the verdict is "Ribosomal
(mixed signatures)". -/
theorem rounding_breaks_tie :
    predict_function_from_embedding [.fin 0, .fin 1, .fin 1, .fin 3, .fin 0]
      = ⟨.fin (1632554864921805 / 562949953421312), .fin (5854679515581645 / 4503599627370496),
        .fin (3265109729843609 / 1125899906842624),
        .fin (7357993757394051 / 18014398509481984),
        .fin (6596821989387769 / 36028797018963968),
        .fin (7357993757394049 / 18014398509481984), .mixedRibosomal⟩ := by
  decide!

/-- C12, evaluated at the embedding (0, -1, 0, 0, 1): the scores are 0.1, 0 and
-0.1 as values of type `double` and their sum is 0, the fractions are +infinity,
NaN and -infinity, and the verdict is "Ribosomal / Structural (dominant)", not
the "no single function dominant" one. -/
theorem zero_total_gives_dominant :
    predict_function_from_embedding [.fin 0, .fin (-1), .fin 0, .fin 0, .fin 1]
        = ⟨.fin (3602879701896397 / 36028797018963968), .fin 0,
          .fin (-3602879701896397 / 36028797018963968), .pinf, .nan, .ninf,
          .dominantRibosomal⟩ ∧
      ((Dbl.fin (3602879701896397 / 36028797018963968)).fadd (.fin 0)).fadd
        (.fin (-3602879701896397 / 36028797018963968)) = .fin 0 ∧
      Dbl.ofRat (1 / 10) = .fin (3602879701896397 / 36028797018963968) := by
  decide!

/-- The verdict when finite scores have the sum 0: "dominant" for the first
category with a positive score, and the "no single function dominant" verdict
only when no score is positive. -/
theorem zero_total_verdict (emb : SequenceEmbedding) (a b c : ℚ)
    (hr : dot emb refR = .fin a) (ht : dot emb refT = .fin b) (hm : dot emb refM = .fin c)
    (hsum : ((Dbl.fin a).fadd (.fin b)).fadd (.fin c) = .fin 0) :
    (0 < a → (predict_function_from_embedding emb).verdict = .dominantRibosomal) ∧
      (a ≤ 0 → 0 < b → (predict_function_from_embedding emb).verdict = .dominantMobile) ∧
      (a ≤ 0 → b ≤ 0 → 0 < c →
        (predict_function_from_embedding emb).verdict = .dominantMetabolic) ∧
      ((predict_function_from_embedding emb).verdict = .unknown ↔
        a ≤ 0 ∧ b ≤ 0 ∧ c ≤ 0) := by
  have hgt : ∀ x : ℚ, ((Dbl.fin x).fdiv (.fin 0)).gt c060 = decide (0 < x) := by
    intro x
    rw [Dbl.fdiv_zero, c060_finite]
    by_cases h0 : x = 0
    · simp [h0, Dbl.gt]
    · by_cases hpos : 0 < x
      · simp [h0, hpos, Dbl.gt]
      · simp [h0, hpos, Dbl.gt]
  have hgt4 : ∀ x : ℚ, x ≤ 0 → ((Dbl.fin x).fdiv (.fin 0)).gt c040 = false := by
    intro x hx
    rw [Dbl.fdiv_zero, c040_finite]
    by_cases h0 : x = 0
    · simp [h0, Dbl.gt]
    · have hpos : ¬ 0 < x := not_lt.2 hx
      simp [h0, hpos, Dbl.gt]
  have hv : (predict_function_from_embedding emb).verdict =
      verdictOf ((Dbl.fin a).fdiv (.fin 0)) ((Dbl.fin b).fdiv (.fin 0))
        ((Dbl.fin c).fdiv (.fin 0)) := by
    simp only [predict_function_from_embedding, hr, ht, hm, hsum]
  rw [hv]
  refine ⟨?_, ?_, ?_, ?_⟩
  · intro ha
    rw [verdictOf_dominantRibosomal, hgt]
    simpa using ha
  · intro ha hb
    rw [verdictOf_dominantMobile, hgt, hgt]
    exact ⟨by simpa using ha, by simpa using hb⟩
  · intro ha hb hc
    rw [verdictOf_dominantMetabolic, hgt, hgt, hgt]
    exact ⟨by simpa using ha, by simpa using hb, by simpa using hc⟩
  · rw [verdictOf_unknown, hgt, hgt, hgt]
    constructor
    · rintro ⟨⟨h1, h2, h3⟩, _⟩
      simpa using And.intro h1 (And.intro h2 h3)
    · rintro ⟨ha, hb, hc⟩
      refine ⟨by simpa using And.intro ha (And.intro hb hc), ?_, ?_, ?_⟩
      · rw [hgt4 a ha]; simp
      · rw [hgt4 b hb]; simp
      · rw [hgt4 c hc]; simp

theorem zero_total_verdict_witness :
    (predict_function_from_embedding [.fin 0, .fin 0, .fin 0, .fin 0, .fin 0]).verdict
        = .unknown ↔ (0 : ℚ) ≤ 0 ∧ (0 : ℚ) ≤ 0 ∧ (0 : ℚ) ≤ 0 :=
  (zero_total_verdict [.fin 0, .fin 0, .fin 0, .fin 0, .fin 0] 0 0 0
    (by decide!) (by decide!) (by decide!) (by decide!)).2.2.2

/-! ## The embedding -/

theorem wrapInt_of_range (n : Int) (h1 : -2147483648 ≤ n) (h2 : n < 2147483648) :
    wrapInt n = n := by
  unfold wrapInt
  omega

theorem wrapInt_range (n : Int) : -2147483648 ≤ wrapInt n ∧ wrapInt n < 2147483648 := by
  unfold wrapInt
  omega

theorem wrapInt_zero : wrapInt 0 = 0 := by decide

/-- C11, evaluated: for the empty sequence with the empty count mapping every
feature is `0.0 / 0` = NaN, the guard `mag > 0.0` fails on the NaN norm, and the
result is the all-NaN vector, not the all-zero one. With an empty sequence the
GC and AT fractions are NaN whatever the counts, and with an empty count mapping
the rare, entropy and palindrome features are NaN whatever the sequence, as for
the sequence ACG. No call throws: the function is total. -/
theorem empty_inputs_give_nan (lib : Libm) :
    get_sequence_embedding lib [] [] = [.nan, .nan, .nan, .nan, .nan] ∧
      (∀ counts, (features lib counts []).getD 0 (.fin 0) = .nan ∧
        (features lib counts []).getD 2 (.fin 0) = .nan) ∧
      (∀ sequence, (features lib [] sequence).getD 1 (.fin 0) = .nan ∧
        (features lib [] sequence).getD 3 (.fin 0) = .nan ∧
        (features lib [] sequence).getD 4 (.fin 0) = .nan) ∧
      get_sequence_embedding lib [] "ACG".toList
        = [.fin (2 / 3), .nan, .fin (1 / 3), .nan, .nan] := by
  refine ⟨?_, ?_, ?_, ?_⟩
  · simp [get_sequence_embedding, features, normalize, sumSquares, compositionLoop, statsLoop,
      totalKmers, totalKmersLoop, wrapInt_zero, Dbl.ofInt, Dbl.div, Dbl.mul, Dbl.add, Dbl.sqrt,
      Dbl.gt]
  · intro counts
    simp [features, compositionLoop, wrapInt_zero, Dbl.ofInt, Dbl.div]
  · intro sequence
    simp [features, statsLoop, totalKmers, totalKmersLoop, Dbl.ofInt, Dbl.div]
  · have hc : compositionLoop "ACG".toList (0, 0) = (2, 1) := by decide
    have ht : wrapInt ("ACG".toList.length : Nat) = 3 := by decide
    have hf : features lib [] "ACG".toList = [.fin (2 / 3), .nan, .fin (1 / 3), .nan, .nan] := by
      simp only [features, hc, ht]
      norm_num [statsLoop, totalKmers, totalKmersLoop, Dbl.ofInt, Dbl.div]
    unfold get_sequence_embedding
    rw [hf]
    simp [normalize, sumSquares, Dbl.mul, Dbl.add, Dbl.sqrt, Dbl.gt]

/-- C15, evaluated at the sequence GC with the empty count mapping: the result
is (1, NaN, 0, NaN, NaN), which is not the all-zero vector and whose Euclidean
norm is NaN, not 1. -/
theorem normalization_skipped_on_nan (lib : Libm) :
    get_sequence_embedding lib [] "GC".toList = [.fin 1, .nan, .fin 0, .nan, .nan] ∧
      get_sequence_embedding lib [] "GC".toList ≠ List.replicate 5 (.fin 0) ∧
      (sumSquares (get_sequence_embedding lib [] "GC".toList)).sqrt lib = .nan := by
  have h : get_sequence_embedding lib [] "GC".toList = [.fin 1, .nan, .fin 0, .nan, .nan] := by
    have hc : compositionLoop "GC".toList (0, 0) = (2, 0) := by decide
    have ht : wrapInt ("GC".toList.length : Nat) = 2 := by decide
    have hf : features lib [] "GC".toList = [.fin 1, .nan, .fin 0, .nan, .nan] := by
      simp only [features, hc, ht]
      norm_num [statsLoop, totalKmers, totalKmersLoop, Dbl.ofInt, Dbl.div]
    unfold get_sequence_embedding
    rw [hf]
    simp [normalize, sumSquares, Dbl.mul, Dbl.add, Dbl.sqrt, Dbl.gt]
  refine ⟨h, ?_, ?_⟩
  · rw [h]; simp [List.replicate]
  · rw [h]; simp [sumSquares, Dbl.mul, Dbl.add, Dbl.sqrt]

/-- C14, evaluated at the ten A's with K = 3: the count mapping is the single
key 0 with count 8, the frequency is 8 / 1 = 8, and the entropy feature is
`-(8 * log2 8)`, which is -24 when `log2(8.0)` is 3, not 0; it stays different
from 0 after the normalization. For a single key with a positive count `c` the
entropy feature is `-(c * log2 c)`. -/
theorem entropy_of_single_key (lib : Libm) :
    (indexOf 2 3 (List.replicate 10 'A')).map get_kmer_counts = some [(0, 8)] ∧
      features lib [(0, 8)] (List.replicate 10 'A')
        = [.fin 0, .fin 0, .fin 1, .fin (-(8 * lib.log2 8)), .fin 0] ∧
      (lib.log2 8 = 3 →
        (features lib [(0, 8)] (List.replicate 10 'A')).getD 3 (.fin 0) = .fin (-24)) ∧
      (lib.log2 8 ≠ 0 →
        (get_sequence_embedding lib [(0, 8)] (List.replicate 10 'A')).getD 3 (.fin 0)
          ≠ .fin 0) ∧
      (∀ (key : KmerKey) (c : Int) (sequence : List Char), 0 < c →
        (features lib [(key, c)] sequence).getD 3 (.fin 0) = .fin (-(c * lib.log2 c))) := by
  have hf : features lib [(0, 8)] (List.replicate 10 'A')
      = [.fin 0, .fin 0, .fin 1, .fin (-(8 * lib.log2 8)), .fin 0] := by
    have hc : compositionLoop (List.replicate 10 'A') (0, 0) = (0, 10) := by decide
    simp only [features, hc, List.length_replicate]
    norm_num [statsLoop, totalKmers, totalKmersLoop, wrapInt, Dbl.ofInt, Dbl.div_fin,
      Dbl.mul_fin, Dbl.sub_fin,
      Dbl.gt_fin, Dbl.log2_fin]
  refine ⟨by decide, hf, ?_, ?_, ?_⟩
  · intro h3
    rw [hf, h3]
    norm_num
  · intro hne
    unfold get_sequence_embedding normalize
    rw [hf]
    have hss : sumSquares [.fin 0, .fin 0, .fin 1, .fin (-(8 * lib.log2 8)), .fin 0]
        = .fin (1 + (8 * lib.log2 8) * (8 * lib.log2 8)) := by
      norm_num [sumSquares, Dbl.add_fin, Dbl.mul_fin]
    rw [hss]
    have hnn : ¬ (1 + (8 * lib.log2 8) * (8 * lib.log2 8) < 0) := by
      have := mul_self_nonneg (8 * lib.log2 8)
      linarith
    rw [Dbl.sqrt_fin, if_neg hnn]
    simp only
    split_ifs with hg
    · have hpos : (0 : ℚ) < lib.sqrt (1 + (8 * lib.log2 8) * (8 * lib.log2 8)) := by
        simpa [Dbl.gt_fin] using hg
      simp [Dbl.div_fin, ne_of_gt hpos, hne]
    · simp [hne]
  · intro key c sequence hc
    have hc' : (0 : ℚ) < (c : ℚ) := by exact_mod_cast hc
    simp [features, statsLoop, Dbl.ofInt, Dbl.div_fin, Dbl.mul_fin, Dbl.sub_fin,
      Dbl.gt_fin, Dbl.log2_fin, hc', ne_of_gt hc', not_lt.2 (le_of_lt hc')]

/-! ## Normalization of finite features -/

theorem foldl_squares_fin (qs : List ℚ) (a : ℚ) :
    (qs.map Dbl.fin).foldl (fun (mag x : Dbl) => mag.add (x.mul x)) (Dbl.fin a)
      = Dbl.fin (a + (qs.map fun q => q * q).sum) := by
  induction qs generalizing a with
  | nil => simp
  | cons q qs ih =>
    simp only [List.map_cons, List.foldl_cons, Dbl.mul_fin, Dbl.add_fin, List.sum_cons]
    rw [ih, add_assoc]

theorem sumSquares_fin (qs : List ℚ) :
    sumSquares (qs.map .fin) = .fin (qs.map fun q => q * q).sum := by
  unfold sumSquares
  rw [foldl_squares_fin, zero_add]

theorem sum_squares_nonneg (qs : List ℚ) : 0 ≤ (qs.map fun q => q * q).sum := by
  induction qs with
  | nil => simp
  | cons q qs ih =>
    rw [List.map_cons, List.sum_cons]
    exact add_nonneg (mul_self_nonneg q) ih

theorem sum_squares_eq_zero (qs : List ℚ) (h : (qs.map fun q => q * q).sum = 0) :
    ∀ q ∈ qs, q = 0 := by
  induction qs with
  | nil => intro q hq; simp at hq
  | cons a qs ih =>
    rw [List.map_cons, List.sum_cons] at h
    have h1 := mul_self_nonneg a
    have h2 := sum_squares_nonneg qs
    have ha : a * a = 0 := by linarith
    have hs : (qs.map fun q => q * q).sum = 0 := by linarith
    intro q hq
    rcases List.mem_cons.1 hq with rfl | hq
    · exact mul_self_eq_zero.1 ha
    · exact ih hs q hq

theorem sum_squares_div (qs : List ℚ) (s : ℚ) :
    ((qs.map fun q => q / s).map fun q => q * q).sum
      = (qs.map fun q => q * q).sum / (s * s) := by
  induction qs with
  | nil => simp
  | cons q qs ih =>
    simp only [List.map_cons, List.sum_cons, ih]
    rw [add_div, div_mul_div_comm]

/-- The normalization of a vector of finite values, in exact arithmetic: with
`s` the value `std::sqrt` returns on the sum of the squares, a positive `s`
divides every component by `s`, and the result has norm 1 when `s` is the exact
root; otherwise the vector is left as it is, and is the zero vector when `s` is
the exact root 0. -/
theorem normalize_finite (lib : Libm) (qs : List ℚ)
    (hs : lib.sqrt (qs.map fun q => q * q).sum * lib.sqrt (qs.map fun q => q * q).sum
      = (qs.map fun q => q * q).sum) :
    (0 < lib.sqrt (qs.map fun q => q * q).sum →
        normalize lib (qs.map .fin)
          = (qs.map fun q => q / lib.sqrt (qs.map fun q => q * q).sum).map .fin ∧
        sumSquares (normalize lib (qs.map .fin)) = .fin 1) ∧
      (¬ 0 < lib.sqrt (qs.map fun q => q * q).sum →
        normalize lib (qs.map .fin) = qs.map .fin ∧
        (lib.sqrt (qs.map fun q => q * q).sum = 0 → ∀ q ∈ qs, q = 0)) := by
  have hnn : ¬ ((qs.map fun q => q * q).sum < 0) := not_lt.2 (sum_squares_nonneg qs)
  have hmag : (sumSquares (qs.map .fin)).sqrt lib
      = .fin (lib.sqrt (qs.map fun q => q * q).sum) := by
    rw [sumSquares_fin, Dbl.sqrt_fin, if_neg hnn]
  constructor
  · intro hpos
    have hn : normalize lib (qs.map .fin)
        = (qs.map fun q => q / lib.sqrt (qs.map fun q => q * q).sum).map .fin := by
      unfold normalize
      rw [hmag]
      simp only [Dbl.gt_fin, hpos, decide_True, if_true, List.map_map]
      apply List.map_congr_left
      intro q _
      simp [Dbl.div_fin, ne_of_gt hpos]
    refine ⟨hn, ?_⟩
    rw [hn, sumSquares_fin, sum_squares_div, hs]
    have hS : (qs.map fun q => q * q).sum ≠ 0 := by
      intro h0
      rw [h0] at hs hpos
      have := mul_self_eq_zero.1 hs
      linarith
    rw [div_self hS]
  · intro hnp
    refine ⟨?_, ?_⟩
    · unfold normalize
      rw [hmag]
      simp only [Dbl.gt_fin, hnp, decide_False, Bool.false_eq_true, if_false]
    · intro h0
      rw [h0] at hs
      exact sum_squares_eq_zero qs (by rw [← hs]; ring)

theorem normalize_finite_witness :
    sumSquares (normalize ⟨fun q => if q = 25 then 5 else 0, fun _ => 0⟩ ([3, 4].map .fin))
      = .fin 1 :=
  ((normalize_finite ⟨fun q => if q = 25 then 5 else 0, fun _ => 0⟩ [3, 4]
    (by norm_num)).1 (by norm_num)).2

theorem statsLoop_finite (lib : Libm) (size : Nat) (hsize : size ≠ 0)
    (counts : List (KmerKey × Int)) (rare : Int) (e : ℚ) :
    ∃ e1, (statsLoop lib size counts (rare, .fin e)).2 = .fin e1 := by
  induction counts generalizing rare e with
  | nil => exact ⟨e, rfl⟩
  | cons p ps ih =>
    have hs : (size : ℚ) ≠ 0 := by exact_mod_cast hsize
    have hs' : ((size : Int) : ℚ) ≠ 0 := by exact_mod_cast hsize
    rw [statsLoop]
    simp only [Dbl.ofInt, Dbl.div_fin, if_neg hs', Dbl.gt_fin, Dbl.log2_fin]
    by_cases hpos : (0 : ℚ) < (p.2 : ℚ) / ((size : Int) : ℚ)
    · simp only [hpos, decide_True, if_true, if_neg (not_lt.2 (le_of_lt hpos)),
        if_neg (ne_of_gt hpos), Dbl.mul_fin, Dbl.sub_fin]
      exact ih _ _
    · simp only [hpos, decide_False, Bool.false_eq_true, if_false]
      exact ih _ _

/-- Outside the degenerate inputs the features are finite: for a sequence whose
length is not 0 as an `int` and counts whose sum is not 0 as an `int`, every
feature is a finite value. -/
theorem features_finite (lib : Libm) (counts : List (KmerKey × Int)) (sequence : List Char)
    (hseq : wrapInt sequence.length ≠ 0) (htot : totalKmers counts ≠ 0) :
    ∃ qs : List ℚ, qs.length = 5 ∧ features lib counts sequence = qs.map .fin := by
  have hlen : ((wrapInt sequence.length : Int) : ℚ) ≠ 0 := by exact_mod_cast hseq
  have htot' : ((totalKmers counts : Int) : ℚ) ≠ 0 := by exact_mod_cast htot
  have hsize : counts.length ≠ 0 := by
    intro h
    rw [List.length_eq_zero.1 h] at htot
    exact htot rfl
  have hsize' : (((counts.length : Nat) : Int) : ℚ) ≠ 0 := by exact_mod_cast hsize
  obtain ⟨e1, he1⟩ := statsLoop_finite lib counts.length hsize counts 0 0
  refine ⟨[((compositionLoop sequence (0, 0)).1 : ℚ) / ((wrapInt sequence.length : Int) : ℚ),
    ((statsLoop lib counts.length counts (0, .fin 0)).1 : ℚ) / ((totalKmers counts : Int) : ℚ),
    ((compositionLoop sequence (0, 0)).2 : ℚ) / ((wrapInt sequence.length : Int) : ℚ),
    e1 / (((counts.length : Nat) : Int) : ℚ),
    (((0 : Int)) : ℚ) / ((totalKmers counts : Int) : ℚ)], rfl, ?_⟩
  simp only [features, Dbl.ofInt, Dbl.div_fin, if_neg hlen, if_neg htot', he1, if_neg hsize',
    List.map_cons, List.map_nil]

theorem features_finite_witness :
    ∃ qs : List ℚ, qs.length = 5 ∧
      features ⟨fun _ => 0, fun _ => 0⟩ [(0, 8)] (List.replicate 10 'A') = qs.map .fin :=
  features_finite ⟨fun _ => 0, fun _ => 0⟩ [(0, 8)] (List.replicate 10 'A')
    (by decide) (by decide)

end GeneInsight
